import Mathlib

/-!
# portcalls: cache refresh, vessel identity resolution and the port-event timeline

A shallow embedding of `portcalls.go` and of the standard-library routines it
relies on (`sort.Slice`, `time.Time`, `url.QueryEscape`), followed by the
properties of the natural-language specification.

Conventions.
* A Go `int` is a Lean `Int`; slice indices and loop counters are `Nat`.
* A Go slice is a Lean `List`; `data.Swap(i, j)` and `data.Less(i, j)` act on
  list positions.
* A `for` loop is a structural recursion on a counter of the passes left: the
  loop's own variant where it counts or scans, a bound on the passes for the
  two partition loops and for the outer loop of `pdqsort_func`.
-/

namespace GoSort

/-! ## `sort.Slice` (package `sort`, pattern-defeating quicksort) -/

/-- The `data.Less(i, j)` call of `lessSwap`: the caller's comparison at two positions
(`false` outside the slice, where Go panics). -/
def lessAt {α : Type} (less : α → α → Bool) (data : List α) (i j : Nat) : Bool :=
  match data[i]?, data[j]? with
  | some x, some y => less x y
  | _, _ => false

/-- The `data.Swap(i, j)` call of `lessSwap`: exchange two positions (nothing outside the
slice, where Go panics). -/
def swapAt {α : Type} (data : List α) (i j : Nat) : List α :=
  match data[i]?, data[j]? with
  | some x, some y => (data.set i y).set j x
  | _, _ => data

/-- Inner loop of `insertionSort_func`:
`for j := i; j > a && data.Less(j, j-1); j-- { data.Swap(j, j-1) }`. -/
def insertDown {α : Type} (less : α → α → Bool) (a : Nat) : Nat → List α → List α
  | 0, data => data
  | j + 1, data =>
    if a < j + 1 && lessAt less data (j + 1) j then
      insertDown less a j (swapAt data (j + 1) j)
    else data

/-- Outer loop of `insertionSort_func`: `for i := a + 1; i < b; i++`, with `n = b - i`
iterations left. -/
def insertionLoop {α : Type} (less : α → α → Bool) (a : Nat) : Nat → Nat → List α → List α
  | 0, _, data => data
  | n + 1, i, data => insertionLoop less a n (i + 1) (insertDown less a i data)

/-- `insertionSort_func` sorts `data[a:b]` using insertion sort. -/
def insertionSort_func {α : Type} (less : α → α → Bool) (data : List α) (a b : Nat) : List α :=
  insertionLoop less a (b - (a + 1)) (a + 1) data

/-- `siftDown_func` implements the heap property on `data[lo:hi]`; `first` is the offset
of the heap root. The loop variant is `hi - root`. -/
def siftDown_func {α : Type} (less : α → α → Bool) (hi first : Nat) :
    Nat → Nat → List α → List α
  | 0, _, data => data
  | n + 1, root, data =>
    let child := 2 * root + 1
    if child ≥ hi then data
    else
      let child :=
        if child + 1 < hi && lessAt less data (first + child) (first + child + 1) then child + 1
        else child
      if !lessAt less data (first + root) (first + child) then data
      else siftDown_func less hi first n child (swapAt data (first + root) (first + child))

/-- First loop of `heapSort_func`: `for i := (hi - 1) / 2; i >= 0; i--`, with `n = i + 1`. -/
def heapBuild {α : Type} (less : α → α → Bool) (hi first : Nat) : Nat → List α → List α
  | 0, data => data
  | i + 1, data => heapBuild less hi first i (siftDown_func less hi first (hi - i) i data)

/-- Second loop of `heapSort_func`: `for i := hi - 1; i >= 0; i--`, with `n = i + 1`. -/
def heapPop {α : Type} (less : α → α → Bool) (first : Nat) : Nat → List α → List α
  | 0, data => data
  | i + 1, data =>
    heapPop less first i (siftDown_func less i first i 0 (swapAt data first (first + i)))

/-- `heapSort_func` sorts `data[a:b]` with a heap. -/
def heapSort_func {α : Type} (less : α → α → Bool) (data : List α) (a b : Nat) : List α :=
  let first := a
  let hi := b - a
  heapPop less first hi (heapBuild less hi first ((hi - 1) / 2 + 1) data)

/-- The type `sortedHint` of package `sort`. -/
inductive sortedHint
  | unknownHint
  | increasingHint
  | decreasingHint
  deriving DecidableEq, Repr

/-- `order2_func` returns `x, y` with `data[x] <= data[y]`, counting a swap of the pair. -/
def order2_func {α : Type} (less : α → α → Bool) (data : List α) (a b swaps : Nat) :
    Nat × Nat × Nat :=
  if lessAt less data b a then (b, a, swaps + 1) else (a, b, swaps)

/-- `median_func` returns the position of the median of `data[a], data[b], data[c]`. -/
def median_func {α : Type} (less : α → α → Bool) (data : List α) (a b c swaps : Nat) :
    Nat × Nat :=
  let (a, b, swaps) := order2_func less data a b swaps
  let (b, c, swaps) := order2_func less data b c swaps
  let (_, b, swaps) := order2_func less data a b swaps
  let _ := c
  (b, swaps)

/-- `medianAdjacent_func` finds the median of `data[a - 1], data[a], data[a + 1]`. -/
def medianAdjacent_func {α : Type} (less : α → α → Bool) (data : List α) (a swaps : Nat) :
    Nat × Nat :=
  median_func less data (a - 1) a (a + 1) swaps

/-- `choosePivot_func` chooses a pivot in `data[a:b]`: a static pivot below 8 elements,
the median of three below 50, Tukey's ninther from 50 on. -/
def choosePivot_func {α : Type} (less : α → α → Bool) (data : List α) (a b : Nat) :
    Nat × sortedHint :=
  let l := b - a
  let i := a + l / 4 * 1
  let j := a + l / 4 * 2
  let k := a + l / 4 * 3
  let (j, swaps) :=
    if l ≥ 8 then
      if l ≥ 50 then
        let (i, s) := medianAdjacent_func less data i 0
        let (j, s) := medianAdjacent_func less data j s
        let (k, s) := medianAdjacent_func less data k s
        median_func less data i j k s
      else median_func less data i j k 0
    else (j, 0)
  if swaps = 0 then (j, sortedHint.increasingHint)
  else if swaps = 4 * 3 then (j, sortedHint.decreasingHint)
  else (j, sortedHint.unknownHint)

/-- `reverseRange_func`: `for i < j { data.Swap(i, j); i++; j-- }`, `n` iterations left. -/
def reverseLoop {α : Type} : Nat → Nat → Nat → List α → List α
  | 0, _, _, data => data
  | n + 1, i, j, data => if i < j then reverseLoop n (i + 1) (j - 1) (swapAt data i j) else data

/-- `reverseRange_func` reverses `data[a:b]`. -/
def reverseRange_func {α : Type} (data : List α) (a b : Nat) : List α :=
  reverseLoop (b - a) a (b - 1) data

/-- `bits.Len`: the number of bits needed to write `n`. -/
def bitsLen (n : Nat) : Nat := if n = 0 then 0 else Nat.log2 n + 1

/-- `nextPowerOfTwo` of package `sort`. -/
def nextPowerOfTwo (length : Nat) : Nat := (1 <<< bitsLen length) % 2 ^ 64

/-- The generator `xorshift.Next` on a 64-bit state; `breakPatterns_func` draws three
positions from it. -/
def xorshiftNext (r : Nat) : Nat :=
  let r := r ^^^ ((r <<< 13) % 2 ^ 64)
  let r := r ^^^ (r >>> 7)
  r ^^^ ((r <<< 17) % 2 ^ 64)

/-- The three swaps of `breakPatterns_func`: `for i := 0; i < 3; i++`. -/
def breakLoop {α : Type} (a length modulus idx : Nat) : Nat → Nat → Nat → List α → List α
  | 0, _, _, data => data
  | n + 1, i, random, data =>
    let random := xorshiftNext random
    let other := random &&& (modulus - 1)
    let other := if other ≥ length then other - length else other
    breakLoop a length modulus idx n (i + 1) random (swapAt data (idx + i) (a + other))

/-- `breakPatterns_func` scatters three elements around the middle of `data[a:b]`. -/
def breakPatterns_func {α : Type} (data : List α) (a b : Nat) : List α :=
  let length := b - a
  if length ≥ 8 then
    breakLoop a length (nextPowerOfTwo length) (a + (length / 4) * 2 - 1) 3 0 length data
  else data

/-- Scan `for i < b && !data.Less(i, i-1) { i++ }` of `partialInsertionSort_func`. -/
def scanSorted {α : Type} (less : α → α → Bool) (data : List α) (b : Nat) : Nat → Nat → Nat
  | 0, i => i
  | n + 1, i => if i < b && !lessAt less data i (i - 1) then scanSorted less data b n (i + 1) else i

/-- Shift the smaller one to the left:
`for j := i - 1; j >= 1; j-- { if !data.Less(j, j-1) { break }; data.Swap(j, j-1) }`. -/
def shiftLeft {α : Type} (less : α → α → Bool) : Nat → List α → List α
  | 0, data => data
  | j + 1, data =>
    if !lessAt less data (j + 1) j then data else shiftLeft less j (swapAt data (j + 1) j)

/-- Shift the greater one to the right:
`for j := i + 1; j < b; j++ { if !data.Less(j, j-1) { break }; data.Swap(j, j-1) }`. -/
def shiftRight {α : Type} (less : α → α → Bool) : Nat → Nat → List α → List α
  | 0, _, data => data
  | n + 1, j, data =>
    if !lessAt less data j (j - 1) then data
    else shiftRight less n (j + 1) (swapAt data j (j - 1))

/-- Loop `for j := 0; j < maxSteps; j++` of `partialInsertionSort_func`, carrying `i`. -/
def partialLoop {α : Type} (less : α → α → Bool) (a b : Nat) :
    Nat → Nat → List α → List α × Bool
  | 0, _, data => (data, false)
  | steps + 1, i, data =>
    let i := scanSorted less data b (b - i) i
    if i = b then (data, true)
    else if b - a < 50 then (data, false)
    else
      let data := swapAt data i (i - 1)
      let data := if i - a ≥ 2 then shiftLeft less (i - 1) data else data
      let data := if b - i ≥ 2 then shiftRight less (b - (i + 1)) (i + 1) data else data
      partialLoop less a b steps i data

/-- `partialInsertionSort_func` partially sorts `data[a:b]`; the flag tells whether the
range is sorted at the end. -/
def partialInsertionSort_func {α : Type} (less : α → α → Bool) (data : List α) (a b : Nat) :
    List α × Bool :=
  partialLoop less a b 5 (a + 1) data

/-- Scan `for i <= j && data.Less(i, a) { i++ }` of `partition_func`. -/
def scanLess {α : Type} (less : α → α → Bool) (data : List α) (a j : Nat) : Nat → Nat → Nat
  | 0, i => i
  | n + 1, i => if i ≤ j && lessAt less data i a then scanLess less data a j n (i + 1) else i

/-- Scan `for i <= j && !data.Less(j, a) { j-- }` of `partition_func`. -/
def scanNotLess {α : Type} (less : α → α → Bool) (data : List α) (a i : Nat) : Nat → Nat → Nat
  | 0, j => j
  | n + 1, j => if i ≤ j && !lessAt less data j a then scanNotLess less data a i n (j - 1) else j

/-- The `for { ... }` loop of `partition_func`, returning the final `j` and the data; `n`
bounds the passes left, since a pass that swaps narrows `j - i` by two or more. -/
def partitionLoop {α : Type} (less : α → α → Bool) (a : Nat) :
    Nat → Nat → Nat → List α → Nat × List α
  | 0, _, j, data => (j, data)
  | n + 1, i, j, data =>
    let i := scanLess less data a j (j + 1 - i) i
    let j := scanNotLess less data a i (j + 1 - i) j
    if i > j then (j, data)
    else partitionLoop less a n (i + 1) (j - 1) (swapAt data i j)

/-- `partition_func` does one quicksort partition around `data[pivot]`; it returns the new
pivot position and whether the range was already partitioned. -/
def partition_func {α : Type} (less : α → α → Bool) (data : List α) (a b pivot : Nat) :
    List α × Nat × Bool :=
  let data := swapAt data a pivot
  let i := a + 1
  let j := b - 1
  let i := scanLess less data a j (j + 1 - i) i
  let j := scanNotLess less data a i (j + 1 - i) j
  if i > j then (swapAt data j a, j, true)
  else
    let data := swapAt data i j
    let (j, data) := partitionLoop less a (j + 1 - i) (i + 1) (j - 1) data
    (swapAt data j a, j, false)

/-- Scan `for i <= j && !data.Less(a, i) { i++ }` of `partitionEqual_func`. -/
def scanNotGreater {α : Type} (less : α → α → Bool) (data : List α) (a j : Nat) :
    Nat → Nat → Nat
  | 0, i => i
  | n + 1, i =>
    if i ≤ j && !lessAt less data a i then scanNotGreater less data a j n (i + 1) else i

/-- Scan `for i <= j && data.Less(a, j) { j-- }` of `partitionEqual_func`. -/
def scanGreater {α : Type} (less : α → α → Bool) (data : List α) (a i : Nat) : Nat → Nat → Nat
  | 0, j => j
  | n + 1, j => if i ≤ j && lessAt less data a j then scanGreater less data a i n (j - 1) else j

/-- The `for { ... }` loop of `partitionEqual_func`, returning the final `i` and the data;
`n` bounds the passes left, since a pass that swaps narrows `j - i` by two or more. -/
def partitionEqualLoop {α : Type} (less : α → α → Bool) (a : Nat) :
    Nat → Nat → Nat → List α → Nat × List α
  | 0, i, _, data => (i, data)
  | n + 1, i, j, data =>
    let i := scanNotGreater less data a j (j + 1 - i) i
    let j := scanGreater less data a i (j + 1 - i) j
    if i > j then (i, data)
    else partitionEqualLoop less a n (i + 1) (j - 1) (swapAt data i j)

/-- `partitionEqual_func` partitions `data[a:b]` into the elements equal to `data[pivot]`
followed by the elements greater than it. -/
def partitionEqual_func {α : Type} (less : α → α → Bool) (data : List α) (a b pivot : Nat) :
    List α × Nat :=
  let data := swapAt data a pivot
  let (i, data) := partitionEqualLoop less a (b - a) (a + 1) (b - 1) data
  (data, i)

/-- The loop of `pdqsort_func` on `data[a:b]`, with its state `limit`, `wasBalanced`,
`wasPartitioned`. Every pass shortens `b - a`, so `fuel ≥ b - a` passes suffice; `none`
means the fuel ran out. -/
def pdqsortLoop {α : Type} (less : α → α → Bool) :
    Nat → List α → Nat → Nat → Nat → Bool → Bool → Option (List α)
  | fuel, data, a, b, limit, wasBalanced, wasPartitioned =>
    let length := b - a
    if length ≤ 12 then some (insertionSort_func less data a b)
    else if limit = 0 then some (heapSort_func less data a b)
    else
      match fuel with
      | 0 => none
      | fuel + 1 =>
        let (data, limit) :=
          if !wasBalanced then (breakPatterns_func data a b, limit - 1) else (data, limit)
        let (pivot, hint) := choosePivot_func less data a b
        let (data, pivot, hint) :=
          if hint = sortedHint.decreasingHint then
            (reverseRange_func data a b, (b - 1) - (pivot - a), sortedHint.increasingHint)
          else (data, pivot, hint)
        let (data, done) :=
          if wasBalanced && wasPartitioned && hint = sortedHint.increasingHint then
            partialInsertionSort_func less data a b
          else (data, false)
        if done then some data
        else if a > 0 && !lessAt less data (a - 1) pivot then
          let (data, mid) := partitionEqual_func less data a b pivot
          pdqsortLoop less fuel data mid b limit wasBalanced wasPartitioned
        else
          let (data, mid, alreadyPartitioned) := partition_func less data a b pivot
          let leftLen := mid - a
          let rightLen := b - mid
          let balanceThreshold := length / 8
          if leftLen < rightLen then
            match pdqsortLoop less fuel data a mid limit true true with
            | none => none
            | some data =>
              pdqsortLoop less fuel data (mid + 1) b limit (leftLen ≥ balanceThreshold)
                alreadyPartitioned
          else
            match pdqsortLoop less fuel data (mid + 1) b limit true true with
            | none => none
            | some data =>
              pdqsortLoop less fuel data a mid limit (rightLen ≥ balanceThreshold)
                alreadyPartitioned

/-- `pdqsort_func` sorts `data[a:b]`; `limit` is the number of badly balanced pivots
allowed before falling back to heapsort. -/
def pdqsort_func {α : Type} (less : α → α → Bool) (fuel : Nat) (data : List α)
    (a b limit : Nat) : Option (List α) :=
  pdqsortLoop less fuel data a b limit true true

/-- `sort.Slice(x, less)`, where `less(i, j)` compares the elements at `i` and `j`. -/
def Slice {α : Type} (less : α → α → Bool) (x : List α) : Option (List α) :=
  let length := x.length
  let limit := bitsLen length
  pdqsort_func less length x 0 length limit

end GoSort


/-! ## `time.Time` -/

/-- A `time.Time` value without monotonic clock reading, as produced by the JSON decoder
and by `UTC()`: the instant, in nanoseconds since the zero time (January 1, year 1,
00:00:00 UTC). The location of a value only matters for formatting and for `AddDate`,
where it is passed explicitly. -/
structure Time where
  ns : Int
  deriving DecidableEq, Repr

/-- One entry of a time zone table, as returned by `Location.lookup`: the offset in seconds
east of UTC, in force for Unix seconds `start ≤ s < end`. -/
structure Zone where
  offset : Int
  start : Int
  «end» : Int
  deriving DecidableEq, Repr

/-- A `time.Location`: the zone in force at every Unix second. -/
structure Location where
  lookup : Int → Zone

namespace Time

/-- `time.Hour` and friends, of type `time.Duration` (nanoseconds). -/
def Second : Int := 1000000000

/-- `time.Hour`. -/
def Hour : Int := 3600 * Second

/-- Seconds from the zero time to the Unix epoch (`unixToInternal`). -/
def unixToInternal : Int := 62135596800

/-- Seconds in a calendar day (`secondsPerDay`). -/
def secondsPerDay : Int := 86400

/-- The zero value of `time.Time`. -/
def zero : Time := ⟨0⟩

/-- `t.IsZero()`. -/
def IsZero (t : Time) : Bool := t.ns == 0

/-- `t.Before(u)`: both values carry no monotonic reading, the instants are compared. -/
def Before (t u : Time) : Bool := decide (t.ns < u.ns)

/-- `t.UTC()`: the same instant with the location set to UTC. -/
def UTC (t : Time) : Time := t

/-- `t.Add(d)`. -/
def Add (t : Time) (d : Int) : Time := ⟨t.ns + d⟩

/-- `t.Unix()`: whole seconds since the Unix epoch. -/
def Unix (t : Time) : Int := t.ns / Second - unixToInternal

/-- `t.Nanosecond()`. -/
def Nanosecond (t : Time) : Int := t.ns % Second

/-- `t.AddDate(0, 0, days)` for a `t` in location `loc`: `Date(year, month, day+days, hour,
min, sec, nsec, loc)`. `Date` normalises the day, so the wall-clock reading of `t`, taken
as if it were UTC, moves by `days * 86400` seconds; the zone offset for the new reading is
then looked up the way `Date` does. -/
def AddDateDays (loc : Location) (t : Time) (days : Int) : Time :=
  let abs := t.Unix + (loc.lookup t.Unix).offset
  let unix := abs + days * secondsPerDay
  let z := loc.lookup unix
  let offset :=
    if z.offset ≠ 0 then
      let utc := unix - z.offset
      if utc < z.start ∨ utc ≥ z.«end» then (loc.lookup utc).offset else z.offset
    else 0
  ⟨(unix - offset + unixToInternal) * Second + t.Nanosecond⟩

end Time

/-! ## Data model of `portcalls.go` -/

/-- A Go `float64`, kept as its IEEE-754 bit pattern; the values are only carried. -/
structure float64 where
  bits : Nat
  deriving DecidableEq, Repr

/-- Element type of `IMOInformation`. -/
structure imoInformation where
  ImoGeneralDeclaration : String
  NumberOfCrew : Int
  NumberOfPassangers : Int
  deriving DecidableEq, Repr

/-- Element type of `PortAreaDetails`. -/
structure portAreaDetail where
  PortAreaName : String
  ATA : Time
  ATD : Time
  ETA : Time
  ETD : Time
  deriving DecidableEq, Repr

/-- Element type of `PortCalls`. -/
structure portCall where
  PortToVisit : String
  PrevPort : String
  NextPort : String
  VesselName : String
  MMSI : Int
  IMOLloyds : Int
  IMOInformation : List imoInformation
  PortAreaDetails : List portAreaDetail
  deriving DecidableEq, Repr

/-- The type `portCalls`, returned from `portCallsURL`. -/
structure portCalls where
  PortCallsUpdated : Time
  PortCalls : List portCall
  deriving DecidableEq, Repr

/-- Field `VesselConstruction` of `vesselDetails`. -/
structure vesselConstruction where
  VesselTypeCode : Int
  VesselTypeName : String
  deriving DecidableEq, Repr

/-- Field `VesselDimensions` of `vesselDetails`. -/
structure vesselDimensions where
  Length : float64
  OverallLength : float64
  Height : float64
  Breadth : float64
  Draught : float64
  deriving DecidableEq, Repr

/-- Field `VesselRegistration` of `vesselDetails`. -/
structure vesselRegistration where
  Nationality : String
  PortOfRegistry : String
  deriving DecidableEq, Repr

/-- The type `vesselDetails`, returned (as a json array) from `vesselDetailsURL`. -/
structure vesselDetails where
  MMSI : Int
  Name : String
  UpdateTimestamp : Time
  VesselConstruction : vesselConstruction
  VesselDimensions : vesselDimensions
  VesselRegistration : vesselRegistration
  deriving DecidableEq, Repr

/-- The type `portEvent`: a port arrival or departure. -/
structure portEvent where
  event : String
  vessel : String
  mmsi : Int
  imoLloyds : Int
  portArea : String
  estimate : Time
  actual : Time
  deriving DecidableEq, Repr

/-- The zero value of `portCalls` (`var pc portCalls`). -/
def portCalls.zero : portCalls := ⟨Time.zero, []⟩

/-- The zero value of `vesselDetails` (`&vesselDetails{}`). -/
def vesselDetails.zero : vesselDetails :=
  ⟨0, "", Time.zero, ⟨0, ""⟩, ⟨⟨0⟩, ⟨0⟩, ⟨0⟩, ⟨0⟩, ⟨0⟩⟩, ⟨"", ""⟩⟩

/-- `portCallsFile`. -/
def portCallsFile : String := "portcalls.json"

/-- `portCallsURL`. -/
def portCallsURL : String := "https://meri.digitraffic.fi/api/v1/port-calls"

/-- `fmt.Sprintf(vesselDetailsFile, key, value)`. -/
def vesselDetailsFile (key value : String) : String :=
  "vessel-details-" ++ key ++ "-" ++ value ++ ".json"

/-- `fmt.Sprintf(vesselDetailsURL, key, value)`. -/
def vesselDetailsURL (key value : String) : String :=
  "https://meri.digitraffic.fi/api/v1/metadata/vessel-details?" ++ key ++ "=" ++ value

/-! ## `portEvent.timestamp` and `portEvents` -/

/-- `portEvent.timestamp`: the actual time, or the estimate while the actual time is zero. -/
def portEvent.timestamp (p : portEvent) : Time :=
  if p.actual.IsZero then p.estimate else p.actual

/-- The loop `for _, area := range call.PortAreaDetails` of `portEvents`. -/
def areaLoop (call : portCall) : List portAreaDetail → List portEvent → List portEvent
  | [], events => events
  | area :: rest, events =>
    let events := events ++ [{
      event := "Arrival"
      vessel := call.VesselName
      mmsi := call.MMSI
      imoLloyds := call.IMOLloyds
      portArea := area.PortAreaName
      estimate := area.ETA.UTC
      actual := area.ATA.UTC }]
    let events := events ++ [{
      event := "Departure"
      vessel := call.VesselName
      mmsi := call.MMSI
      imoLloyds := call.IMOLloyds
      portArea := area.PortAreaName
      estimate := area.ETD.UTC
      actual := area.ATD.UTC }]
    areaLoop call rest events

/-- The loop `for _, call := range pc.PortCalls` of `portEvents`. -/
def callLoop (port : String) : List portCall → List portEvent → List portEvent
  | [], events => events
  | call :: rest, events =>
    if call.PortToVisit != port then callLoop port rest events
    else callLoop port rest (areaLoop call call.PortAreaDetails events)

/-- The comparison closure handed to `sort.Slice` by `portEvents`. -/
def eventLess (x y : portEvent) : Bool := x.timestamp.Before y.timestamp

/-- A Go `error` value: either one for which `errors.Is(err, os.ErrNotExist)` holds, or
any other error, identified by its message. -/
inductive GoError
  | notExist (path : String)
  | other (msg : String)
  deriving DecidableEq, Repr

/-- `errors.Is(err, os.ErrNotExist)`. -/
def GoError.isNotExist : GoError → Bool
  | .notExist _ => true
  | .other _ => false

/-- `portEvents` gets all events for a specific port. The result is `none` only if the
sort ran out of fuel; otherwise it is the pair `(events, err)` of the Go function. -/
def portEvents (pc : portCalls) (port : String) : Option (List portEvent × Option GoError) :=
  let events := callLoop port pc.PortCalls []
  match GoSort.Slice eventLess events with
  | none => none
  | some events => some (events, none)

/-! ## `url.QueryEscape` -/

/-- `shouldEscape(c, encodeQueryComponent)` of package `net/url`. -/
def shouldEscape (c : UInt8) : Bool :=
  if (97 ≤ c && c ≤ 122) || (65 ≤ c && c ≤ 90) || (48 ≤ c && c ≤ 57) then false
  else if c == 45 || c == 95 || c == 46 || c == 126 then false
  else true

/-- The digit table `upperhex` of package `net/url`. -/
def upperhex (n : UInt8) : Char :=
  "0123456789ABCDEF".data.getD n.toNat '0'

/-- One byte of `escape(s, encodeQueryComponent)`. -/
def escapeByte (c : UInt8) : List Char :=
  if c == 32 then ['+']
  else if shouldEscape c then ['%', upperhex (c >>> 4), upperhex (c &&& 15)]
  else [Char.ofNat c.toNat]

/-- `url.QueryEscape(s)`, byte by byte over the UTF-8 encoding of `s`. -/
def QueryEscape (s : String) : String :=
  String.mk ((s.data.flatMap String.utf8EncodeChar).flatMap escapeByte)

/-! ## The cache directory, the network and the clock -/

/-- What `os.Open` finds under a file name of the cache directory. -/
inductive FileState
  | absent
  | unreadable (msg : String)
  | content (bytes : String)
  deriving DecidableEq, Repr

/-- How one call of `download` ends: `http.Get` fails, `os.Create` fails, `io.Copy` fails
after writing part of the body, or the whole body is written; a failure carries the error
the failing call returned. -/
inductive DownloadOutcome
  | getFailed (err : GoError)
  | createFailed (err : GoError)
  | copyFailed (err : GoError) (written : String)
  | saved (body : String)
  deriving DecidableEq, Repr

/-- The observable I/O of a run. -/
inductive IOEvent
  | read (filename : String) (found : FileState)
  | download (filename url : String) (outcome : DownloadOutcome)
  deriving DecidableEq, Repr

/-- One printed line: the event and the vessel details shown with it. -/
structure Row where
  event : portEvent
  details : vesselDetails
  deriving DecidableEq, Repr

/-- What `run` prints: the `Last update` header and the lines below it. -/
structure Output where
  updated : Time
  rows : List Row
  deriving DecidableEq, Repr

/-- The surroundings of a run, fixed from outside: the JSON decoder for the two payload
types (decoding `bytes` into an existing value), the outcome of the `k`-th download, the
`k`-th reading of `time.Now()`, the local time zone, and the error, if any, of copying the
printed report to standard output. -/
structure Env where
  decodePortCalls : String → portCalls → Except String portCalls
  decodeVesselDetails : String → List vesselDetails → Except String (List vesselDetails)
  fetch : Nat → String → String → DownloadOutcome
  clock : Nat → Time
  «Local» : Location
  stdout : Output → Option GoError

/-- The state a run acts on: the files of the cache directory, the I/O done so far, and
the numbers of downloads and clock readings so far. -/
structure World where
  files : String → FileState
  trace : List IOEvent
  downloads : Nat
  clockReads : Nat

/-- `time.Now()`. -/
def Now (env : Env) (w : World) : Time × World :=
  (env.clock w.clockReads, { w with clockReads := w.clockReads + 1 })

/-- `readfile` decodes a json file into `v`; `decode` is the decoder for the type of `v`. -/
def readfile {T : Type} (decode : String → T → Except String T) (w : World)
    (filename : String) (v : T) : Except GoError T × World :=
  let found := w.files filename
  let w := { w with trace := w.trace ++ [IOEvent.read filename found] }
  match found with
  | .absent => (.error (.notExist filename), w)
  | .unreadable msg => (.error (.other msg), w)
  | .content bytes =>
    match decode bytes v with
    | .error msg => (.error (.other msg), w)
    | .ok v => (.ok v, w)

/-- `download` gets the url and saves it to filename. -/
def download (env : Env) (w : World) (filename url : String) : Option GoError × World :=
  let outcome := env.fetch w.downloads filename url
  let w := { w with
    trace := w.trace ++ [IOEvent.download filename url outcome]
    downloads := w.downloads + 1 }
  match outcome with
  | .getFailed err => (some err, w)
  | .createFailed err => (some err, w)
  | .copyFailed err written =>
    (some err,
      { w with files := fun f => if f = filename then .content written else w.files f })
  | .saved body =>
    (none, { w with files := fun f => if f = filename then .content body else w.files f })

/-! ## `getVesselDetails` -/

/-- The `switch` of `getVesselDetails` choosing `key` and `value`; `none` is its `default`
branch. -/
def vesselKey (mmsi imoLloyds : Int) (name : String) : Option (String × String) :=
  if mmsi > 0 then some ("mmsi", toString mmsi)
  else if imoLloyds > 0 then some ("imo", toString imoLloyds)
  else if name != "" then some ("vesselName", QueryEscape name)
  else none

/-- `getVesselDetails` retrieves the details for a vessel from the cache, downloading
them first when the entry is missing or empty. -/
def getVesselDetails (env : Env) (w : World) (mmsi imoLloyds : Int) (name : String) :
    Except GoError vesselDetails × World :=
  match vesselKey mmsi imoLloyds name with
  | none => (.error (.other "no mmsi, imoLloyds or name specified"), w)
  | some (key, value) =>
    let filename := vesselDetailsFile key value
    let url := vesselDetailsURL key value
    let finish (vds : List vesselDetails) (w : World) : Except GoError vesselDetails × World :=
      match vds with
      | [vd] => (.ok vd, w)
      | _ =>
        (.error (.other ("getVesselDetails: expected 1 item, got " ++ toString vds.length)), w)
    let reload (w : World) : Except GoError vesselDetails × World :=
      match download env w filename url with
      | (some err, w) => (.error err, w)
      | (none, w) =>
        match readfile env.decodeVesselDetails w filename [] with
        | (.error err, w) => (.error err, w)
        | (.ok vds, w) => finish vds w
    match readfile env.decodeVesselDetails w filename [] with
    | (.error err, w) => if err.isNotExist then reload w else (.error err, w)
    | (.ok vds, w) => if vds.length = 0 then reload w else finish vds w

/-! ## `run` -/

/-- The guard `e.timestamp().Before(time.Now().AddDate(0, 0, -1))` of the loop of `run`,
for the clock reading `now`. -/
def tooOld (loc : Location) (now : Time) (e : portEvent) : Bool :=
  e.timestamp.Before (now.AddDateDays loc (-1))

/-- The loop `for _, e := range events` of `run`. -/
def eventLoop (env : Env) : List portEvent → World → List Row → List Row × World
  | [], w, rows => (rows, w)
  | e :: rest, w, rows =>
    let (now, w) := Now env w
    if tooOld env.«Local» now e then eventLoop env rest w rows
    else
      match getVesselDetails env w e.mmsi e.imoLloyds e.vessel with
      | (.error _, w) => eventLoop env rest w (rows ++ [⟨e, vesselDetails.zero⟩])
      | (.ok vd, w) => eventLoop env rest w (rows ++ [⟨e, vd⟩])

/-- `run`, from the first read of the port-calls file on (flags are parsed, `portCode` is
not empty and the cache directory is the working directory) to the final
`io.Copy(os.Stdout, &buf)`, whose error it returns. The result is `none` only if the sort
ran out of fuel. -/
def run (env : Env) (w : World) (portCode : String) : Option (Except GoError Output × World) :=
  let rest (pc : portCalls) (w : World) : Option (Except GoError Output × World) :=
    match portEvents pc portCode with
    | none => none
    | some (_, some err) => some (.error err, w)
    | some (events, none) =>
      let (rows, w) := eventLoop env events w []
      match env.stdout ⟨pc.PortCallsUpdated, rows⟩ with
      | some err => some (.error err, w)
      | none => some (.ok ⟨pc.PortCallsUpdated, rows⟩, w)
  let reload (pc : portCalls) (w : World) : Option (Except GoError Output × World) :=
    match download env w portCallsFile portCallsURL with
    | (some err, w) => some (.error err, w)
    | (none, w) =>
      match readfile env.decodePortCalls w portCallsFile pc with
      | (.error err, w) => some (.error err, w)
      | (.ok pc, w) => rest pc w
  match readfile env.decodePortCalls w portCallsFile portCalls.zero with
  | (.error err, w) => if err.isNotExist then reload portCalls.zero w else some (.error err, w)
  | (.ok pc, w) =>
    let (now, w) := Now env w
    if pc.PortCallsUpdated.Before (now.Add (-Time.Hour)) then reload pc w
    else rest pc w

/-! ## Vocabulary of the specification -/

/-- The `Arrival` event the specification derives from an area visit: estimate = ETA,
actual = ATA, with the call's vessel name, MMSI, IMO/Lloyds number and the area name. -/
def arrivalOf (call : portCall) (area : portAreaDetail) : portEvent :=
  ⟨"Arrival", call.VesselName, call.MMSI, call.IMOLloyds, area.PortAreaName, area.ETA, area.ATA⟩

/-- The `Departure` event the specification derives from an area visit: estimate = ETD,
actual = ATD, with the call's vessel name, MMSI, IMO/Lloyds number and the area name. -/
def departureOf (call : portCall) (area : portAreaDetail) : portEvent :=
  ⟨"Departure", call.VesselName, call.MMSI, call.IMOLloyds, area.PortAreaName, area.ETD,
    area.ATD⟩

/-- The emission list `E(pc, p)` of the specification: the calls of `pc` in feed order whose
`PortToVisit` equals `p`, and for each of their area visits first the arrival, then the
departure. -/
def emission (pc : portCalls) (p : String) : List portEvent :=
  (pc.PortCalls.filter (fun call => call.PortToVisit = p)).flatMap
    (fun call => call.PortAreaDetails.flatMap (fun area => [arrivalOf call area, departureOf call area]))

/-- The number of area visits of the calls of `pc` whose `PortToVisit` equals `p`. -/
def matchingVisits (pc : portCalls) (p : String) : Nat :=
  ((pc.PortCalls.filter (fun call => call.PortToVisit = p)).map
    (fun call => call.PortAreaDetails.length)).sum

/-- Whether an I/O event is a download into the file `filename`. -/
def isDownloadOf (filename : String) : IOEvent → Bool
  | .download f _ _ => f = filename
  | .read _ _ => false

/-- Whether an I/O event is a download. -/
def isDownload : IOEvent → Bool
  | .download _ _ _ => true
  | .read _ _ => false

/-- The number of downloads into the file `filename` recorded in a trace. -/
def downloadsOf (filename : String) (trace : List IOEvent) : Nat :=
  trace.countP (isDownloadOf filename)

/-- The cache file `getVesselDetails` uses for the vessel of an event, if the vessel can
be identified. -/
def vesselFileOf (e : portEvent) : Option String :=
  (vesselKey e.mmsi e.imoLloyds e.vessel).map (fun kv => vesselDetailsFile kv.1 kv.2)

/-- The cache-miss test of `getVesselDetails` on the state of an entry: no entry exists, or
the entry exists and decodes to zero records. -/
def cacheMiss (env : Env) : FileState → Bool
  | .absent => true
  | .unreadable _ => false
  | .content bytes =>
    match env.decodeVesselDetails bytes [] with
    | .ok [] => true
    | _ => false

/-- Whether the entry is still a cache miss after a download that was started on a miss: the
download failed before the file was written, or what it wrote decodes to zero records. -/
def missAfter (env : Env) : DownloadOutcome → Bool
  | .getFailed _ => true
  | .createFailed _ => true
  | .copyFailed _ written => cacheMiss env (.content written)
  | .saved body => cacheMiss env (.content body)

/-- The number of downloads into the file `filename` recorded in a trace that left the entry
a cache miss. -/
def missDownloadsOf (env : Env) (filename : String) (trace : List IOEvent) : Nat :=
  trace.countP (fun ev =>
    match ev with
    | .download f _ outcome => f = filename && missAfter env outcome
    | .read _ _ => false)

/-- The error `getVesselDetails` reports for a response with `n` records. -/
def cardinalityError (n : Nat) : GoError :=
  .other ("getVesselDetails: expected 1 item, got " ++ toString n)

/-- The error `getVesselDetails` reports when the vessel cannot be identified. -/
def identityUnresolved : GoError := .other "no mmsi, imoLloyds or name specified"

/-! ## Concrete inputs -/

/-- `time.Unix(sec, 0)`. -/
def unixTime (sec : Int) : Time := ⟨(sec + Time.unixToInternal) * Time.Second⟩

/-- The scenario of the specification: one call for FIKOK with one area visit,
ETA 2024-01-01T10:00Z, no ATA, ETD 14:00Z, ATD 14:05Z; the feed is of 09:30Z. -/
def fikokFeed : portCalls :=
  ⟨unixTime 1704101400,
    [⟨"FIKOK", "SESTO", "EETLL", "AURORA", 230123000, 9000000, [],
      [⟨"Mussalo", Time.zero, unixTime 1704117900, unixTime 1704103200,
        unixTime 1704117600⟩]⟩]⟩

/-- An area visit whose four times all equal 2024-01-01T12:00Z. -/
def noonVisit (name : String) : portAreaDetail :=
  ⟨name, unixTime 1704110400, unixTime 1704110400, unixTime 1704110400, unixTime 1704110400⟩

/-- A call with seven area visits, all of whose times are 2024-01-01T12:00Z, except that the
vessel arrived at `Q3` at 11:00Z. -/
def tiedFeed : portCalls :=
  ⟨unixTime 1704101400,
    [⟨"FIKOK", "SESTO", "EETLL", "AURORA", 230123000, 9000000, [],
      [noonVisit "Q0", noonVisit "Q1", noonVisit "Q2",
        ⟨"Q3", unixTime 1704106800, unixTime 1704110400, unixTime 1704106800,
          unixTime 1704110400⟩,
        noonVisit "Q4", noonVisit "Q5", noonVisit "Q6"]⟩]⟩

/-- A call with six area visits, twelve events, all of whose times are 2024-01-01T12:00Z,
except that the vessel arrived at `Q3` at 11:00Z. -/
def twelveTiedFeed : portCalls :=
  ⟨unixTime 1704101400,
    [⟨"FIKOK", "SESTO", "EETLL", "AURORA", 230123000, 9000000, [],
      [noonVisit "Q0", noonVisit "Q1", noonVisit "Q2",
        ⟨"Q3", unixTime 1704106800, unixTime 1704110400, unixTime 1704106800,
          unixTime 1704110400⟩,
        noonVisit "Q4", noonVisit "Q5"]⟩]⟩

/-- The location `time.UTC`. -/
def utcLocation : Location := ⟨fun _ => ⟨0, -9223372036854775808, 9223372036854775807⟩⟩

/-- The zone table of Europe/Helsinki around 2024-03-31T01:00Z, when the offset changes
from two to three hours east of UTC. -/
def helsinki : Location :=
  ⟨fun s =>
    if s < 1711846800 then ⟨7200, -9223372036854775808, 1711846800⟩
    else ⟨10800, 1711846800, 9223372036854775807⟩⟩

/-- An event of the vessel of `fikokFeed` with the given estimate and no actual time. -/
def estimatedDeparture (estimate : Time) : portEvent :=
  ⟨"Departure", "AURORA", 230123000, 9000000, "Mussalo", estimate, Time.zero⟩

/-- The vessel-details record of the vessel of `fikokFeed`: a Finnish passenger ship of
190 m by 28 m. -/
def auroraDetails : vesselDetails :=
  ⟨230123000, "AURORA", unixTime 1704067200, ⟨60, "Passenger"⟩,
    ⟨⟨0⟩, ⟨0x4067C00000000000⟩, ⟨0⟩, ⟨0x403C000000000000⟩, ⟨0⟩⟩, ⟨"FI", "Helsinki"⟩⟩

/-- An environment at 2024-01-01T09:45Z in UTC: the file content `feed` decodes to
`fikokFeed`, `[]` to an empty array of vessel details and `[aurora]` to the one record
`auroraDetails`, anything else fails to decode; upstream serves `feed` for the port calls
and `[]` for every vessel; standard output accepts the report. -/
def sampleEnv : Env where
  decodePortCalls := fun bytes _ =>
    if bytes = "feed" then .ok fikokFeed else .error "invalid character"
  decodeVesselDetails := fun bytes _ =>
    if bytes = "[]" then .ok []
    else if bytes = "[aurora]" then .ok [auroraDetails]
    else .error "unexpected end of JSON input"
  fetch := fun _ filename _ => if filename = portCallsFile then .saved "feed" else .saved "[]"
  clock := fun _ => unixTime 1704102300
  «Local» := utcLocation
  stdout := fun _ => none

/-- The sample environment with an upstream that serves the one record `[aurora]` for every
vessel. -/
def recordEnv : Env :=
  { sampleEnv with
    fetch := fun _ filename _ =>
      if filename = portCallsFile then .saved "feed" else .saved "[aurora]" }

/-- A cache directory holding only the port-calls file, in the given state. -/
def sampleWorld (state : FileState) : World where
  files := fun f => if f = portCallsFile then state else .absent
  trace := []
  downloads := 0
  clockReads := 0

/-- A cache directory holding a fresh port-calls file and the vessel-details entry of the
vessel of `fikokFeed`, in the given state. -/
def cachedWorld (state : FileState) : World where
  files := fun f =>
    if f = portCallsFile then .content "feed"
    else if f = "vessel-details-mmsi-230123000.json" then state
    else .absent
  trace := []
  downloads := 0
  clockReads := 0

/-- The sample environment moved to Helsinki, 2024-03-31T09:00Z (12:00 local time), the day
the offset changed. -/
def helsinkiEnv : Env :=
  { sampleEnv with clock := fun _ => unixTime 1711875600, «Local» := helsinki }

set_option autoImplicit false

/-! ## Vocabulary of the proofs -/

namespace GoSort

/-- The sort key found at a position (`0` outside the list). -/
def keyAt {α : Type} (key : α → Int) (data : List α) (k : Nat) : Int :=
  match data[k]? with
  | some x => key x
  | none => 0

/-- `ys` comes from `xs` by exchanging elements inside positions `a ≤ k < b` only. -/
structure Within {α : Type} (key : α → Int) (a b : Nat) (xs ys : List α) : Prop where
  length_eq : ys.length = xs.length
  perm : ys.Perm xs
  frame : ∀ k, k < a ∨ b ≤ k → ys[k]? = xs[k]?
  keep : ∀ P : Int → Prop, (∀ k, a ≤ k → k < b → P (keyAt key xs k)) →
    ∀ k, a ≤ k → k < b → P (keyAt key ys k)

/-- Keys do not decrease along positions `a ≤ k < b`. -/
def SortedOn {α : Type} (key : α → Int) (data : List α) (a b : Nat) : Prop :=
  ∀ i j, a ≤ i → i ≤ j → j < b → keyAt key data i ≤ keyAt key data j

/-- Every node `n ≥ lo` of the heap laid out from position `first` carries a key at least
as large as the keys of its children below `hi`. -/
def HeapFrom {α : Type} (key : α → Int) (data : List α) (first lo hi : Nat) : Prop :=
  ∀ n c, lo ≤ n → (c = 2 * n + 1 ∨ c = 2 * n + 2) → c < hi →
    keyAt key data (first + c) ≤ keyAt key data (first + n)

/-- The lower-bound invariant of `pdqsort_func`: the element just before `data[a:b]`, if
any, is not greater than any element of the range. -/
def LowerBound {α : Type} (key : α → Int) (data : List α) (a b : Nat) : Prop :=
  0 < a → ∀ k, a ≤ k → k < b → keyAt key data (a - 1) ≤ keyAt key data k

end GoSort

/-- The last step of `getVesselDetails`: exactly one record is a success. -/
def finishOf (vds : List vesselDetails) : Except GoError vesselDetails :=
  match vds with
  | [vd] => .ok vd
  | _ => .error (cardinalityError vds.length)

/-- The world after `readfile` looked at `filename`. -/
def afterRead (w : World) (filename : String) : World :=
  { w with trace := w.trace ++ [IOEvent.read filename (w.files filename)] }

/-- The part of `run` after the port calls are loaded: derive the events, filter them, look
the vessels up and print. -/
def afterLoad (env : Env) (portCode : String) (pc : portCalls) (w : World) :
    Option (Except GoError Output × World) :=
  match portEvents pc portCode with
  | none => none
  | some (_, some err) => some (.error err, w)
  | some (events, none) =>
    match env.stdout ⟨pc.PortCallsUpdated, (eventLoop env events w []).1⟩ with
    | some err => some (.error err, (eventLoop env events w []).2)
    | none =>
      some (.ok ⟨pc.PortCallsUpdated, (eventLoop env events w []).1⟩,
        (eventLoop env events w []).2)

/-- The world after one more reading of `time.Now()`. -/
def tick (w : World) : World := { w with clockReads := w.clockReads + 1 }

namespace GoSort

/-! ## Correctness of `sort.Slice` -/

section Basics

variable {α : Type}

theorem swapAt_length (data : List α) (i j : Nat) : (swapAt data i j).length = data.length := by
  unfold swapAt
  split <;> simp

theorem swapAt_perm (data : List α) (i j : Nat) : (swapAt data i j).Perm data := by
  classical
  unfold swapAt
  split
  · rename_i x y hx hy
    rw [List.getElem?_eq_some] at hx hy
    obtain ⟨hi, rfl⟩ := hx
    obtain ⟨hj, rfl⟩ := hy
    rw [List.perm_iff_count]
    intro c
    have hj' : j < (data.set i data[j]).length := by simpa using hj
    rw [List.count_set _ _ _ _ hj', List.count_set _ _ _ _ hi]
    have h₁ : (data.set i data[j])[j] = data[j] := by
      rw [List.getElem_set]
      split <;> simp_all
    rw [h₁]
    have h₂ : (if data[i] == c then 1 else 0) ≤ data.count c := by
      have := List.boole_getElem_le_countP (fun z => z == c) data i hi
      simpa [List.count_eq_countP] using this
    omega
  · exact List.Perm.refl _

theorem getElem?_swapAt (data : List α) {i j : Nat} (hi : i < data.length) (hj : j < data.length)
    (k : Nat) :
    (swapAt data i j)[k]? = if k = j then data[i]? else if k = i then data[j]? else data[k]? := by
  unfold swapAt
  rw [List.getElem?_eq_getElem hi, List.getElem?_eq_getElem hj]
  simp only [List.getElem?_set]
  by_cases hkj : k = j
  · subst hkj
    simp [hi, hj]
  · by_cases hki : k = i
    · subst hki
      simp [hkj, Ne.symm hkj, hi, hj]
    · simp [hkj, hki, Ne.symm hkj, Ne.symm hki]

theorem keyAt_swapAt (key : α → Int) (data : List α) {i j : Nat} (hi : i < data.length)
    (hj : j < data.length) (k : Nat) :
    keyAt key (swapAt data i j) k =
      if k = j then keyAt key data i else if k = i then keyAt key data j else keyAt key data k := by
  unfold keyAt
  rw [getElem?_swapAt data hi hj]
  split_ifs <;> rfl

theorem lessAt_eq {less : α → α → Bool} {key : α → Int}
    (hless : ∀ x y, less x y = decide (key x < key y)) (data : List α) {i j : Nat}
    (hi : i < data.length) (hj : j < data.length) :
    lessAt less data i j = decide (keyAt key data i < keyAt key data j) := by
  unfold lessAt keyAt
  rw [List.getElem?_eq_getElem hi, List.getElem?_eq_getElem hj]
  simp [hless]

theorem Within.refl (key : α → Int) (a b : Nat) (xs : List α) : Within key a b xs xs :=
  ⟨rfl, List.Perm.refl _, fun _ _ => rfl, fun _ h => h⟩

theorem Within.trans {key : α → Int} {a b : Nat} {xs ys zs : List α}
    (h₁ : Within key a b xs ys) (h₂ : Within key a b ys zs) : Within key a b xs zs :=
  ⟨h₂.length_eq.trans h₁.length_eq, h₂.perm.trans h₁.perm,
    fun k hk => (h₂.frame k hk).trans (h₁.frame k hk),
    fun P hP => h₂.keep P (h₁.keep P hP)⟩

theorem Within.keyAt_frame {key : α → Int} {a b : Nat} {xs ys : List α}
    (h : Within key a b xs ys) {k : Nat} (hk : k < a ∨ b ≤ k) :
    keyAt key ys k = keyAt key xs k := by
  unfold keyAt
  rw [h.frame k hk]

theorem Within.mono {key : α → Int} {a b a' b' : Nat} {xs ys : List α}
    (h : Within key a b xs ys) (ha : a' ≤ a) (hb : b ≤ b') : Within key a' b' xs ys := by
  refine ⟨h.length_eq, h.perm, fun k hk => h.frame k (by omega), fun P hP k hk₁ hk₂ => ?_⟩
  by_cases hk : a ≤ k ∧ k < b
  · exact h.keep P (fun k h₁ h₂ => hP k (by omega) (by omega)) k hk.1 hk.2
  · rw [h.keyAt_frame (by omega)]
    exact hP k hk₁ hk₂

theorem Within.swap (key : α → Int) {a b : Nat} (xs : List α) {i j : Nat}
    (hia : a ≤ i) (hib : i < b) (hja : a ≤ j) (hjb : j < b) (hb : b ≤ xs.length) :
    Within key a b xs (swapAt xs i j) := by
  have hi : i < xs.length := by omega
  have hj : j < xs.length := by omega
  refine ⟨swapAt_length _ _ _, swapAt_perm _ _ _, fun k hk => ?_, fun P hP k hk₁ hk₂ => ?_⟩
  · rw [getElem?_swapAt xs hi hj]
    have h₁ : k ≠ j := by omega
    have h₂ : k ≠ i := by omega
    simp [h₁, h₂]
  · rw [keyAt_swapAt key xs hi hj]
    split_ifs
    · exact hP i hia hib
    · exact hP j hja hjb
    · exact hP k hk₁ hk₂

end Basics

end GoSort

namespace GoSort

section Insertion

variable {α : Type} {less : α → α → Bool} {key : α → Int}

theorem insertDown_spec (hless : ∀ x y, less x y = decide (key x < key y)) (a i : Nat) :
    ∀ (j : Nat) (data : List α), a ≤ j → j ≤ i → i < data.length →
      (∀ p q, a ≤ p → p < q → q ≤ i → p ≠ j → q ≠ j → keyAt key data p ≤ keyAt key data q) →
      (∀ q, j < q → q ≤ i → keyAt key data j ≤ keyAt key data q) →
      Within key a (i + 1) data (insertDown less a j data) ∧
        SortedOn key (insertDown less a j data) a (i + 1) := by
  intro j
  induction j with
  | zero =>
    intro data ha _ _ h₁ h₂
    refine ⟨Within.refl _ _ _ _, ?_⟩
    intro p q hp hpq hq
    simp only [insertDown]
    rcases Nat.eq_or_lt_of_le hpq with rfl | hlt
    · exact le_refl _
    · by_cases hp0 : p = 0
      · subst hp0
        exact h₂ q hlt (by omega)
      · exact h₁ p q hp hlt (by omega) hp0 (by omega)
  | succ j ih =>
    intro data ha hji hi h₁ h₂
    have hj1 : j + 1 < data.length := by omega
    have hj : j < data.length := by omega
    simp only [insertDown]
    by_cases hc : (decide (a < j + 1) && lessAt less data (j + 1) j) = true
    · rw [if_pos hc]
      simp only [Bool.and_eq_true, decide_eq_true_eq] at hc
      obtain ⟨haj, hlt⟩ := hc
      rw [lessAt_eq hless data hj1 hj, decide_eq_true_eq] at hlt
      have hsw : Within key a (i + 1) data (swapAt data (j + 1) j) :=
        Within.swap key data (by omega) (by omega) (by omega) (by omega) (by omega)
      have hk := keyAt_swapAt key data hj1 hj
      have := ih (swapAt data (j + 1) j) (by omega) (by omega)
        (by rw [swapAt_length]; exact hi)
        (by
          intro p q hp hpq hq hpj hqj
          rw [hk p, hk q]
          have e₁ := h₁ p q hp hpq hq
          have e₂ := h₁ p j hp
          have e₃ := h₁ j q (by omega)
          split_ifs <;> omega)
        (by
          intro q hjq hq
          rw [hk j, hk q]
          have e₂ := h₂ q
          split_ifs <;> omega)
      exact ⟨hsw.trans this.1, this.2⟩
    · rw [if_neg hc]
      refine ⟨Within.refl _ _ _ _, ?_⟩
      simp only [Bool.and_eq_true, decide_eq_true_eq, not_and] at hc
      intro p q hp hpq hq
      rcases Nat.eq_or_lt_of_le hpq with rfl | hlt
      · exact le_refl _
      · by_cases haj : a < j + 1
        · have hnl := hc haj
          rw [lessAt_eq hless data hj1 hj, decide_eq_true_eq] at hnl
          have e₁ := h₁ p q hp hlt (by omega)
          have e₂ := h₂ q
          have e₃ := h₁ p j hp
          by_cases hpj : p = j + 1
          · subst hpj; exact e₂ hlt (by omega)
          · by_cases hqj : q = j + 1
            · subst hqj
              by_cases hpj' : p = j
              · subst hpj'; omega
              · have := e₃ (by omega) (by omega) hpj (by omega); omega
            · exact e₁ hpj hqj
        · have haj' : a = j + 1 := by omega
          by_cases hpj : p = j + 1
          · subst hpj; exact h₂ q hlt (by omega)
          · exact h₁ p q hp hlt (by omega) hpj (by omega)

theorem insertionLoop_spec (hless : ∀ x y, less x y = decide (key x < key y)) (a : Nat) :
    ∀ (n i : Nat) (data : List α), a < i → i + n ≤ data.length → SortedOn key data a i →
      Within key a (i + n) data (insertionLoop less a n i data) ∧
        SortedOn key (insertionLoop less a n i data) a (i + n) := by
  intro n
  induction n with
  | zero =>
    intro i data _ _ hs
    exact ⟨Within.refl _ _ _ _, hs⟩
  | succ n ih =>
    intro i data hai hlen hs
    simp only [insertionLoop]
    have h := insertDown_spec hless a i i data (by omega) (le_refl _) (by omega)
      (fun p q hp hpq hq hpi hqi => hs p q hp (by omega) (by omega))
      (fun q h₁ h₂ => by omega)
    have h' := ih (i + 1) (insertDown less a i data) (by omega)
      (by rw [h.1.length_eq]; omega) h.2
    have e : i + 1 + n = i + (n + 1) := by omega
    rw [e] at h'
    exact ⟨(h.1.mono (le_refl _) (by omega)).trans h'.1, h'.2⟩

theorem insertionSort_func_spec (hless : ∀ x y, less x y = decide (key x < key y))
    (data : List α) (a b : Nat) (hab : a ≤ b) (hb : b ≤ data.length) :
    Within key a b data (insertionSort_func less data a b) ∧
      SortedOn key (insertionSort_func less data a b) a b := by
  unfold insertionSort_func
  rcases Nat.eq_or_lt_of_le hab with rfl | hlt
  · have e : a - (a + 1) = 0 := by omega
    rw [e]
    exact ⟨Within.refl _ _ _ _, fun i j h₁ h₂ h₃ => by omega⟩
  · have h := insertionLoop_spec hless a (b - (a + 1)) (a + 1) data (by omega)
      (by omega) (fun i j h₁ h₂ h₃ => by
        have : i = j := by omega
        subst this; exact le_refl _)
    have e : a + 1 + (b - (a + 1)) = b := by omega
    rw [e] at h
    exact h

end Insertion

end GoSort

namespace GoSort

section Partition

variable {α : Type} {less : α → α → Bool} {key : α → Int}

theorem scanLess_spec (hless : ∀ x y, less x y = decide (key x < key y)) (data : List α)
    (a j : Nat) (ha : a < data.length) (hj : j < data.length) :
    ∀ (n i : Nat), j + 1 - i ≤ n →
      i ≤ scanLess less data a j n i ∧
      (scanLess less data a j n i ≤ j + 1 ∨ scanLess less data a j n i = i) ∧
      (∀ k, i ≤ k → k < scanLess less data a j n i → keyAt key data k < keyAt key data a) ∧
      (scanLess less data a j n i ≤ j →
        ¬ keyAt key data (scanLess less data a j n i) < keyAt key data a) := by
  intro n
  induction n with
  | zero =>
    intro i hn
    simp only [scanLess]
    exact ⟨le_refl _, by simp, fun k h₁ h₂ => by omega, fun h => by omega⟩
  | succ n ih =>
    intro i hn
    simp only [scanLess]
    by_cases hc : (decide (i ≤ j) && lessAt less data i a) = true
    · rw [if_pos hc]
      simp only [Bool.and_eq_true, decide_eq_true_eq] at hc
      obtain ⟨hij, hlt⟩ := hc
      rw [lessAt_eq hless data (by omega) ha, decide_eq_true_eq] at hlt
      obtain ⟨h₁, h₂, h₃, h₄⟩ := ih (i + 1) (by omega)
      refine ⟨by omega, Or.inl (by omega), fun k hk₁ hk₂ => ?_, h₄⟩
      by_cases hki : k = i
      · subst hki; exact hlt
      · exact h₃ k (by omega) hk₂
    · rw [if_neg hc]
      simp only [Bool.and_eq_true, decide_eq_true_eq, not_and] at hc
      refine ⟨le_refl _, Or.inr rfl, fun k h₁ h₂ => by omega, fun h => ?_⟩
      have := hc h
      rw [lessAt_eq hless data (by omega) ha, decide_eq_true_eq] at this
      exact this

theorem scanNotLess_spec (hless : ∀ x y, less x y = decide (key x < key y)) (data : List α)
    (a i : Nat) (ha : a < data.length) (hi : 0 < i) :
    ∀ (n j : Nat), j + 1 - i ≤ n → j < data.length →
      scanNotLess less data a i n j ≤ j ∧
      (i ≤ scanNotLess less data a i n j + 1 ∨ scanNotLess less data a i n j = j) ∧
      (∀ k, scanNotLess less data a i n j < k → k ≤ j → keyAt key data a ≤ keyAt key data k) ∧
      (i ≤ scanNotLess less data a i n j →
        keyAt key data (scanNotLess less data a i n j) < keyAt key data a) := by
  intro n
  induction n with
  | zero =>
    intro j hn hj
    simp only [scanNotLess]
    exact ⟨le_refl _, by simp, fun k h₁ h₂ => by omega, fun h => by omega⟩
  | succ n ih =>
    intro j hn hj
    simp only [scanNotLess]
    by_cases hc : (decide (i ≤ j) && !lessAt less data j a) = true
    · rw [if_pos hc]
      simp only [Bool.and_eq_true, decide_eq_true_eq, Bool.not_eq_true'] at hc
      obtain ⟨hij, hlt⟩ := hc
      rw [lessAt_eq hless data hj ha, decide_eq_false_iff_not] at hlt
      obtain ⟨h₁, h₂, h₃, h₄⟩ := ih (j - 1) (by omega) (by omega)
      refine ⟨by omega, Or.inl (by omega), fun k hk₁ hk₂ => ?_, h₄⟩
      by_cases hkj : k = j
      · subst hkj; omega
      · exact h₃ k hk₁ (by omega)
    · rw [if_neg hc]
      simp only [Bool.and_eq_true, decide_eq_true_eq, Bool.not_eq_true', not_and,
        Bool.not_eq_false] at hc
      refine ⟨le_refl _, Or.inr rfl, fun k h₁ h₂ => by omega, fun h => ?_⟩
      have := hc h
      rw [lessAt_eq hless data hj ha, decide_eq_true_eq] at this
      exact this

theorem partitionLoop_spec (hless : ∀ x y, less x y = decide (key x < key y)) (a b : Nat) :
    ∀ (n i j : Nat) (data : List α), j + 2 ≤ n + i → a < i → i ≤ j + 1 → j < b →
      b ≤ data.length →
      (∀ k, a < k → k < i → keyAt key data k < keyAt key data a) →
      (∀ k, j < k → k < b → keyAt key data a ≤ keyAt key data k) →
      Within key (a + 1) b data (partitionLoop less a n i j data).2 ∧
      a ≤ (partitionLoop less a n i j data).1 ∧ (partitionLoop less a n i j data).1 < b ∧
      (∀ k, a < k → k ≤ (partitionLoop less a n i j data).1 →
        keyAt key (partitionLoop less a n i j data).2 k <
          keyAt key (partitionLoop less a n i j data).2 a) ∧
      (∀ k, (partitionLoop less a n i j data).1 < k → k < b →
        keyAt key (partitionLoop less a n i j data).2 a ≤
          keyAt key (partitionLoop less a n i j data).2 k) := by
  intro n
  induction n with
  | zero =>
    intro i j data hn hai hij hjb hb h₁ h₂
    omega
  | succ n ih =>
    intro i j data hn hai hij hjb hb h₁ h₂
    simp only [partitionLoop]
    obtain ⟨s₁, s₂, s₃, s₄⟩ := scanLess_spec hless data a j (by omega) (by omega)
      (j + 1 - i) i (le_refl _)
    generalize scanLess less data a j (j + 1 - i) i = i' at s₁ s₂ s₃ s₄ ⊢
    obtain ⟨t₁, t₂, t₃, t₄⟩ := scanNotLess_spec hless data a i' (by omega)
      (by omega) (j + 1 - i') j (le_refl _) (by omega)
    generalize scanNotLess less data a i' (j + 1 - i') j = j' at t₁ t₂ t₃ t₄ ⊢
    have hl : ∀ k, a < k → k < i' → keyAt key data k < keyAt key data a := by
      intro k hk₁ hk₂
      by_cases hki : k < i
      · exact h₁ k hk₁ hki
      · exact s₃ k (by omega) hk₂
    have hr : ∀ k, j' < k → k < b → keyAt key data a ≤ keyAt key data k := by
      intro k hk₁ hk₂
      by_cases hkj : j < k
      · exact h₂ k hkj hk₂
      · exact t₃ k hk₁ (by omega)
    by_cases hc : i' > j'
    · rw [if_pos hc]
      refine ⟨Within.refl _ _ _ _, by omega, by omega, fun k hk₁ hk₂ => ?_, hr⟩
      exact hl k hk₁ (by omega)
    · rw [if_neg hc]
      have hi'j' : i' ≤ j' := by omega
      have u₁ := s₄ (by omega)
      have u₂ := t₄ hi'j'
      have hne : i' ≠ j' := by
        intro h
        rw [h] at u₁
        exact u₁ u₂
      have hi'len : i' < data.length := by omega
      have hj'len : j' < data.length := by omega
      have hk := keyAt_swapAt key data hi'len hj'len
      have hsw : Within key (a + 1) b data (swapAt data i' j') :=
        Within.swap key data (by omega) (by omega) (by omega) (by omega) hb
      have ha' : keyAt key (swapAt data i' j') a = keyAt key data a := by
        rw [hk a, if_neg (by omega), if_neg (by omega)]
      obtain ⟨r₁, r₂, r₃, r₄, r₅⟩ := ih (i' + 1) (j' - 1) (swapAt data i' j') (by omega)
        (by omega) (by omega) (by omega) (by rw [swapAt_length]; exact hb)
        (by
          intro k hk₁ hk₂
          rw [ha', hk k]
          have e₁ := hl k hk₁
          split_ifs with c₁ c₂
          · omega
          · exact u₂
          · exact e₁ (by omega))
        (by
          intro k hk₁ hk₂
          rw [ha', hk k]
          have e₁ := hr k
          split_ifs with c₁ c₂
          · omega
          · omega
          · exact e₁ (by omega) hk₂)
      exact ⟨hsw.trans r₁, r₂, r₃, r₄, r₅⟩

theorem partition_func_spec (hless : ∀ x y, less x y = decide (key x < key y))
    (data : List α) (a b pivot : Nat) (hab : a < b) (hb : b ≤ data.length)
    (hpa : a ≤ pivot) (hpb : pivot < b) :
    Within key a b data (partition_func less data a b pivot).1 ∧
      a ≤ (partition_func less data a b pivot).2.1 ∧
      (partition_func less data a b pivot).2.1 < b ∧
      (∀ k, a ≤ k → k < (partition_func less data a b pivot).2.1 →
        keyAt key (partition_func less data a b pivot).1 k <
          keyAt key (partition_func less data a b pivot).1
            (partition_func less data a b pivot).2.1) ∧
      (∀ k, (partition_func less data a b pivot).2.1 < k → k < b →
        keyAt key (partition_func less data a b pivot).1
            (partition_func less data a b pivot).2.1 ≤
          keyAt key (partition_func less data a b pivot).1 k) := by
  unfold partition_func
  have hsw₀ : Within key a b data (swapAt data a pivot) :=
    Within.swap key data (le_refl _) hab hpa hpb hb
  have hlen₀ : (swapAt data a pivot).length = data.length := swapAt_length _ _ _
  generalize swapAt data a pivot = d₀ at hsw₀ hlen₀ ⊢
  simp only []
  obtain ⟨s₁, s₂, s₃, s₄⟩ := scanLess_spec hless d₀ a (b - 1) (by omega)
    (by omega) (b - 1 + 1 - (a + 1)) (a + 1) (le_refl _)
  generalize scanLess less d₀ a (b - 1) (b - 1 + 1 - (a + 1)) (a + 1) = i' at s₁ s₂ s₃ s₄ ⊢
  obtain ⟨t₁, t₂, t₃, t₄⟩ := scanNotLess_spec hless d₀ a i' (by omega)
    (by omega) (b - 1 + 1 - i') (b - 1) (le_refl _) (by omega)
  generalize scanNotLess less d₀ a i' (b - 1 + 1 - i') (b - 1) = j' at t₁ t₂ t₃ t₄ ⊢
  have hl : ∀ k, a < k → k < i' → keyAt key d₀ k < keyAt key d₀ a :=
    fun k hk₁ hk₂ => s₃ k (by omega) hk₂
  have hr : ∀ k, j' < k → k < b → keyAt key d₀ a ≤ keyAt key d₀ k :=
    fun k hk₁ hk₂ => t₃ k hk₁ (by omega)
  -- the final exchange of the pivot with position `j`
  have fin : ∀ (d : List α) (j : Nat), d.length = data.length → a ≤ j → j < b →
      (∀ k, a < k → k ≤ j → keyAt key d k < keyAt key d a) →
      (∀ k, j < k → k < b → keyAt key d a ≤ keyAt key d k) →
      (∀ k, a ≤ k → k < j → keyAt key (swapAt d j a) k < keyAt key (swapAt d j a) j) ∧
      (∀ k, j < k → k < b → keyAt key (swapAt d j a) j ≤ keyAt key (swapAt d j a) k) := by
    intro d j hd haj hjb f₁ f₂
    have hk := keyAt_swapAt key d (show j < d.length by omega) (show a < d.length by omega)
    constructor
    · intro k hk₁ hk₂
      rw [hk k, hk j]
      have e₁ := f₁ k
      have e₂ := f₁ j
      split_ifs <;> omega
    · intro k hk₁ hk₂
      rw [hk k, hk j]
      have e₁ := f₂ k hk₁ hk₂
      split_ifs <;> first | omega | (subst_vars; omega)
  by_cases hc : i' > j'
  · rw [if_pos hc]
    simp only []
    have hj'b : j' < b := by omega
    have hj'a : a ≤ j' := by omega
    obtain ⟨f₁, f₂⟩ := fin d₀ j' hlen₀ hj'a hj'b (fun k hk₁ hk₂ => hl k hk₁ (by omega)) hr
    refine ⟨hsw₀.trans (Within.swap key d₀ hj'a hj'b (le_refl _) hab (by omega)), hj'a, hj'b,
      f₁, f₂⟩
  · rw [if_neg hc]
    have hi'j' : i' ≤ j' := by omega
    have u₁ := s₄ (by omega)
    have u₂ := t₄ hi'j'
    have hne : i' ≠ j' := by
      intro h
      rw [h] at u₁
      exact u₁ u₂
    have hk := keyAt_swapAt key d₀ (show i' < d₀.length by omega) (show j' < d₀.length by omega)
    have hsw : Within key (a + 1) b d₀ (swapAt d₀ i' j') :=
      Within.swap key d₀ (by omega) (by omega) (by omega) (by omega) (by omega)
    have ha' : keyAt key (swapAt d₀ i' j') a = keyAt key d₀ a := by
      rw [hk a, if_neg (by omega), if_neg (by omega)]
    obtain ⟨r₁, r₂, r₃, r₄, r₅⟩ := partitionLoop_spec hless a b (j' + 1 - i')
      (i' + 1) (j' - 1) (swapAt d₀ i' j') (by omega) (by omega) (by omega) (by omega)
      (by rw [swapAt_length]; omega)
      (by
        intro k hk₁ hk₂
        rw [ha', hk k]
        have e₁ := hl k hk₁
        split_ifs with c₁ c₂
        · omega
        · exact u₂
        · exact e₁ (by omega))
      (by
        intro k hk₁ hk₂
        rw [ha', hk k]
        have e₁ := hr k
        split_ifs with c₁ c₂
        · omega
        · omega
        · exact e₁ (by omega) hk₂)
    generalize partitionLoop less a (j' + 1 - i') (i' + 1) (j' - 1) (swapAt d₀ i' j') = res
      at r₁ r₂ r₃ r₄ r₅ ⊢
    obtain ⟨jf, df⟩ := res
    simp only [] at r₁ r₂ r₃ r₄ r₅ ⊢
    have hlenf : df.length = data.length := by rw [r₁.length_eq, swapAt_length, hlen₀]
    obtain ⟨f₁, f₂⟩ := fin df jf hlenf r₂ r₃ r₄ r₅
    refine ⟨hsw₀.trans (((hsw.trans r₁).mono (by omega) (le_refl _)).trans
      (Within.swap key df r₂ r₃ (le_refl _) hab (by omega))), r₂, r₃, f₁, f₂⟩

end Partition

end GoSort

namespace GoSort

section PartitionEqual

variable {α : Type} {less : α → α → Bool} {key : α → Int}

theorem scanNotGreater_spec (hless : ∀ x y, less x y = decide (key x < key y)) (data : List α)
    (a j : Nat) (ha : a < data.length) (hj : j < data.length) :
    ∀ (n i : Nat), j + 1 - i ≤ n →
      i ≤ scanNotGreater less data a j n i ∧
      (scanNotGreater less data a j n i ≤ j + 1 ∨ scanNotGreater less data a j n i = i) ∧
      (∀ k, i ≤ k → k < scanNotGreater less data a j n i →
        keyAt key data k ≤ keyAt key data a) ∧
      (scanNotGreater less data a j n i ≤ j →
        keyAt key data a < keyAt key data (scanNotGreater less data a j n i)) := by
  intro n
  induction n with
  | zero =>
    intro i hn
    simp only [scanNotGreater]
    exact ⟨le_refl _, by simp, fun k h₁ h₂ => by omega, fun h => by omega⟩
  | succ n ih =>
    intro i hn
    simp only [scanNotGreater]
    by_cases hc : (decide (i ≤ j) && !lessAt less data a i) = true
    · rw [if_pos hc]
      simp only [Bool.and_eq_true, decide_eq_true_eq, Bool.not_eq_true'] at hc
      obtain ⟨hij, hlt⟩ := hc
      rw [lessAt_eq hless data ha (by omega), decide_eq_false_iff_not] at hlt
      obtain ⟨h₁, h₂, h₃, h₄⟩ := ih (i + 1) (by omega)
      refine ⟨by omega, Or.inl (by omega), fun k hk₁ hk₂ => ?_, h₄⟩
      by_cases hki : k = i
      · subst hki; omega
      · exact h₃ k (by omega) hk₂
    · rw [if_neg hc]
      simp only [Bool.and_eq_true, decide_eq_true_eq, Bool.not_eq_true', not_and,
        Bool.not_eq_false] at hc
      refine ⟨le_refl _, Or.inr rfl, fun k h₁ h₂ => by omega, fun h => ?_⟩
      have := hc h
      rw [lessAt_eq hless data ha (by omega), decide_eq_true_eq] at this
      exact this

theorem scanGreater_spec (hless : ∀ x y, less x y = decide (key x < key y)) (data : List α)
    (a i : Nat) (ha : a < data.length) (hi : 0 < i) :
    ∀ (n j : Nat), j + 1 - i ≤ n → j < data.length →
      scanGreater less data a i n j ≤ j ∧
      (i ≤ scanGreater less data a i n j + 1 ∨ scanGreater less data a i n j = j) ∧
      (∀ k, scanGreater less data a i n j < k → k ≤ j → keyAt key data a < keyAt key data k) ∧
      (i ≤ scanGreater less data a i n j →
        keyAt key data (scanGreater less data a i n j) ≤ keyAt key data a) := by
  intro n
  induction n with
  | zero =>
    intro j hn hj
    simp only [scanGreater]
    exact ⟨le_refl _, by simp, fun k h₁ h₂ => by omega, fun h => by omega⟩
  | succ n ih =>
    intro j hn hj
    simp only [scanGreater]
    by_cases hc : (decide (i ≤ j) && lessAt less data a j) = true
    · rw [if_pos hc]
      simp only [Bool.and_eq_true, decide_eq_true_eq] at hc
      obtain ⟨hij, hlt⟩ := hc
      rw [lessAt_eq hless data ha hj, decide_eq_true_eq] at hlt
      obtain ⟨h₁, h₂, h₃, h₄⟩ := ih (j - 1) (by omega) (by omega)
      refine ⟨by omega, Or.inl (by omega), fun k hk₁ hk₂ => ?_, h₄⟩
      by_cases hkj : k = j
      · subst hkj; exact hlt
      · exact h₃ k hk₁ (by omega)
    · rw [if_neg hc]
      simp only [Bool.and_eq_true, decide_eq_true_eq, not_and] at hc
      refine ⟨le_refl _, Or.inr rfl, fun k h₁ h₂ => by omega, fun h => ?_⟩
      have := hc h
      rw [lessAt_eq hless data ha hj, decide_eq_true_eq] at this
      omega

theorem partitionEqualLoop_spec (hless : ∀ x y, less x y = decide (key x < key y))
    (a b : Nat) :
    ∀ (n i j : Nat) (data : List α), j + 2 ≤ n + i → a < i → i ≤ j + 1 → j < b →
      b ≤ data.length →
      (∀ k, a < k → k < i → keyAt key data k ≤ keyAt key data a) →
      (∀ k, j < k → k < b → keyAt key data a < keyAt key data k) →
      Within key (a + 1) b data (partitionEqualLoop less a n i j data).2 ∧
      a < (partitionEqualLoop less a n i j data).1 ∧
      (partitionEqualLoop less a n i j data).1 ≤ b ∧
      (∀ k, a < k → k < (partitionEqualLoop less a n i j data).1 →
        keyAt key (partitionEqualLoop less a n i j data).2 k ≤
          keyAt key (partitionEqualLoop less a n i j data).2 a) ∧
      (∀ k, (partitionEqualLoop less a n i j data).1 ≤ k → k < b →
        keyAt key (partitionEqualLoop less a n i j data).2 a <
          keyAt key (partitionEqualLoop less a n i j data).2 k) := by
  intro n
  induction n with
  | zero =>
    intro i j data hn hai hij hjb hb h₁ h₂
    omega
  | succ n ih =>
    intro i j data hn hai hij hjb hb h₁ h₂
    simp only [partitionEqualLoop]
    obtain ⟨s₁, s₂, s₃, s₄⟩ := scanNotGreater_spec hless data a j (by omega)
      (by omega) (j + 1 - i) i (le_refl _)
    generalize scanNotGreater less data a j (j + 1 - i) i = i' at s₁ s₂ s₃ s₄ ⊢
    obtain ⟨t₁, t₂, t₃, t₄⟩ := scanGreater_spec hless data a i' (by omega)
      (by omega) (j + 1 - i') j (le_refl _) (by omega)
    generalize scanGreater less data a i' (j + 1 - i') j = j' at t₁ t₂ t₃ t₄ ⊢
    have hl : ∀ k, a < k → k < i' → keyAt key data k ≤ keyAt key data a := by
      intro k hk₁ hk₂
      by_cases hki : k < i
      · exact h₁ k hk₁ hki
      · exact s₃ k (by omega) hk₂
    have hr : ∀ k, j' < k → k < b → keyAt key data a < keyAt key data k := by
      intro k hk₁ hk₂
      by_cases hkj : j < k
      · exact h₂ k hkj hk₂
      · exact t₃ k hk₁ (by omega)
    by_cases hc : i' > j'
    · rw [if_pos hc]
      refine ⟨Within.refl _ _ _ _, by omega, by omega, hl, fun k hk₁ hk₂ => ?_⟩
      exact hr k (by omega) hk₂
    · rw [if_neg hc]
      have hi'j' : i' ≤ j' := by omega
      have u₁ := s₄ (by omega)
      have u₂ := t₄ hi'j'
      have hne : i' ≠ j' := by
        intro h
        rw [h] at u₁
        omega
      have hi'len : i' < data.length := by omega
      have hj'len : j' < data.length := by omega
      have hk := keyAt_swapAt key data hi'len hj'len
      have hsw : Within key (a + 1) b data (swapAt data i' j') :=
        Within.swap key data (by omega) (by omega) (by omega) (by omega) hb
      have ha' : keyAt key (swapAt data i' j') a = keyAt key data a := by
        rw [hk a, if_neg (by omega), if_neg (by omega)]
      obtain ⟨r₁, r₂, r₃, r₄, r₅⟩ := ih (i' + 1) (j' - 1) (swapAt data i' j') (by omega)
        (by omega) (by omega) (by omega) (by rw [swapAt_length]; exact hb)
        (by
          intro k hk₁ hk₂
          rw [ha', hk k]
          have e₁ := hl k hk₁
          split_ifs with c₁ c₂
          · omega
          · exact u₂
          · exact e₁ (by omega))
        (by
          intro k hk₁ hk₂
          rw [ha', hk k]
          have e₁ := hr k
          split_ifs with c₁ c₂
          · omega
          · omega
          · exact e₁ (by omega) hk₂)
      exact ⟨hsw.trans r₁, r₂, r₃, r₄, r₅⟩

theorem partitionEqual_func_spec (hless : ∀ x y, less x y = decide (key x < key y))
    (data : List α) (a b pivot : Nat) (hab : a < b) (hb : b ≤ data.length)
    (hpa : a ≤ pivot) (hpb : pivot < b)
    (hmin : ∀ k, a ≤ k → k < b → keyAt key data pivot ≤ keyAt key data k) :
    Within key a b data (partitionEqual_func less data a b pivot).1 ∧
      a < (partitionEqual_func less data a b pivot).2 ∧
      (partitionEqual_func less data a b pivot).2 ≤ b ∧
      (∀ k, a ≤ k → k < (partitionEqual_func less data a b pivot).2 →
        keyAt key (partitionEqual_func less data a b pivot).1 k = keyAt key data pivot) ∧
      (∀ k, (partitionEqual_func less data a b pivot).2 ≤ k → k < b →
        keyAt key data pivot < keyAt key (partitionEqual_func less data a b pivot).1 k) := by
  unfold partitionEqual_func
  have hsw₀ : Within key a b data (swapAt data a pivot) :=
    Within.swap key data (le_refl _) hab hpa hpb hb
  have hlen₀ : (swapAt data a pivot).length = data.length := swapAt_length _ _ _
  have hk₀ := keyAt_swapAt key data (show a < data.length by omega)
    (show pivot < data.length by omega)
  have hpa₀ : keyAt key (swapAt data a pivot) a = keyAt key data pivot := by
    rw [hk₀ a]
    by_cases c : a = pivot
    · simp [c]
    · simp [c]
  generalize swapAt data a pivot = d₀ at hsw₀ hlen₀ hpa₀ ⊢
  dsimp only
  obtain ⟨r₁, r₂, r₃, r₄, r₅⟩ := partitionEqualLoop_spec hless a b (b - a)
    (a + 1) (b - 1) d₀ (by omega) (by omega) (by omega) (by omega) (by omega)
    (fun k h₁ h₂ => by omega) (fun k h₁ h₂ => by omega)
  generalize partitionEqualLoop less a (b - a) (a + 1) (b - 1) d₀ = res at r₁ r₂ r₃ r₄ r₅ ⊢
  obtain ⟨i_f, df⟩ := res
  simp only [] at r₁ r₂ r₃ r₄ r₅ ⊢
  have hw : Within key a b data df := hsw₀.trans (r₁.mono (by omega) (le_refl _))
  have hpf : keyAt key df a = keyAt key data pivot := by
    rw [r₁.keyAt_frame (Or.inl (by omega)), hpa₀]
  have hge : ∀ k, a ≤ k → k < b → keyAt key data pivot ≤ keyAt key df k :=
    hw.keep (fun v => keyAt key data pivot ≤ v) hmin
  refine ⟨hw, r₂, r₃, fun k hk₁ hk₂ => ?_, fun k hk₁ hk₂ => ?_⟩
  · by_cases hka : k = a
    · rw [hka, hpf]
    · have e₁ := r₄ k (by omega) hk₂
      have e₂ := hge k hk₁ (by omega)
      omega
  · have := r₅ k hk₁ hk₂
    omega

end PartitionEqual

end GoSort

namespace GoSort

section Helpers

variable {α : Type} {less : α → α → Bool} {key : α → Int}

theorem reverseLoop_within (key : α → Int) (a b : Nat) :
    ∀ (n i j : Nat) (data : List α), a ≤ i → j < b → b ≤ data.length →
      Within key a b data (reverseLoop n i j data) := by
  intro n
  induction n with
  | zero => intro i j data _ _ _; exact Within.refl _ _ _ _
  | succ n ih =>
    intro i j data hi hj hb
    simp only [reverseLoop]
    split_ifs with hc
    · exact (Within.swap key data hi (by omega) (by omega) hj hb).trans
        (ih (i + 1) (j - 1) _ (by omega) (by omega) (by rw [swapAt_length]; exact hb))
    · exact Within.refl _ _ _ _

theorem reverseRange_func_within (key : α → Int) (data : List α) (a b : Nat) (hab : a < b)
    (hb : b ≤ data.length) : Within key a b data (reverseRange_func data a b) :=
  reverseLoop_within key a b _ _ _ _ (le_refl _) (by omega) hb

theorem bitsLen_bound (n : Nat) (hn : n ≠ 0) : 2 ^ bitsLen n ≤ 2 * n := by
  unfold bitsLen
  rw [if_neg hn, pow_succ]
  have := Nat.log2_self_le hn
  omega

theorem nextPowerOfTwo_le (n : Nat) (hn : n ≠ 0) : nextPowerOfTwo n ≤ 2 * n := by
  unfold nextPowerOfTwo
  rw [Nat.one_shiftLeft]
  exact le_trans (Nat.mod_le _ _) (bitsLen_bound n hn)

theorem breakLoop_within (key : α → Int) (a b length modulus idx : Nat)
    (hlen : 0 < length) (hab : a + length = b) (hmod : modulus ≤ 2 * length) :
    ∀ (n i random : Nat) (data : List α), a + 1 ≤ idx + i → idx + i + n ≤ b →
      b ≤ data.length →
      Within key a b data (breakLoop a length modulus idx n i random data) := by
  intro n
  induction n with
  | zero => intro i random data _ _ _; exact Within.refl _ _ _ _
  | succ n ih =>
    intro i random data h₁ h₂ hb
    simp only [breakLoop]
    have hand : xorshiftNext random &&& (modulus - 1) ≤ modulus - 1 := Nat.and_le_right
    have hother : (if xorshiftNext random &&& (modulus - 1) ≥ length then
        (xorshiftNext random &&& (modulus - 1)) - length
        else xorshiftNext random &&& (modulus - 1)) < length := by
      split_ifs with hc <;> omega
    exact (Within.swap key data (by omega) (by omega) (by omega) (by omega) hb).trans
      (ih (i + 1) _ _ (by omega) (by omega) (by rw [swapAt_length]; exact hb))

theorem breakPatterns_func_within (key : α → Int) (data : List α) (a b : Nat) (hab : a ≤ b)
    (hb : b ≤ data.length) : Within key a b data (breakPatterns_func data a b) := by
  unfold breakPatterns_func
  dsimp only
  split_ifs with hc
  · have h4 : 2 ≤ (b - a) / 4 := by omega
    exact breakLoop_within key a b (b - a) _ _ (by omega) (by omega)
      (nextPowerOfTwo_le _ (by omega)) 3 0 _ data (by omega) (by omega) hb
  · exact Within.refl _ _ _ _

theorem order2_func_fst (less : α → α → Bool) (data : List α) (a b s : Nat) :
    ((order2_func less data a b s).1 = a ∧ (order2_func less data a b s).2.1 = b) ∨
      ((order2_func less data a b s).1 = b ∧ (order2_func less data a b s).2.1 = a) := by
  unfold order2_func
  split_ifs
  · exact Or.inr ⟨rfl, rfl⟩
  · exact Or.inl ⟨rfl, rfl⟩

theorem median_func_mem (less : α → α → Bool) (data : List α) (a b c s : Nat) :
    (median_func less data a b c s).1 = a ∨ (median_func less data a b c s).1 = b ∨
      (median_func less data a b c s).1 = c := by
  unfold median_func
  dsimp only
  rcases order2_func_fst less data a b s with ⟨h₁, h₂⟩ | ⟨h₁, h₂⟩ <;>
  generalize order2_func less data a b s = r₁ at h₁ h₂ ⊢ <;>
  obtain ⟨x₁, y₁, s₁⟩ := r₁ <;>
  dsimp only at h₁ h₂ ⊢ <;>
  subst h₁ <;> subst h₂ <;>
  [rcases order2_func_fst less data y₁ c s₁ with ⟨h₃, h₄⟩ | ⟨h₃, h₄⟩;
   rcases order2_func_fst less data y₁ c s₁ with ⟨h₃, h₄⟩ | ⟨h₃, h₄⟩] <;>
  generalize order2_func less data y₁ c s₁ = r₂ at h₃ h₄ ⊢ <;>
  obtain ⟨x₂, y₂, s₂⟩ := r₂ <;>
  dsimp only at h₃ h₄ ⊢ <;>
  subst h₃ <;> subst h₄ <;>
  [rcases order2_func_fst less data x₁ x₂ s₂ with ⟨h₅, h₆⟩ | ⟨h₅, h₆⟩;
   rcases order2_func_fst less data x₁ x₂ s₂ with ⟨h₅, h₆⟩ | ⟨h₅, h₆⟩;
   rcases order2_func_fst less data x₁ x₂ s₂ with ⟨h₅, h₆⟩ | ⟨h₅, h₆⟩;
   rcases order2_func_fst less data x₁ x₂ s₂ with ⟨h₅, h₆⟩ | ⟨h₅, h₆⟩] <;>
  generalize order2_func less data x₁ x₂ s₂ = r₃ at h₅ h₆ ⊢ <;>
  obtain ⟨x₃, y₃, s₃⟩ := r₃ <;>
  dsimp only at h₅ h₆ ⊢ <;>
  subst h₅ <;> subst h₆ <;> simp

end Helpers

end GoSort

namespace GoSort

section Pivot

variable {α : Type} {less : α → α → Bool} {key : α → Int}

theorem medianAdjacent_func_mem (less : α → α → Bool) (data : List α) (a s : Nat) :
    (medianAdjacent_func less data a s).1 = a - 1 ∨ (medianAdjacent_func less data a s).1 = a ∨
      (medianAdjacent_func less data a s).1 = a + 1 :=
  median_func_mem less data (a - 1) a (a + 1) s

theorem choosePivot_func_range (less : α → α → Bool) (data : List α) (a b : Nat)
    (hab : a < b) :
    a ≤ (choosePivot_func less data a b).1 ∧ (choosePivot_func less data a b).1 < b := by
  have key₁ : ∀ (p : Nat × Nat), (a ≤ p.1 ∧ p.1 < b) →
      a ≤ (if p.2 = 0 then (p.1, sortedHint.increasingHint)
        else if p.2 = 4 * 3 then (p.1, sortedHint.decreasingHint)
        else (p.1, sortedHint.unknownHint)).1 ∧
      (if p.2 = 0 then (p.1, sortedHint.increasingHint)
        else if p.2 = 4 * 3 then (p.1, sortedHint.decreasingHint)
        else (p.1, sortedHint.unknownHint)).1 < b := by
    intro p hp
    split_ifs <;> exact hp
  unfold choosePivot_func
  dsimp only
  apply key₁
  split_ifs with h8 h50
  · have hq : 12 ≤ (b - a) / 4 := by omega
    have hq' : (b - a) / 4 * 4 ≤ b - a := Nat.div_mul_le_self _ _
    have m₁ := medianAdjacent_func_mem less data (a + (b - a) / 4 * 1) 0
    generalize medianAdjacent_func less data (a + (b - a) / 4 * 1) 0 = r₁ at m₁ ⊢
    obtain ⟨i, s₁⟩ := r₁
    have m₂ := medianAdjacent_func_mem less data (a + (b - a) / 4 * 2) s₁
    generalize medianAdjacent_func less data (a + (b - a) / 4 * 2) s₁ = r₂ at m₂ ⊢
    obtain ⟨j, s₂⟩ := r₂
    have m₃ := medianAdjacent_func_mem less data (a + (b - a) / 4 * 3) s₂
    generalize medianAdjacent_func less data (a + (b - a) / 4 * 3) s₂ = r₃ at m₃ ⊢
    obtain ⟨k, s₃⟩ := r₃
    dsimp only at m₁ m₂ m₃ ⊢
    have m := median_func_mem less data i j k s₃
    generalize median_func less data i j k s₃ = r at m ⊢
    omega
  · have hq : 2 ≤ (b - a) / 4 := by omega
    have hq' : (b - a) / 4 * 4 ≤ b - a := Nat.div_mul_le_self _ _
    have m := median_func_mem less data (a + (b - a) / 4 * 1) (a + (b - a) / 4 * 2)
      (a + (b - a) / 4 * 3) 0
    generalize median_func less data (a + (b - a) / 4 * 1) (a + (b - a) / 4 * 2)
      (a + (b - a) / 4 * 3) 0 = r at m ⊢
    omega
  · dsimp only
    have hq' : (b - a) / 4 * 4 ≤ b - a := Nat.div_mul_le_self _ _
    have : (b - a) / 4 ≤ 1 := by omega
    omega

end Pivot

section PartialInsertion

variable {α : Type} {less : α → α → Bool} {key : α → Int}

theorem scanSorted_spec (hless : ∀ x y, less x y = decide (key x < key y)) (data : List α)
    (b : Nat) (hb : b ≤ data.length) :
    ∀ (n i : Nat), b - i ≤ n → 0 < i →
      i ≤ scanSorted less data b n i ∧
      (scanSorted less data b n i ≤ b ∨ scanSorted less data b n i = i) ∧
      (∀ k, i ≤ k → k < scanSorted less data b n i →
        keyAt key data (k - 1) ≤ keyAt key data k) ∧
      (scanSorted less data b n i < b →
        keyAt key data (scanSorted less data b n i) <
          keyAt key data (scanSorted less data b n i - 1)) := by
  intro n
  induction n with
  | zero =>
    intro i hn hi
    simp only [scanSorted]
    exact ⟨le_refl _, by simp, fun k h₁ h₂ => by omega, fun h => by omega⟩
  | succ n ih =>
    intro i hn hi
    simp only [scanSorted]
    by_cases hc : (decide (i < b) && !lessAt less data i (i - 1)) = true
    · rw [if_pos hc]
      simp only [Bool.and_eq_true, decide_eq_true_eq, Bool.not_eq_true'] at hc
      obtain ⟨hib, hlt⟩ := hc
      rw [lessAt_eq hless data (by omega) (by omega), decide_eq_false_iff_not] at hlt
      obtain ⟨h₁, h₂, h₃, h₄⟩ := ih (i + 1) (by omega) (by omega)
      refine ⟨by omega, Or.inl (by omega), fun k hk₁ hk₂ => ?_, h₄⟩
      by_cases hki : k = i
      · subst hki; omega
      · exact h₃ k (by omega) hk₂
    · rw [if_neg hc]
      simp only [Bool.and_eq_true, decide_eq_true_eq, Bool.not_eq_true', not_and,
        Bool.not_eq_false] at hc
      refine ⟨le_refl _, Or.inr rfl, fun k h₁ h₂ => by omega, fun h => ?_⟩
      have := hc h
      rw [lessAt_eq hless data (by omega) (by omega), decide_eq_true_eq] at this
      exact this

theorem shiftLeft_eq_insertDown (hless : ∀ x y, less x y = decide (key x < key y)) (a : Nat) :
    ∀ (j : Nat) (data : List α), a ≤ j → j < data.length →
      (0 < a → keyAt key data (a - 1) ≤ keyAt key data j) →
      shiftLeft less j data = insertDown less a j data := by
  intro j
  induction j with
  | zero => intro data _ _ _; rfl
  | succ j ih =>
    intro data haj hj hlb
    simp only [shiftLeft, insertDown]
    by_cases ha : a < j + 1
    · by_cases hl : lessAt less data (j + 1) j = true
      · simp only [hl, ha, decide_True, Bool.and_self, Bool.not_true, if_true]
        simp only [Bool.false_eq_true, if_false]
        apply ih _ (by omega) (by rw [swapAt_length]; omega)
        intro ha0
        have hk := keyAt_swapAt key data hj (show j < data.length by omega)
        rw [hk (a - 1), hk j, if_neg (by omega), if_neg (by omega), if_pos rfl]
        exact hlb ha0
      · simp only [hl, Bool.and_false, Bool.not_false, if_true]
        simp
    · have haj' : a = j + 1 := by omega
      have hnl : lessAt less data (j + 1) j = false := by
        rw [lessAt_eq hless data hj (by omega), decide_eq_false_iff_not]
        have := hlb (by omega)
        have e : a - 1 = j := by omega
        rw [e] at this
        omega
      simp [hnl]

theorem shiftRight_within (key : α → Int) (less : α → α → Bool) (b : Nat) :
    ∀ (n j : Nat) (data : List α), 0 < j → j + n ≤ b → b ≤ data.length →
      Within key (j - 1) b data (shiftRight less n j data) := by
  intro n
  induction n with
  | zero => intro j data _ _ _; exact Within.refl _ _ _ _
  | succ n ih =>
    intro j data hj hn hb
    simp only [shiftRight]
    split_ifs with hc
    · exact Within.refl _ _ _ _
    · have h := ih (j + 1) (swapAt data j (j - 1)) (by omega) (by omega)
        (by rw [swapAt_length]; exact hb)
      exact (Within.swap key data (by omega) (by omega) (le_refl _) (by omega) hb).trans
        (h.mono (by omega) (le_refl _))

theorem sortedOn_of_adjacent (key : α → Int) (data : List α) (a b : Nat)
    (h : ∀ k, a < k → k < b → keyAt key data (k - 1) ≤ keyAt key data k) :
    SortedOn key data a b := by
  intro i j hi hij hj
  induction j with
  | zero =>
    have : i = 0 := by omega
    subst this; exact le_refl _
  | succ j ih =>
    rcases Nat.eq_or_lt_of_le hij with rfl | hlt
    · exact le_refl _
    · have e₁ := ih (by omega) (by omega)
      have e₂ := h (j + 1) (by omega) hj
      simp only [Nat.add_sub_cancel] at e₂
      omega

theorem partialLoop_spec (hless : ∀ x y, less x y = decide (key x < key y)) (a b : Nat) :
    ∀ (steps i : Nat) (data : List α), a < i → i ≤ b → b ≤ data.length →
      SortedOn key data a i →
      (0 < a → ∀ k, a ≤ k → k < b → keyAt key data (a - 1) ≤ keyAt key data k) →
      Within key a b data (partialLoop less a b steps i data).1 ∧
        ((partialLoop less a b steps i data).2 = true →
          SortedOn key (partialLoop less a b steps i data).1 a b) := by
  intro steps
  induction steps with
  | zero =>
    intro i data _ _ _ _ _
    simp only [partialLoop]
    exact ⟨Within.refl _ _ _ _, fun h => by simp at h⟩
  | succ steps ih =>
    intro i data hai hib hb hs hlb
    simp only [partialLoop]
    obtain ⟨s₁, s₂, s₃, s₄⟩ := scanSorted_spec hless data b hb (b - i) i
      (le_refl _) (by omega)
    generalize scanSorted less data b (b - i) i = i' at s₁ s₂ s₃ s₄ ⊢
    have hs' : SortedOn key data a i' := by
      apply sortedOn_of_adjacent
      intro k hk₁ hk₂
      by_cases hki : k < i
      · have := hs (k - 1) k (by omega) (by omega) hki
        exact this
      · exact s₃ k (by omega) hk₂
    by_cases hib' : i' = b
    · rw [if_pos hib']
      refine ⟨Within.refl _ _ _ _, fun _ => ?_⟩
      rw [← hib']
      exact hs'
    · rw [if_neg hib']
      by_cases h50 : b - a < 50
      · rw [if_pos h50]
        exact ⟨Within.refl _ _ _ _, fun h => by simp at h⟩
      · rw [if_neg h50]
        have hi'b : i' < b := by omega
        have hlt := s₄ hi'b
        have hi'len : i' < data.length := by omega
        have hk := keyAt_swapAt key data hi'len (show i' - 1 < data.length by omega)
        have w₁ : Within key a b data (swapAt data i' (i' - 1)) :=
          Within.swap key data (by omega) hi'b (by omega) (by omega) hb
        have hlen₁ : (swapAt data i' (i' - 1)).length = data.length := swapAt_length _ _ _
        have hs₁ : SortedOn key (swapAt data i' (i' - 1)) a (i' - 1) := by
          intro p q hp hpq hq
          rw [hk p, hk q, if_neg (by omega), if_neg (by omega), if_neg (by omega),
            if_neg (by omega)]
          exact hs' p q hp hpq (by omega)
        have hlb₁ : 0 < a → ∀ k, a ≤ k → k < b →
            keyAt key (swapAt data i' (i' - 1)) (a - 1) ≤ keyAt key (swapAt data i' (i' - 1)) k := by
          intro ha0
          rw [w₁.keyAt_frame (Or.inl (by omega))]
          exact w₁.keep (fun v => keyAt key data (a - 1) ≤ v) (hlb ha0)
        generalize swapAt data i' (i' - 1) = d₁ at w₁ hlen₁ hs₁ hlb₁ ⊢
        -- shift the smaller one to the left
        have left : ∃ d₂, (if i' - a ≥ 2 then shiftLeft less (i' - 1) d₁ else d₁) = d₂ ∧
            Within key a b d₁ d₂ ∧ SortedOn key d₂ a i' := by
          refine ⟨_, rfl, ?_⟩
          split_ifs with h2
          · rw [shiftLeft_eq_insertDown hless a (i' - 1) d₁ (by omega) (by omega)
              (fun ha0 => hlb₁ ha0 (i' - 1) (by omega) (by omega))]
            have := insertDown_spec hless a (i' - 1) (i' - 1) d₁ (by omega)
              (le_refl _) (by omega)
              (fun p q hp hpq hq hpi hqi => hs₁ p q hp (by omega) (by omega))
              (fun q h₁ h₂ => by omega)
            have e : i' - 1 + 1 = i' := by omega
            rw [e] at this
            exact ⟨this.1.mono (le_refl _) (by omega), this.2⟩
          · refine ⟨Within.refl _ _ _ _, ?_⟩
            intro p q hp hpq hq
            have : p = q := by omega
            subst this; exact le_refl _
        obtain ⟨d₂, hd₂, w₂, hs₂⟩ := left
        rw [hd₂]
        have hlen₂ : d₂.length = data.length := by rw [w₂.length_eq, hlen₁]
        have right : ∃ d₃, (if b - i' ≥ 2 then shiftRight less (b - (i' + 1)) (i' + 1) d₂
            else d₂) = d₃ ∧ Within key a b d₂ d₃ ∧ SortedOn key d₃ a i' := by
          refine ⟨_, rfl, ?_⟩
          split_ifs with h2
          · have w := shiftRight_within key less b (b - (i' + 1)) (i' + 1) d₂ (by omega)
              (by omega) (by omega)
            simp only [Nat.add_sub_cancel] at w
            refine ⟨w.mono (by omega) (le_refl _), ?_⟩
            intro p q hp hpq hq
            rw [w.keyAt_frame (Or.inl (by omega)), w.keyAt_frame (Or.inl (by omega))]
            exact hs₂ p q hp hpq hq
          · exact ⟨Within.refl _ _ _ _, hs₂⟩
        obtain ⟨d₃, hd₃, w₃, hs₃⟩ := right
        rw [hd₃]
        have w₁₃ : Within key a b data d₃ := w₁.trans (w₂.trans w₃)
        have := ih i' d₃ (by omega) (by omega) (by rw [w₁₃.length_eq]; exact hb) hs₃
          (by
            intro ha0
            rw [w₁₃.keyAt_frame (Or.inl (by omega))]
            exact w₁₃.keep (fun v => keyAt key data (a - 1) ≤ v) (hlb ha0))
        exact ⟨w₁₃.trans this.1, this.2⟩

theorem partialInsertionSort_func_spec (hless : ∀ x y, less x y = decide (key x < key y))
    (data : List α) (a b : Nat) (hab : a < b) (hb : b ≤ data.length)
    (hlb : 0 < a → ∀ k, a ≤ k → k < b → keyAt key data (a - 1) ≤ keyAt key data k) :
    Within key a b data (partialInsertionSort_func less data a b).1 ∧
      ((partialInsertionSort_func less data a b).2 = true →
        SortedOn key (partialInsertionSort_func less data a b).1 a b) := by
  unfold partialInsertionSort_func
  apply partialLoop_spec hless a b 5 (a + 1) data (by omega) (by omega) hb _ hlb
  intro p q hp hpq hq
  have : p = q := by omega
  subst this; exact le_refl _

end PartialInsertion

end GoSort

namespace GoSort

section Heap

variable {α : Type} {less : α → α → Bool} {key : α → Int}

theorem siftDown_func_spec (hless : ∀ x y, less x y = decide (key x < key y))
    (hi first lo : Nat) :
    ∀ (fuel root : Nat) (data : List α), hi - root ≤ fuel → first + hi ≤ data.length →
      lo ≤ root →
      (∀ n c, lo ≤ n → n ≠ root → (c = 2 * n + 1 ∨ c = 2 * n + 2) → c < hi →
        keyAt key data (first + c) ≤ keyAt key data (first + n)) →
      (∀ n c, lo ≤ n → (root = 2 * n + 1 ∨ root = 2 * n + 2) →
        (c = 2 * root + 1 ∨ c = 2 * root + 2) → c < hi →
        keyAt key data (first + c) ≤ keyAt key data (first + n)) →
      Within key (first + lo) (first + hi) data (siftDown_func less hi first fuel root data) ∧
        HeapFrom key (siftDown_func less hi first fuel root data) first lo hi := by
  intro fuel
  induction fuel with
  | zero =>
    intro root data hf hlen hlo h₁ h₂
    simp only [siftDown_func]
    refine ⟨Within.refl _ _ _ _, ?_⟩
    intro n c hn hc hchi
    by_cases hnr : n = root
    · omega
    · exact h₁ n c hn hnr hc hchi
  | succ fuel ih =>
    intro root data hf hlen hlo h₁ h₂
    simp only [siftDown_func]
    by_cases hch : 2 * root + 1 ≥ hi
    · rw [if_pos hch]
      refine ⟨Within.refl _ _ _ _, ?_⟩
      intro n c hn hc hchi
      by_cases hnr : n = root
      · omega
      · exact h₁ n c hn hnr hc hchi
    · rw [if_neg hch]
      -- the larger child
      have pick : ∃ ch, (if (decide (2 * root + 1 + 1 < hi) &&
            lessAt less data (first + (2 * root + 1)) (first + (2 * root + 1) + 1)) = true
            then 2 * root + 1 + 1 else 2 * root + 1) = ch ∧
          (ch = 2 * root + 1 ∨ ch = 2 * root + 2) ∧ ch < hi ∧
          ∀ c, (c = 2 * root + 1 ∨ c = 2 * root + 2) → c < hi →
            keyAt key data (first + c) ≤ keyAt key data (first + ch) := by
        refine ⟨_, rfl, ?_⟩
        by_cases hc : (decide (2 * root + 1 + 1 < hi) &&
            lessAt less data (first + (2 * root + 1)) (first + (2 * root + 1) + 1)) = true
        · rw [if_pos hc]
          simp only [Bool.and_eq_true, decide_eq_true_eq] at hc
          obtain ⟨hc₁, hc₂⟩ := hc
          rw [lessAt_eq hless data (by omega) (by omega), decide_eq_true_eq] at hc₂
          refine ⟨Or.inr rfl, hc₁, ?_⟩
          intro c hc hchi
          rcases hc with rfl | rfl
          · have e : first + (2 * root + 1) + 1 = first + (2 * root + 1 + 1) := by omega
            rw [e] at hc₂
            omega
          · exact le_refl _
        · rw [if_neg hc]
          simp only [Bool.and_eq_true, decide_eq_true_eq, not_and] at hc
          refine ⟨Or.inl rfl, by omega, ?_⟩
          intro c hc' hchi
          rcases hc' with rfl | rfl
          · exact le_refl _
          · have := hc (by omega)
            rw [lessAt_eq hless data (by omega) (by omega), decide_eq_true_eq] at this
            have e : first + (2 * root + 1) + 1 = first + (2 * root + 2) := by omega
            rw [e] at this
            omega
      obtain ⟨ch, hch_eq, hch_cases, hch_hi, hch_max⟩ := pick
      rw [hch_eq]
      by_cases hl : lessAt less data (first + root) (first + ch) = true
      · simp only [hl, Bool.not_true, Bool.false_eq_true, if_false]
        rw [lessAt_eq hless data (by omega) (by omega), decide_eq_true_eq] at hl
        have hk := keyAt_swapAt key data (show first + root < data.length by omega)
          (show first + ch < data.length by omega)
        have hsw : Within key (first + lo) (first + hi) data
            (swapAt data (first + root) (first + ch)) :=
          Within.swap key data (by omega) (by omega) (by omega) (by omega) hlen
        have hk_root : keyAt key (swapAt data (first + root) (first + ch)) (first + root) =
            keyAt key data (first + ch) := by
          rw [hk, if_neg (by omega), if_pos rfl]
        have hk_ch : keyAt key (swapAt data (first + root) (first + ch)) (first + ch) =
            keyAt key data (first + root) := by
          rw [hk, if_pos rfl]
        have hk_other : ∀ x, x ≠ root → x ≠ ch →
            keyAt key (swapAt data (first + root) (first + ch)) (first + x) =
              keyAt key data (first + x) := by
          intro x hx₁ hx₂
          rw [hk, if_neg (by omega), if_neg (by omega)]
        have := ih ch (swapAt data (first + root) (first + ch)) (by omega)
          (by rw [swapAt_length]; exact hlen) (by omega)
          (by
            intro n c hn hnch hc hchi
            by_cases hnr : n = root
            · subst hnr
              rw [hk_root]
              by_cases hcc : c = ch
              · subst hcc
                rw [hk_ch]; omega
              · rw [hk_other c (by omega) hcc]
                exact hch_max c hc hchi
            · rw [hk_other n hnr hnch]
              by_cases hcr : c = root
              · subst hcr
                rw [hk_root]
                exact h₂ n ch hn hc hch_cases hch_hi
              · rw [hk_other c hcr (by omega)]
                exact h₁ n c hn hnr hc hchi)
          (by
            intro n c hn hnc hc hchi
            have hnr : n = root := by omega
            subst hnr
            rw [hk_root, hk_other c (by omega) (by omega)]
            exact h₁ ch c (by omega) (by omega) hc hchi)
        exact ⟨hsw.trans this.1, this.2⟩
      · simp only [Bool.not_eq_true] at hl
        simp only [hl, Bool.not_false, if_true]
        rw [lessAt_eq hless data (by omega) (by omega), decide_eq_false_iff_not] at hl
        refine ⟨Within.refl _ _ _ _, ?_⟩
        intro n c hn hc hchi
        by_cases hnr : n = root
        · subst hnr
          have := hch_max c hc hchi
          omega
        · exact h₁ n c hn hnr hc hchi

theorem heapBuild_spec (hless : ∀ x y, less x y = decide (key x < key y)) (hi first : Nat) :
    ∀ (i : Nat) (data : List α), first + hi ≤ data.length → HeapFrom key data first i hi →
      Within key first (first + hi) data (heapBuild less hi first i data) ∧
        HeapFrom key (heapBuild less hi first i data) first 0 hi := by
  intro i
  induction i with
  | zero =>
    intro data _ h
    exact ⟨Within.refl _ _ _ _, h⟩
  | succ i ih =>
    intro data hlen h
    simp only [heapBuild]
    have s := siftDown_func_spec hless hi first i (hi - i) i data (le_refl _) hlen
      (le_refl _)
      (fun n c hn hni hc hchi => h n c (by omega) hc hchi)
      (fun n c hn hnc hc hchi => by omega)
    have := ih (siftDown_func less hi first (hi - i) i data) (by rw [s.1.length_eq]; exact hlen)
      s.2
    exact ⟨(s.1.mono (by omega) (le_refl _)).trans this.1, this.2⟩

theorem heap_root_max (key : α → Int) (data : List α) (first m : Nat)
    (h : HeapFrom key data first 0 m) :
    ∀ p, p < m → keyAt key data (first + p) ≤ keyAt key data first := by
  intro p
  induction p using Nat.strong_induction_on with
  | _ p ih =>
    intro hp
    by_cases hp0 : p = 0
    · subst hp0; exact le_refl _
    · have e₁ := ih ((p - 1) / 2) (by omega) (by omega)
      have e₂ := h ((p - 1) / 2) p (Nat.zero_le _) (by omega) hp
      omega

theorem heapPop_spec (hless : ∀ x y, less x y = decide (key x < key y)) (first hi : Nat) :
    ∀ (m : Nat) (data : List α), m ≤ hi → first + hi ≤ data.length →
      HeapFrom key data first 0 m →
      SortedOn key data (first + m) (first + hi) →
      (∀ p q, p < m → m ≤ q → q < hi →
        keyAt key data (first + p) ≤ keyAt key data (first + q)) →
      Within key first (first + hi) data (heapPop less first m data) ∧
        SortedOn key (heapPop less first m data) first (first + hi) := by
  intro m
  induction m with
  | zero =>
    intro data _ _ _ hs _
    simp only [heapPop]
    exact ⟨Within.refl _ _ _ _, by simpa using hs⟩
  | succ i ih =>
    intro data hm hlen hheap hs hle
    simp only [heapPop]
    have hmax := heap_root_max key data first (i + 1) hheap
    have hk := keyAt_swapAt key data (show first < data.length by omega)
      (show first + i < data.length by omega)
    have hsw : Within key first (first + hi) data (swapAt data first (first + i)) :=
      Within.swap key data (le_refl _) (by omega) (by omega) (by omega) hlen
    have hlen₁ : (swapAt data first (first + i)).length = data.length := swapAt_length _ _ _
    have hk_root : 0 < i → keyAt key (swapAt data first (first + i)) first =
        keyAt key data (first + i) := by
      intro hi0
      rw [hk, if_neg (by omega), if_pos rfl]
    have hk_last : keyAt key (swapAt data first (first + i)) (first + i) =
        keyAt key data first := by
      rw [hk, if_pos rfl]
    have hk_other : ∀ x, x ≠ first → x ≠ first + i →
        keyAt key (swapAt data first (first + i)) x = keyAt key data x := by
      intro x hx₁ hx₂
      rw [hk, if_neg hx₂, if_neg hx₁]
    -- the heap below `i` is intact except at its root
    have s := siftDown_func_spec hless i first 0 i 0
      (swapAt data first (first + i)) (by omega) (by rw [hlen₁]; omega) (le_refl _)
      (by
        intro n c hn hn0 hc hci
        rw [hk_other (first + c) (by omega) (by omega),
          hk_other (first + n) (by omega) (by omega)]
        exact hheap n c hn hc (by omega))
      (fun n c hn hnc hc hci => by omega)
    simp only [Nat.add_zero] at s
    -- facts about the data after the exchange
    have hs₁ : SortedOn key (swapAt data first (first + i)) (first + i) (first + hi) := by
      intro p q hp hpq hq
      rcases Nat.eq_or_lt_of_le hpq with rfl | hlt
      · exact le_refl _
      · rw [hk_other q (by omega) (by omega)]
        by_cases hpi : p = first + i
        · subst hpi
          rw [hk_last]
          have := hle 0 (q - first) (by omega) (by omega) (by omega)
          have e : first + (q - first) = q := by omega
          rw [e] at this
          simpa using this
        · rw [hk_other p (by omega) hpi]
          exact hs p q (by omega) hpq hq
    have hle₁ : ∀ p q, p < i → i ≤ q → q < hi →
        keyAt key (swapAt data first (first + i)) (first + p) ≤
          keyAt key (swapAt data first (first + i)) (first + q) := by
      intro p q hp hq hqhi
      by_cases hqi : q = i
      · subst hqi
        rw [hk_last]
        by_cases hp0 : p = 0
        · subst hp0
          simp only [Nat.add_zero]
          rw [hk_root hp]
          exact hmax q (by omega)
        · rw [hk_other (first + p) (by omega) (by omega)]
          exact hmax p (by omega)
      · rw [hk_other (first + q) (by omega) (by omega)]
        by_cases hp0 : p = 0
        · subst hp0
          simp only [Nat.add_zero]
          rw [hk_root hp]
          exact hle i q (by omega) (by omega) hqhi
        · rw [hk_other (first + p) (by omega) (by omega)]
          exact hle p q (by omega) (by omega) hqhi
    generalize swapAt data first (first + i) = d₁ at hsw hlen₁ s hs₁ hle₁ ⊢
    obtain ⟨s₁, s₂⟩ := s
    generalize siftDown_func less i first i 0 d₁ = d₂ at s₁ s₂ ⊢
    have hs₂ : SortedOn key d₂ (first + i) (first + hi) := by
      intro p q hp hpq hq
      rw [s₁.keyAt_frame (Or.inr (by omega)), s₁.keyAt_frame (Or.inr (by omega))]
      exact hs₁ p q hp hpq hq
    have hle₂ : ∀ p q, p < i → i ≤ q → q < hi →
        keyAt key d₂ (first + p) ≤ keyAt key d₂ (first + q) := by
      intro p q hp hq hqhi
      rw [s₁.keyAt_frame (k := first + q) (Or.inr (by omega))]
      have := s₁.keep (fun v => v ≤ keyAt key d₁ (first + q))
        (fun k hk₁ hk₂ => by
          have := hle₁ (k - first) q (by omega) hq hqhi
          have e : first + (k - first) = k := by omega
          rw [e] at this
          exact this)
        (first + p) (by omega) (by omega)
      exact this
    have := ih d₂ (by omega) (by rw [s₁.length_eq, hlen₁]; exact hlen) s₂ hs₂ hle₂
    exact ⟨hsw.trans ((s₁.mono (le_refl _) (by omega)).trans this.1), this.2⟩

theorem heapSort_func_spec (hless : ∀ x y, less x y = decide (key x < key y))
    (data : List α) (a b : Nat) (hab : a ≤ b) (hb : b ≤ data.length) :
    Within key a b data (heapSort_func less data a b) ∧
      SortedOn key (heapSort_func less data a b) a b := by
  unfold heapSort_func
  dsimp only
  have hlen : a + (b - a) ≤ data.length := by omega
  have h₁ := heapBuild_spec hless (b - a) a ((b - a - 1) / 2 + 1) data hlen
    (fun n c hn hc hchi => by omega)
  generalize heapBuild less (b - a) a ((b - a - 1) / 2 + 1) data = d₁ at h₁ ⊢
  have h₂ := heapPop_spec hless a (b - a) (b - a) d₁ (le_refl _)
    (by rw [h₁.1.length_eq]; exact hlen) h₁.2
    (fun p q hp hpq hq => by omega) (fun p q hp hq hqhi => by omega)
  have e : a + (b - a) = b := by omega
  rw [e] at h₁ h₂
  exact ⟨h₁.1.trans h₂.1, h₂.2⟩

end Heap

end GoSort

namespace GoSort

section Main

variable {α : Type} {less : α → α → Bool} {key : α → Int}

theorem LowerBound.within {a b : Nat} {xs ys : List α} (h : LowerBound key xs a b)
    (w : Within key a b xs ys) : LowerBound key ys a b := by
  intro ha
  rw [w.keyAt_frame (Or.inl (by omega))]
  exact w.keep (fun v => keyAt key xs (a - 1) ≤ v) (h ha)

theorem sortedOn_join {a mid b : Nat} {d out : List α}
    (sl : SortedOn key out a mid) (sr : SortedOn key out (mid + 1) b)
    (hmid : keyAt key out mid = keyAt key d mid)
    (hl' : ∀ k, a ≤ k → k < mid → keyAt key out k < keyAt key d mid)
    (hr' : ∀ k, mid < k → k < b → keyAt key d mid ≤ keyAt key out k) :
    SortedOn key out a b := by
  intro i j hi hij hj
  rcases Nat.eq_or_lt_of_le hij with rfl | hlt
  · exact le_refl _
  · by_cases hjm : j < mid
    · exact sl i j hi hij hjm
    · by_cases him : mid < i
      · exact sr i j (by omega) hij hj
      · by_cases hie : i = mid
        · subst hie
          rw [hmid]
          exact hr' j (by omega) hj
        · have e₁ := hl' i hi (by omega)
          by_cases hje : j = mid
          · subst hje
            rw [hmid]; omega
          · have e₂ := hr' j (by omega) hj
            omega

theorem pdqsortLoop_spec (hless : ∀ x y, less x y = decide (key x < key y)) :
    ∀ (fuel : Nat) (data : List α) (a b limit : Nat) (wasBalanced wasPartitioned : Bool),
      b - a ≤ fuel → a ≤ b → b ≤ data.length → LowerBound key data a b →
      ∃ out, pdqsortLoop less fuel data a b limit wasBalanced wasPartitioned = some out ∧
        Within key a b data out ∧ SortedOn key out a b := by
  intro fuel
  induction fuel with
  | zero =>
    intro data a b limit wb wp hf hab hb hlb
    unfold pdqsortLoop
    dsimp only
    rw [if_pos (by omega)]
    exact ⟨_, rfl, insertionSort_func_spec hless data a b hab hb⟩
  | succ fuel ih =>
    intro data a b limit wb wp hf hab hb hlb
    unfold pdqsortLoop
    dsimp only
    by_cases h12 : b - a ≤ 12
    · rw [if_pos h12]
      exact ⟨_, rfl, insertionSort_func_spec hless data a b hab hb⟩
    rw [if_neg h12]
    by_cases hl0 : limit = 0
    · rw [if_pos hl0]
      exact ⟨_, rfl, heapSort_func_spec hless data a b hab hb⟩
    rw [if_neg hl0]
    have hfuel0 : b - a ≤ fuel + 1 := hf
    generalize hr₁ : (if (!wb) = true then (breakPatterns_func data a b, limit - 1)
      else (data, limit)) = r₁
    obtain ⟨d₁, limit₁⟩ := r₁
    dsimp only
    have w₁ : Within key a b data d₁ := by
      split_ifs at hr₁
      · rw [← (Prod.mk.inj hr₁).1]
        exact breakPatterns_func_within key data a b hab hb
      · rw [← (Prod.mk.inj hr₁).1]
        exact Within.refl _ _ _ _
    have hp := choosePivot_func_range less d₁ a b (by omega)
    generalize choosePivot_func less d₁ a b = r₂ at hp ⊢
    obtain ⟨pivot, hint⟩ := r₂
    dsimp only at hp ⊢
    generalize hr₃ : (if hint = sortedHint.decreasingHint then
      (reverseRange_func d₁ a b, b - 1 - (pivot - a), sortedHint.increasingHint)
      else (d₁, pivot, hint)) = r₃
    obtain ⟨d₂, pivot₂, hint₂⟩ := r₃
    dsimp only
    have hlen₁ : d₁.length = data.length := w₁.length_eq
    have hrev : Within key a b d₁ d₂ ∧ a ≤ pivot₂ ∧ pivot₂ < b := by
      split_ifs at hr₃
      · obtain ⟨e₁, e₂, _⟩ := Prod.mk.inj hr₃ |>.imp id Prod.mk.inj
        rw [← e₁, ← e₂]
        exact ⟨reverseRange_func_within key d₁ a b (by omega) (by omega), by omega, by omega⟩
      · obtain ⟨e₁, e₂, _⟩ := Prod.mk.inj hr₃ |>.imp id Prod.mk.inj
        rw [← e₁, ← e₂]
        exact ⟨Within.refl _ _ _ _, hp.1, hp.2⟩
    obtain ⟨w₂, hpa, hpb⟩ := hrev
    have w₁₂ : Within key a b data d₂ := w₁.trans w₂
    have hlen₂ : d₂.length = data.length := w₁₂.length_eq
    have hlb₂ : LowerBound key d₂ a b := hlb.within w₁₂
    generalize hr₄ : (if (wb && wp && decide (hint₂ = sortedHint.increasingHint)) = true then
      partialInsertionSort_func less d₂ a b else (d₂, false)) = r₄
    obtain ⟨d₃, done⟩ := r₄
    dsimp only
    have hpart : Within key a b d₂ d₃ ∧ (done = true → SortedOn key d₃ a b) := by
      split_ifs at hr₄
      · have := partialInsertionSort_func_spec hless d₂ a b (by omega) (by omega)
          hlb₂
        rw [hr₄] at this
        exact this
      · obtain ⟨e₁, e₂⟩ := Prod.mk.inj hr₄
        rw [← e₁, ← e₂]
        exact ⟨Within.refl _ _ _ _, fun h => by simp at h⟩
    obtain ⟨w₃, hdone⟩ := hpart
    have w₁₃ : Within key a b data d₃ := w₁₂.trans w₃
    have hlen₃ : d₃.length = data.length := w₁₃.length_eq
    have hlb₃ : LowerBound key d₃ a b := hlb.within w₁₃
    by_cases hd : done = true
    · rw [if_pos hd]
      exact ⟨_, rfl, w₁₃, hdone hd⟩
    rw [if_neg hd]
    by_cases heq : (decide (a > 0) && !lessAt less d₃ (a - 1) pivot₂) = true
    · rw [if_pos heq]
      simp only [Bool.and_eq_true, decide_eq_true_eq, Bool.not_eq_true'] at heq
      obtain ⟨ha0, hnl⟩ := heq
      rw [lessAt_eq hless d₃ (by omega) (by omega), decide_eq_false_iff_not] at hnl
      have hmin : ∀ k, a ≤ k → k < b → keyAt key d₃ pivot₂ ≤ keyAt key d₃ k := by
        intro k hk₁ hk₂
        have := hlb₃ ha0 k hk₁ hk₂
        omega
      obtain ⟨e₁, e₂, e₃, e₄, e₅⟩ := partitionEqual_func_spec hless d₃ a b pivot₂
        (by omega) (by omega) hpa hpb hmin
      generalize partitionEqual_func less d₃ a b pivot₂ = r₅ at e₁ e₂ e₃ e₄ e₅ ⊢
      obtain ⟨d₄, mid⟩ := r₅
      dsimp only at e₁ e₂ e₃ e₄ e₅ ⊢
      have hlen₄ : d₄.length = data.length := by rw [e₁.length_eq, hlen₃]
      obtain ⟨out, ho₁, ho₂, ho₃⟩ := ih d₄ mid b limit₁ wb wp (by omega) e₃ (by omega)
        (by
          intro _ k hk₁ hk₂
          rw [e₄ (mid - 1) (by omega) (by omega)]
          exact le_of_lt (e₅ k hk₁ hk₂))
      refine ⟨out, ho₁, w₁₃.trans (e₁.trans (ho₂.mono (by omega) (le_refl _))), ?_⟩
      intro i j hi hij hj
      by_cases hjm : j < mid
      · rw [ho₂.keyAt_frame (Or.inl hjm), ho₂.keyAt_frame (Or.inl (by omega)),
          e₄ i hi (by omega), e₄ j (by omega) hjm]
      · by_cases him : i < mid
        · rw [ho₂.keyAt_frame (Or.inl him), e₄ i hi him]
          exact le_of_lt (ho₂.keep (fun v => keyAt key d₃ pivot₂ < v) e₅ j (by omega) hj)
        · exact ho₃ i j (by omega) hij hj
    rw [if_neg heq]
    obtain ⟨e₁, e₂, e₃, e₄, e₅⟩ := partition_func_spec hless d₃ a b pivot₂
      (by omega) (by omega) hpa hpb
    generalize partition_func less d₃ a b pivot₂ = r₅ at e₁ e₂ e₃ e₄ e₅ ⊢
    obtain ⟨d₄, mid, ap⟩ := r₅
    dsimp only at e₁ e₂ e₃ e₄ e₅ ⊢
    have w₁₄ : Within key a b data d₄ := w₁₃.trans e₁
    have hlen₄ : d₄.length = data.length := w₁₄.length_eq
    have hlb₄ : LowerBound key d₄ a b := hlb.within w₁₄
    have hlbL : LowerBound key d₄ a mid := fun ha0 k hk₁ hk₂ => hlb₄ ha0 k hk₁ (by omega)
    have hlbR : LowerBound key d₄ (mid + 1) b := by
      intro _ k hk₁ hk₂
      simp only [Nat.add_sub_cancel]
      exact e₅ k (by omega) hk₂
    split_ifs with hside
    · -- the left part is the shorter one: sort it first
      obtain ⟨o₁, ho₁, wL, sL⟩ := ih d₄ a mid limit₁ true true (by omega) e₂ (by omega) hlbL
      rw [ho₁]
      dsimp only
      have hlenL : o₁.length = data.length := by rw [wL.length_eq, hlen₄]
      obtain ⟨o₂, ho₂, wR, sR⟩ := ih o₁ (mid + 1) b limit₁
        (decide (mid - a ≥ (b - a) / 8)) ap (by omega) (by omega) (by omega)
        (by
          intro _ k hk₁ hk₂
          simp only [Nat.add_sub_cancel]
          rw [wL.keyAt_frame (Or.inr (le_refl _)), wL.keyAt_frame (Or.inr (by omega))]
          exact e₅ k (by omega) hk₂)
      refine ⟨o₂, ho₂, w₁₄.trans ((wL.mono (le_refl _) (by omega)).trans
        (wR.mono (by omega) (le_refl _))), ?_⟩
      have hmid : keyAt key o₂ mid = keyAt key d₄ mid := by
        rw [wR.keyAt_frame (Or.inl (by omega)), wL.keyAt_frame (Or.inr (le_refl _))]
      have hl' : ∀ k, a ≤ k → k < mid → keyAt key o₂ k < keyAt key d₄ mid := by
        intro k hk₁ hk₂
        rw [wR.keyAt_frame (Or.inl (by omega))]
        exact wL.keep (fun v => v < keyAt key d₄ mid) e₄ k hk₁ hk₂
      have hr' : ∀ k, mid < k → k < b → keyAt key d₄ mid ≤ keyAt key o₂ k := by
        intro k hk₁ hk₂
        refine wR.keep (fun v => keyAt key d₄ mid ≤ v) ?_ k (by omega) hk₂
        intro k' hk₁' hk₂'
        rw [wL.keyAt_frame (Or.inr (by omega))]
        exact e₅ k' (by omega) hk₂'
      have sL' : SortedOn key o₂ a mid := by
        intro i j hi hij hj
        rw [wR.keyAt_frame (Or.inl (by omega)), wR.keyAt_frame (Or.inl (by omega))]
        exact sL i j hi hij hj
      exact sortedOn_join sL' sR hmid hl' hr'
    · -- the right part is the shorter one: sort it first
      obtain ⟨o₁, ho₁, wR, sR⟩ := ih d₄ (mid + 1) b limit₁ true true (by omega) (by omega)
        (by omega) hlbR
      rw [ho₁]
      dsimp only
      have hlenR : o₁.length = data.length := by rw [wR.length_eq, hlen₄]
      obtain ⟨o₂, ho₂, wL, sL⟩ := ih o₁ a mid limit₁
        (decide (b - mid ≥ (b - a) / 8)) ap (by omega) e₂ (by omega)
        (by
          intro ha0 k hk₁ hk₂
          rw [wR.keyAt_frame (Or.inl (by omega)), wR.keyAt_frame (Or.inl (by omega))]
          exact hlbL ha0 k hk₁ hk₂)
      refine ⟨o₂, ho₂, w₁₄.trans ((wR.mono (by omega) (le_refl _)).trans
        (wL.mono (le_refl _) (by omega))), ?_⟩
      have hmid : keyAt key o₂ mid = keyAt key d₄ mid := by
        rw [wL.keyAt_frame (Or.inr (le_refl _)), wR.keyAt_frame (Or.inl (by omega))]
      have hl' : ∀ k, a ≤ k → k < mid → keyAt key o₂ k < keyAt key d₄ mid := by
        intro k hk₁ hk₂
        refine wL.keep (fun v => v < keyAt key d₄ mid) ?_ k hk₁ hk₂
        intro k' hk₁' hk₂'
        rw [wR.keyAt_frame (Or.inl (by omega))]
        exact e₄ k' hk₁' hk₂'
      have hr' : ∀ k, mid < k → k < b → keyAt key d₄ mid ≤ keyAt key o₂ k := by
        intro k hk₁ hk₂
        rw [wL.keyAt_frame (Or.inr (by omega))]
        exact wR.keep (fun v => keyAt key d₄ mid ≤ v) (fun k' h₁ h₂ => e₅ k' (by omega) h₂) k
          (by omega) hk₂
      have sR' : SortedOn key o₂ (mid + 1) b := by
        intro i j hi hij hj
        rw [wL.keyAt_frame (Or.inr (by omega)), wL.keyAt_frame (Or.inr (by omega))]
        exact sR i j hi hij hj
      exact sortedOn_join sL sR' hmid hl' hr'

theorem Slice_spec (hless : ∀ x y, less x y = decide (key x < key y)) (x : List α) :
    ∃ out, Slice less x = some out ∧ out.Perm x ∧ SortedOn key out 0 out.length := by
  unfold Slice pdqsort_func
  obtain ⟨out, h₁, h₂, h₃⟩ := pdqsortLoop_spec hless x.length x 0 x.length
    (bitsLen x.length) true true (by omega) (Nat.zero_le _) (le_refl _) (fun h => by omega)
  refine ⟨out, h₁, h₂.perm, ?_⟩
  rw [h₂.length_eq]
  exact h₃

end Main

end GoSort

namespace GoSort

section Stable

variable {α : Type} {less : α → α → Bool} {key : α → Int}

theorem swapAt_cons_succ (x : α) (l : List α) (i j : Nat) :
    swapAt (x :: l) (i + 1) (j + 1) = x :: swapAt l i j := by
  unfold swapAt
  simp only [List.getElem?_cons_succ]
  split <;> simp_all

theorem filter_swapAt_adjacent (key : α → Int) (t : Int) :
    ∀ (data : List α) (j : Nat), j + 1 < data.length →
      keyAt key data (j + 1) ≠ keyAt key data j →
      (swapAt data (j + 1) j).filter (fun z => decide (key z = t)) =
        data.filter (fun z => decide (key z = t)) := by
  intro data
  induction data with
  | nil => intro j hj; simp at hj
  | cons x l ih =>
    intro j hj hne
    cases j with
    | zero =>
      cases l with
      | nil => simp at hj
      | cons y r =>
        simp only [keyAt, List.getElem?_cons_succ, List.getElem?_cons_zero, zero_add] at hne
        simp only [swapAt, List.getElem?_cons_succ, List.getElem?_cons_zero, zero_add,
          List.set_cons_succ, List.set_cons_zero, List.filter_cons]
        by_cases hx : key x = t <;> by_cases hy : key y = t <;> simp [hx, hy]
        omega
    | succ j =>
      rw [swapAt_cons_succ, List.filter_cons, List.filter_cons]
      have := ih j (by simpa using hj) (by
        simpa only [keyAt, List.getElem?_cons_succ] using hne)
      rw [this]

theorem insertDown_filter (hless : ∀ x y, less x y = decide (key x < key y)) (a : Nat)
    (t : Int) :
    ∀ (j : Nat) (data : List α), j < data.length →
      (insertDown less a j data).filter (fun z => decide (key z = t)) =
        data.filter (fun z => decide (key z = t)) := by
  intro j
  induction j with
  | zero => intro data _; rfl
  | succ j ih =>
    intro data hj
    simp only [insertDown]
    split_ifs with hc
    · simp only [Bool.and_eq_true, decide_eq_true_eq] at hc
      have hlt := hc.2
      rw [lessAt_eq hless data hj (by omega), decide_eq_true_eq] at hlt
      rw [ih _ (by rw [swapAt_length]; omega)]
      exact filter_swapAt_adjacent key t data j hj (by omega)
    · rfl

theorem insertDown_length (less : α → α → Bool) (a : Nat) :
    ∀ (j : Nat) (data : List α), (insertDown less a j data).length = data.length := by
  intro j
  induction j with
  | zero => intro data; rfl
  | succ j ih =>
    intro data
    simp only [insertDown]
    split_ifs
    · rw [ih, swapAt_length]
    · rfl

theorem insertionLoop_filter (hless : ∀ x y, less x y = decide (key x < key y)) (a : Nat)
    (t : Int) :
    ∀ (n i : Nat) (data : List α), (n ≠ 0 → i + n ≤ data.length) →
      (insertionLoop less a n i data).filter (fun z => decide (key z = t)) =
        data.filter (fun z => decide (key z = t)) := by
  intro n
  induction n with
  | zero => intro i data _; rfl
  | succ n ih =>
    intro i data hlen
    have hlen' := hlen (by omega)
    simp only [insertionLoop]
    rw [ih (i + 1) _ (by rw [insertDown_length]; omega)]
    exact insertDown_filter hless a t i data (by omega)

theorem Slice_stable_of_short (hless : ∀ x y, less x y = decide (key x < key y))
    (x : List α) (hx : x.length ≤ 12) (t : Int) :
    ∃ out, Slice less x = some out ∧
      out.filter (fun z => decide (key z = t)) = x.filter (fun z => decide (key z = t)) := by
  unfold Slice pdqsort_func
  dsimp only
  unfold pdqsortLoop
  dsimp only
  rw [if_pos (by omega)]
  refine ⟨_, rfl, ?_⟩
  unfold insertionSort_func
  exact insertionLoop_filter hless 0 t _ _ x (by omega)

end Stable

end GoSort

section Timeline

theorem eventLess_eq (x y : portEvent) :
    eventLess x y = decide (x.timestamp.ns < y.timestamp.ns) := rfl

theorem areaLoop_eq (call : portCall) :
    ∀ (areas : List portAreaDetail) (events : List portEvent),
      areaLoop call areas events =
        events ++ areas.flatMap (fun area => [arrivalOf call area, departureOf call area]) := by
  intro areas
  induction areas with
  | nil => intro events; simp [areaLoop]
  | cons area rest ih =>
    intro events
    simp only [areaLoop, ih, List.flatMap_cons, List.append_assoc]
    rfl

theorem callLoop_eq (port : String) :
    ∀ (calls : List portCall) (events : List portEvent),
      callLoop port calls events =
        events ++ (calls.filter (fun call => call.PortToVisit = port)).flatMap
          (fun call =>
            call.PortAreaDetails.flatMap (fun area => [arrivalOf call area, departureOf call area])) := by
  intro calls
  induction calls with
  | nil => intro events; simp [callLoop]
  | cons call rest ih =>
    intro events
    simp only [callLoop]
    by_cases h : call.PortToVisit = port
    · simp [h, ih, areaLoop_eq, List.filter_cons]
    · simp [h, ih, List.filter_cons]

theorem callLoop_emission (pc : portCalls) (port : String) :
    callLoop port pc.PortCalls [] = emission pc port := by
  rw [callLoop_eq]
  rfl

theorem emission_length (pc : portCalls) (p : String) :
    (emission pc p).length = 2 * matchingVisits pc p := by
  unfold emission matchingVisits
  generalize pc.PortCalls.filter (fun call => call.PortToVisit = p) = calls
  induction calls with
  | nil => rfl
  | cons call rest ih =>
    simp only [List.flatMap_cons, List.length_append, ih, List.map_cons, List.sum_cons]
    have : ∀ areas : List portAreaDetail,
        (areas.flatMap (fun area => [arrivalOf call area, departureOf call area])).length =
          2 * areas.length := by
      intro areas
      induction areas with
      | nil => rfl
      | cons a r ih' => simp only [List.flatMap_cons, List.length_append, ih']; simp; omega
    rw [this]
    omega

theorem emission_nil_of_no_match (pc : portCalls) (p : String)
    (h : ∀ call ∈ pc.PortCalls, call.PortToVisit ≠ p) : emission pc p = [] := by
  unfold emission
  have : pc.PortCalls.filter (fun call => call.PortToVisit = p) = [] := by
    rw [List.filter_eq_nil_iff]
    intro call hc
    simpa using h call hc
  rw [this]
  rfl

theorem portEvents_spec (pc : portCalls) (p : String) :
    ∃ out, portEvents pc p = some (out, none) ∧ out.Perm (emission pc p) ∧
      GoSort.SortedOn (fun e : portEvent => e.timestamp.ns) out 0 out.length := by
  obtain ⟨out, h₁, h₂, h₃⟩ := @GoSort.Slice_spec portEvent eventLess
    (fun e : portEvent => e.timestamp.ns) eventLess_eq (callLoop p pc.PortCalls [])
  refine ⟨out, ?_, ?_, h₃⟩
  · unfold portEvents
    simp only [h₁]
  · rw [← callLoop_emission]
    exact h₂

theorem keyAt_getElem {α : Type} (key : α → Int) (data : List α) (i : Nat)
    (h : i < data.length) : GoSort.keyAt key data i = key data[i] := by
  unfold GoSort.keyAt
  rw [List.getElem?_eq_getElem h]

end Timeline

/-- C1: for every dataset and port code, `portEvents` returns a sequence in which no element
has an effective timestamp strictly before that of its predecessor, where the effective
timestamp is the actual time when that is non-zero and the estimate otherwise; in the FIKOK
scenario the arrival (effective 10:00, estimated) comes before the departure (effective
14:05, actual). -/
theorem portEvents_sorted_by_timestamp :
    (∀ (pc : portCalls) (p : String), ∃ out, portEvents pc p = some (out, none) ∧
      ∀ (i : Nat) (h : i + 1 < out.length),
        (out[i + 1]).timestamp.Before (out[i]).timestamp = false) ∧
    (∀ e : portEvent, e.timestamp = if e.actual = Time.zero then e.estimate else e.actual) ∧
    portEvents fikokFeed "FIKOK" = some
      ([⟨"Arrival", "AURORA", 230123000, 9000000, "Mussalo", unixTime 1704103200, Time.zero⟩,
        ⟨"Departure", "AURORA", 230123000, 9000000, "Mussalo", unixTime 1704117600,
          unixTime 1704117900⟩], none) := by
  refine ⟨fun pc p => ?_, fun e => ?_, by decide⟩
  · obtain ⟨out, h₁, _, h₃⟩ := portEvents_spec pc p
    refine ⟨out, h₁, fun i h => ?_⟩
    have := h₃ i (i + 1) (Nat.zero_le _) (Nat.le_succ _) h
    rw [keyAt_getElem _ _ _ (by omega), keyAt_getElem _ _ _ h] at this
    simp only [Time.Before, decide_eq_false_iff_not, not_lt]
    exact this
  · unfold portEvent.timestamp Time.IsZero Time.zero
    by_cases h : e.actual.ns = 0
    · have : e.actual = ⟨0⟩ := by
        cases hh : e.actual with
        | mk ns => rw [hh] at h; simp only at h; rw [h]
      simp [h, this]
    · have : e.actual ≠ ⟨0⟩ := fun hh => h (by rw [hh])
      simp [h, this]

/-- C2: for every dataset and port code, `portEvents` returns no error and a permutation of
the emission list (calls in feed order whose `PortToVisit` equals the port code exactly, and
per area visit an arrival with estimate = ETA, actual = ATA, then a departure with
estimate = ETD, actual = ATD, carrying the call's vessel name, MMSI, IMO/Lloyds number and
the area name); so it has twice as many events as there are area visits of matching calls,
and none when no call matches. -/
theorem portEvents_perm_emission (pc : portCalls) (p : String) :
    ∃ out, portEvents pc p = some (out, none) ∧ out.Perm (emission pc p) ∧
      out.length = 2 * matchingVisits pc p ∧
      ((∀ call ∈ pc.PortCalls, call.PortToVisit ≠ p) → out = []) := by
  obtain ⟨out, h₁, h₂, _⟩ := portEvents_spec pc p
  refine ⟨out, h₁, h₂, ?_, fun h => ?_⟩
  · rw [h₂.length_eq, emission_length]
  · rw [emission_nil_of_no_match pc p h] at h₂
    exact h₂.eq_nil

/-- C3, as the code has it: `sort.Slice` (the pattern-defeating quicksort of Go 1.19 and
later) sorts a slice of at most 12 elements by insertion, so when the emission list has at
most 12 events, the events of any one effective timestamp appear in the output of
`portEvents` in the order in which they were emitted. -/
theorem portEvents_stable_upto_12 (pc : portCalls) (p : String)
    (h : (emission pc p).length ≤ 12) :
    ∃ out, portEvents pc p = some (out, none) ∧
      ∀ t : Time, out.filter (fun e => e.timestamp = t) =
        (emission pc p).filter (fun e => e.timestamp = t) := by
  have hk : ∀ t : Int, ∃ out, GoSort.Slice eventLess (emission pc p) = some out ∧
      out.filter (fun z : portEvent => decide (z.timestamp.ns = t)) =
        (emission pc p).filter (fun z => decide (z.timestamp.ns = t)) :=
    fun t => @GoSort.Slice_stable_of_short portEvent eventLess
      (fun e : portEvent => e.timestamp.ns) eventLess_eq (emission pc p) h t
  obtain ⟨out, h₁, _⟩ := hk 0
  refine ⟨out, ?_, fun t => ?_⟩
  · unfold portEvents
    simp only [callLoop_emission, h₁]
  · obtain ⟨out', h₁', h₂'⟩ := hk t.ns
    rw [h₁] at h₁'
    cases h₁'
    have e : ∀ l : List portEvent, l.filter (fun e => e.timestamp = t) =
        l.filter (fun z => decide (z.timestamp.ns = t.ns)) := by
      intro l
      congr 1
      funext z
      cases hz : z.timestamp with
      | mk ns => cases t with
        | mk tn => simp
    rw [e, e]
    exact h₂'

/-- C3, witness: twelve events, eleven of them tied at 12:00Z; the arrival at `Q3` moves to
the front and the tied events keep their emission order. -/
theorem portEvents_stable_upto_12_witness :
    (emission twelveTiedFeed "FIKOK").length ≤ 12 ∧
    ((emission twelveTiedFeed "FIKOK").filter
      (fun e => e.timestamp = unixTime 1704110400)).length = 11 ∧
    (portEvents twelveTiedFeed "FIKOK").map
        (fun r => (r.1.map (fun e => (e.event, e.portArea)), r.2)) =
      some ([("Arrival", "Q3"), ("Arrival", "Q0"), ("Departure", "Q0"), ("Arrival", "Q1"),
        ("Departure", "Q1"), ("Arrival", "Q2"), ("Departure", "Q2"), ("Departure", "Q3"),
        ("Arrival", "Q4"), ("Departure", "Q4"), ("Arrival", "Q5"), ("Departure", "Q5")],
        none) ∧
    ∃ out, portEvents twelveTiedFeed "FIKOK" = some (out, none) ∧
      ∀ t : Time, out.filter (fun e => e.timestamp = t) =
        (emission twelveTiedFeed "FIKOK").filter (fun e => e.timestamp = t) :=
  ⟨by decide, by decide, by decide,
    portEvents_stable_upto_12 twelveTiedFeed "FIKOK" (by decide)⟩

/-- C3 fails at 14 events: seven visits tied at 12:00Z except for one earlier arrival come
out with the departure from `Q1` ahead of the arrival at `Q1`, and the events of 12:00Z no
longer in emission order. -/
theorem portEvents_unstable_at_14 :
    (portEvents tiedFeed "FIKOK").map
        (fun r => (r.1.map (fun e => (e.event, e.portArea)), r.2)) =
      some ([("Arrival", "Q3"), ("Departure", "Q1"), ("Arrival", "Q1"), ("Arrival", "Q0"),
        ("Arrival", "Q2"), ("Departure", "Q2"), ("Departure", "Q0"), ("Departure", "Q3"),
        ("Arrival", "Q4"), ("Departure", "Q4"), ("Arrival", "Q5"), ("Departure", "Q5"),
        ("Arrival", "Q6"), ("Departure", "Q6")], none) ∧
    (portEvents tiedFeed "FIKOK").map
        (fun r => r.1.filter (fun e => e.timestamp = unixTime 1704110400)) ≠
      some ((emission tiedFeed "FIKOK").filter (fun e => e.timestamp = unixTime 1704110400)) := by
  refine ⟨by decide, by decide⟩

section Effects


theorem vesselDetailsFile_ne_portCallsFile (key value : String) :
    vesselDetailsFile key value ≠ portCallsFile := by
  intro h
  have := congrArg String.data h
  simp [vesselDetailsFile, portCallsFile, String.data_append] at this

theorem downloadsOf_append (f : String) (t₁ t₂ : List IOEvent) :
    downloadsOf f (t₁ ++ t₂) = downloadsOf f t₁ + downloadsOf f t₂ := by
  unfold downloadsOf
  exact List.countP_append _ _ _

theorem readfile_world {T : Type} (decode : String → T → Except String T) (w : World)
    (filename : String) (v : T) :
    (readfile decode w filename v).2 =
      { w with trace := w.trace ++ [IOEvent.read filename (w.files filename)] } := by
  unfold readfile
  dsimp only
  split
  · rfl
  · rfl
  · split <;> rfl

theorem readfile_result {T : Type} (decode : String → T → Except String T) (w : World)
    (filename : String) (v : T) :
    (readfile decode w filename v).1 =
      match w.files filename with
      | .absent => .error (.notExist filename)
      | .unreadable msg => .error (.other msg)
      | .content bytes =>
        match decode bytes v with
        | .error msg => .error (.other msg)
        | .ok v => .ok v := by
  unfold readfile
  dsimp only
  cases w.files filename with
  | absent => rfl
  | unreadable msg => rfl
  | content bytes =>
    dsimp only
    cases decode bytes v <;> rfl

theorem download_trace (env : Env) (w : World) (filename url : String) :
    (download env w filename url).2.trace =
      w.trace ++ [IOEvent.download filename url (env.fetch w.downloads filename url)] := by
  unfold download
  dsimp only
  split <;> rfl

theorem download_files_of_saved (env : Env) (w : World) (filename url body : String)
    (h : env.fetch w.downloads filename url = .saved body) :
    (download env w filename url).1 = none ∧
      (download env w filename url).2.files filename = .content body := by
  unfold download
  dsimp only
  rw [h]
  simp

theorem download_result_none (env : Env) (w : World) (filename url : String)
    (h : (download env w filename url).1 = none) :
    ∃ body, env.fetch w.downloads filename url = .saved body := by
  unfold download at h
  dsimp only at h
  split at h <;> simp_all

theorem getVesselDetails_elim (env : Env) (w : World) (mmsi imoLloyds : Int)
    (name key value : String) (hk : vesselKey mmsi imoLloyds name = some (key, value))
    (P : Except GoError vesselDetails × World → Prop)
    (h_err : ∀ e, (readfile env.decodeVesselDetails w (vesselDetailsFile key value) []).1 =
        .error e → e.isNotExist = false →
      P (.error e, afterRead w (vesselDetailsFile key value)))
    (h_hit : ∀ vds, (readfile env.decodeVesselDetails w (vesselDetailsFile key value) []).1 =
        .ok vds → vds ≠ [] →
      P (finishOf vds, afterRead w (vesselDetailsFile key value)))
    (h_miss : ∀ d, d = download env (afterRead w (vesselDetailsFile key value))
        (vesselDetailsFile key value) (vesselDetailsURL key value) →
      ((∃ e, (readfile env.decodeVesselDetails w (vesselDetailsFile key value) []).1 =
          .error e ∧ e.isNotExist = true) ∨
        (readfile env.decodeVesselDetails w (vesselDetailsFile key value) []).1 = .ok []) →
      (∀ e, d.1 = some e → P (.error e, d.2)) ∧
      (d.1 = none →
        (∀ e, (readfile env.decodeVesselDetails d.2 (vesselDetailsFile key value) []).1 =
          .error e → P (.error e, afterRead d.2 (vesselDetailsFile key value))) ∧
        (∀ vds, (readfile env.decodeVesselDetails d.2 (vesselDetailsFile key value) []).1 =
          .ok vds → P (finishOf vds, afterRead d.2 (vesselDetailsFile key value))))) :
    P (getVesselDetails env w mmsi imoLloyds name) := by
  have hfin : ∀ (vds : List vesselDetails) (w' : World),
      (match vds with
        | [vd] => ((Except.ok vd : Except GoError vesselDetails), w')
        | _ => (.error (.other ("getVesselDetails: expected 1 item, got " ++
            toString vds.length)), w')) = (finishOf vds, w') := by
    intro vds w'
    rcases vds with _ | ⟨vd, _ | ⟨vd₂, tail⟩⟩ <;> rfl
  generalize hf : vesselDetailsFile key value = f at h_err h_hit h_miss
  generalize hu : vesselDetailsURL key value = url at h_miss
  -- the refresh branch
  have reload : ((∃ e, (readfile env.decodeVesselDetails w f []).1 = .error e ∧
        e.isNotExist = true) ∨ (readfile env.decodeVesselDetails w f []).1 = .ok []) →
      P (match download env (afterRead w f) f url with
        | (some err, w) => ((Except.error err : Except GoError vesselDetails), w)
        | (none, w) =>
          match readfile env.decodeVesselDetails w f [] with
          | (.error err, w) => (.error err, w)
          | (.ok vds, w) =>
            match vds with
            | [vd] => (.ok vd, w)
            | _ => (.error (.other ("getVesselDetails: expected 1 item, got " ++
                toString vds.length)), w)) := by
    intro hfirst
    obtain ⟨m₁, m₂⟩ := h_miss _ rfl hfirst
    rcases hd : download env (afterRead w f) f url with ⟨_ | err, w₂⟩
    · rw [hd] at m₂
      obtain ⟨m₃, m₄⟩ := m₂ rfl
      dsimp only at m₃ m₄ ⊢
      have hw₃ : (readfile env.decodeVesselDetails w₂ f []).2 = afterRead w₂ f :=
        readfile_world _ _ _ _
      rcases hr : readfile env.decodeVesselDetails w₂ f [] with ⟨_ | vds, w₃⟩
      · rw [hr] at hw₃ m₃
        dsimp only at hw₃ m₃ ⊢
        rw [hw₃]
        exact m₃ _ rfl
      · rw [hr] at hw₃ m₄
        dsimp only at hw₃ m₄ ⊢
        rw [hw₃, hfin]
        exact m₄ _ rfl
    · rw [hd] at m₁
      exact m₁ err rfl
  unfold getVesselDetails
  rw [hk]
  dsimp only
  rw [hf, hu]
  have hw₁ : (readfile env.decodeVesselDetails w f []).2 = afterRead w f := readfile_world _ _ _ _
  rcases hr : readfile env.decodeVesselDetails w f [] with ⟨e | vds, w₁⟩
  · rw [hr] at hw₁ h_err reload
    dsimp only at hw₁ h_err reload ⊢
    rw [hw₁]
    by_cases hn : e.isNotExist = true
    · rw [if_pos hn]
      exact reload (Or.inl ⟨e, rfl, hn⟩)
    · rw [if_neg hn]
      exact h_err e rfl (by simpa using hn)
  · rw [hr] at hw₁ h_hit reload
    dsimp only at hw₁ h_hit reload ⊢
    rw [hw₁]
    by_cases hn : vds.length = 0
    · rw [if_pos hn]
      have : vds = [] := List.length_eq_zero.mp hn
      subst this
      exact reload (Or.inr rfl)
    · rw [if_neg hn]
      have := h_hit vds rfl (fun h => hn (by rw [h]; rfl))
      rw [← hfin] at this
      exact this

theorem run_elim (env : Env) (w : World) (portCode : String)
    (P : Option (Except GoError Output × World) → Prop)
    (h_err : ∀ e, (readfile env.decodePortCalls w portCallsFile portCalls.zero).1 = .error e →
      e.isNotExist = false → P (some (.error e, afterRead w portCallsFile)))
    (h_fresh : ∀ pc, (readfile env.decodePortCalls w portCallsFile portCalls.zero).1 = .ok pc →
      pc.PortCallsUpdated.Before ((env.clock w.clockReads).Add (-Time.Hour)) = false →
      P (afterLoad env portCode pc (tick (afterRead w portCallsFile))))
    (h_miss : ∀ pc₀ w₁ d,
      (((∃ e, (readfile env.decodePortCalls w portCallsFile portCalls.zero).1 = .error e ∧
            e.isNotExist = true) ∧ pc₀ = portCalls.zero ∧ w₁ = afterRead w portCallsFile) ∨
        ((readfile env.decodePortCalls w portCallsFile portCalls.zero).1 = .ok pc₀ ∧
          pc₀.PortCallsUpdated.Before ((env.clock w.clockReads).Add (-Time.Hour)) = true ∧
          w₁ = tick (afterRead w portCallsFile))) →
      d = download env w₁ portCallsFile portCallsURL →
      (∀ e, d.1 = some e → P (some (.error e, d.2))) ∧
      (d.1 = none →
        (∀ e, (readfile env.decodePortCalls d.2 portCallsFile pc₀).1 = .error e →
          P (some (.error e, afterRead d.2 portCallsFile))) ∧
        (∀ pc, (readfile env.decodePortCalls d.2 portCallsFile pc₀).1 = .ok pc →
          P (afterLoad env portCode pc (afterRead d.2 portCallsFile))))) :
    P (run env w portCode) := by
  have hrest : ∀ (pc : portCalls) (w' : World),
      (match portEvents pc portCode with
        | none => none
        | some (_, some err) => some (.error err, w')
        | some (events, none) =>
          match eventLoop env events w' [] with
          | (rows, w) =>
            match env.stdout ⟨pc.PortCallsUpdated, rows⟩ with
            | some err => some (.error err, w)
            | none => some (.ok ⟨pc.PortCallsUpdated, rows⟩, w)) =
        afterLoad env portCode pc w' := by
    intro pc w'
    unfold afterLoad
    rfl
  have reload : ∀ pc₀ w₁,
      (((∃ e, (readfile env.decodePortCalls w portCallsFile portCalls.zero).1 = .error e ∧
            e.isNotExist = true) ∧ pc₀ = portCalls.zero ∧ w₁ = afterRead w portCallsFile) ∨
        ((readfile env.decodePortCalls w portCallsFile portCalls.zero).1 = .ok pc₀ ∧
          pc₀.PortCallsUpdated.Before ((env.clock w.clockReads).Add (-Time.Hour)) = true ∧
          w₁ = tick (afterRead w portCallsFile))) →
      P (match download env w₁ portCallsFile portCallsURL with
        | (some err, w) => some (.error err, w)
        | (none, w) =>
          match readfile env.decodePortCalls w portCallsFile pc₀ with
          | (.error err, w) => some (.error err, w)
          | (.ok pc, w) => afterLoad env portCode pc w) := by
    intro pc₀ w₁ hfirst
    obtain ⟨m₁, m₂⟩ := h_miss pc₀ w₁ _ hfirst rfl
    rcases hd : download env w₁ portCallsFile portCallsURL with ⟨_ | err, w₂⟩
    · rw [hd] at m₂
      obtain ⟨m₃, m₄⟩ := m₂ rfl
      dsimp only at m₃ m₄ ⊢
      have hw₃ : (readfile env.decodePortCalls w₂ portCallsFile pc₀).2 =
          afterRead w₂ portCallsFile := readfile_world _ _ _ _
      rcases hr : readfile env.decodePortCalls w₂ portCallsFile pc₀ with ⟨_ | pc, w₃⟩
      · rw [hr] at hw₃ m₃
        dsimp only at hw₃ m₃ ⊢
        rw [hw₃]
        exact m₃ _ rfl
      · rw [hr] at hw₃ m₄
        dsimp only at hw₃ m₄ ⊢
        rw [hw₃]
        exact m₄ _ rfl
    · rw [hd] at m₁
      exact m₁ err rfl
  unfold run
  dsimp only
  have hw₁ : (readfile env.decodePortCalls w portCallsFile portCalls.zero).2 =
      afterRead w portCallsFile := readfile_world _ _ _ _
  rcases hr : readfile env.decodePortCalls w portCallsFile portCalls.zero with ⟨e | pc, w₁⟩
  · rw [hr] at hw₁ h_err reload
    dsimp only at hw₁ h_err reload ⊢
    rw [hw₁]
    by_cases hn : e.isNotExist = true
    · rw [if_pos hn]
      exact reload _ _ (Or.inl ⟨⟨e, rfl, hn⟩, rfl, rfl⟩)
    · rw [if_neg hn]
      exact h_err e rfl (by simpa using hn)
  · rw [hr] at hw₁ h_fresh reload
    dsimp only at hw₁ h_fresh reload ⊢
    rw [hw₁]
    have hnow : Now env (afterRead w portCallsFile) =
        (env.clock w.clockReads, tick (afterRead w portCallsFile)) := rfl
    rw [hnow]
    dsimp only
    by_cases hs : pc.PortCallsUpdated.Before ((env.clock w.clockReads).Add (-Time.Hour)) = true
    · rw [if_pos hs]
      exact reload _ _ (Or.inr ⟨rfl, hs, rfl⟩)
    · rw [if_neg hs]
      exact h_fresh pc rfl (by simpa using hs)

end Effects

section Counting

theorem downloadsOf_snoc_read (f file : String) (st : FileState) (tr : List IOEvent) :
    downloadsOf f (tr ++ [IOEvent.read file st]) = downloadsOf f tr := by
  rw [downloadsOf_append]
  simp [downloadsOf, isDownloadOf]

theorem downloadsOf_snoc_download (f file url : String) (o : DownloadOutcome)
    (tr : List IOEvent) :
    downloadsOf f (tr ++ [IOEvent.download file url o]) =
      downloadsOf f tr + (if file = f then 1 else 0) := by
  rw [downloadsOf_append]
  by_cases h : file = f <;> simp [downloadsOf, isDownloadOf, h]

theorem afterRead_trace (w : World) (f : String) :
    (afterRead w f).trace = w.trace ++ [IOEvent.read f (w.files f)] := rfl

theorem afterRead_files (w : World) (f : String) : (afterRead w f).files = w.files := rfl

theorem afterRead_downloads (w : World) (f : String) :
    (afterRead w f).downloads = w.downloads := rfl

theorem tick_trace (w : World) : (tick w).trace = w.trace := rfl

theorem tick_files (w : World) : (tick w).files = w.files := rfl

theorem vesselFileOf_ne_portCallsFile (e : portEvent) : vesselFileOf e ≠ some portCallsFile := by
  unfold vesselFileOf
  cases vesselKey e.mmsi e.imoLloyds e.vessel with
  | none => simp
  | some kv =>
    simp only [Option.map_some', ne_eq, Option.some.injEq]
    exact vesselDetailsFile_ne_portCallsFile _ _

theorem getVesselDetails_downloads (env : Env) (w : World) (mmsi imoLloyds : Int)
    (name f : String) :
    downloadsOf f w.trace ≤ downloadsOf f (getVesselDetails env w mmsi imoLloyds name).2.trace ∧
      downloadsOf f (getVesselDetails env w mmsi imoLloyds name).2.trace ≤
        downloadsOf f w.trace +
          (if (vesselKey mmsi imoLloyds name).map (fun kv => vesselDetailsFile kv.1 kv.2) = some f
            then 1 else 0) := by
  cases hk : vesselKey mmsi imoLloyds name with
  | none =>
    unfold getVesselDetails
    rw [hk]
    simp
  | some kv =>
    obtain ⟨key, value⟩ := kv
    simp only [Option.map_some', Option.some.injEq]
    apply getVesselDetails_elim env w mmsi imoLloyds name key value hk
      (fun r => downloadsOf f w.trace ≤ downloadsOf f r.2.trace ∧
        downloadsOf f r.2.trace ≤
          downloadsOf f w.trace + (if vesselDetailsFile key value = f then 1 else 0))
    · intro e _ _
      simp only [afterRead_trace, downloadsOf_snoc_read]
      omega
    · intro vds _ _
      simp only [afterRead_trace, downloadsOf_snoc_read]
      omega
    · intro d hd _
      subst hd
      simp only [afterRead_trace, download_trace, downloadsOf_snoc_read,
        downloadsOf_snoc_download]
      refine ⟨fun e _ => by omega, fun _ => ⟨fun e _ => by omega, fun vds _ => by omega⟩⟩

theorem getVesselDetails_single_download (env : Env) (w : World) (mmsi imoLloyds : Int)
    (name : String) :
    (getVesselDetails env w mmsi imoLloyds name).2.trace.countP isDownload ≤
      w.trace.countP isDownload + 1 := by
  cases hk : vesselKey mmsi imoLloyds name with
  | none =>
    unfold getVesselDetails
    rw [hk]
    simp
  | some kv =>
    obtain ⟨key, value⟩ := kv
    apply getVesselDetails_elim env w mmsi imoLloyds name key value hk
      (fun r => r.2.trace.countP isDownload ≤ w.trace.countP isDownload + 1)
    · intro e _ _
      simp [afterRead_trace, List.countP_append, isDownload]
    · intro vds _ _
      simp [afterRead_trace, List.countP_append, isDownload]
    · intro d hd _
      subst hd
      simp [afterRead_trace, download_trace, List.countP_append, isDownload]

theorem eventLoop_downloads (env : Env) (f : String) :
    ∀ (events : List portEvent) (w : World) (rows : List Row),
      downloadsOf f w.trace ≤ downloadsOf f (eventLoop env events w rows).2.trace ∧
        downloadsOf f (eventLoop env events w rows).2.trace +
            (rows.filter (fun r => vesselFileOf r.event = some f)).length ≤
          downloadsOf f w.trace +
            ((eventLoop env events w rows).1.filter
              (fun r => vesselFileOf r.event = some f)).length := by
  intro events
  induction events with
  | nil =>
    intro w rows
    simp [eventLoop]
  | cons e rest ih =>
    intro w rows
    have hnow : Now env w = (env.clock w.clockReads, tick w) := rfl
    simp only [eventLoop, hnow]
    split_ifs with hold
    · exact ih (tick w) rows
    · have g := getVesselDetails_downloads env (tick w) e.mmsi e.imoLloyds e.vessel f
      rw [tick_trace] at g
      have hrow : ∀ vd : vesselDetails,
          ((rows ++ [Row.mk e vd]).filter (fun r : Row => vesselFileOf r.event = some f)).length =
            (rows.filter (fun r : Row => vesselFileOf r.event = some f)).length +
              (if (vesselKey e.mmsi e.imoLloyds e.vessel).map
                (fun kv => vesselDetailsFile kv.1 kv.2) = some f then 1 else 0) := by
        intro vd
        rw [List.filter_append, List.length_append]
        congr 1
        by_cases h : vesselFileOf e = some f
        · have h' := h
          unfold vesselFileOf at h'
          simp [List.filter_cons, h, h']
        · have h' := h
          unfold vesselFileOf at h'
          simp [List.filter_cons, h, h']
      rcases hg : getVesselDetails env (tick w) e.mmsi e.imoLloyds e.vessel with ⟨_ | vd, w'⟩
      · rw [hg] at g
        dsimp only at g ⊢
        have := ih w' (rows ++ [⟨e, vesselDetails.zero⟩])
        rw [hrow] at this
        omega
      · rw [hg] at g
        dsimp only at g ⊢
        have := ih w' (rows ++ [⟨e, vd⟩])
        rw [hrow] at this
        omega

theorem download_clockReads (env : Env) (w : World) (filename url : String) :
    (download env w filename url).2.clockReads = w.clockReads := by
  unfold download
  dsimp only
  split <;> rfl

theorem getVesselDetails_clockReads (env : Env) (w : World) (mmsi imoLloyds : Int)
    (name : String) :
    (getVesselDetails env w mmsi imoLloyds name).2.clockReads = w.clockReads := by
  cases hk : vesselKey mmsi imoLloyds name with
  | none =>
    unfold getVesselDetails
    rw [hk]
  | some kv =>
    obtain ⟨key, value⟩ := kv
    apply getVesselDetails_elim env w mmsi imoLloyds name key value hk
      (fun r => r.2.clockReads = w.clockReads)
    · intro e _ _
      rfl
    · intro vds _ _
      rfl
    · intro d hd _
      subst hd
      have h₁ := download_clockReads env (afterRead w (vesselDetailsFile key value))
        (vesselDetailsFile key value) (vesselDetailsURL key value)
      exact ⟨fun e _ => h₁, fun _ => ⟨fun e _ => h₁, fun vds _ => h₁⟩⟩

theorem eventLoop_events (env : Env) :
    ∀ (events : List portEvent) (w : World) (rows : List Row),
      (eventLoop env events w rows).1.map Row.event =
        rows.map Row.event ++
          ((events.enumFrom w.clockReads).filter
            (fun p => !tooOld env.«Local» (env.clock p.1) p.2)).map Prod.snd := by
  intro events
  induction events with
  | nil => intro w rows; simp [eventLoop]
  | cons e rest ih =>
    intro w rows
    have hnow : Now env w = (env.clock w.clockReads, tick w) := rfl
    simp only [eventLoop, hnow, List.enumFrom_cons]
    split_ifs with hold
    · rw [ih, List.filter_cons]
      simp only [hold, Bool.not_true, Bool.false_eq_true, if_false]
      rfl
    · have hc := getVesselDetails_clockReads env (tick w) e.mmsi e.imoLloyds e.vessel
      rcases hg : getVesselDetails env (tick w) e.mmsi e.imoLloyds e.vessel with ⟨_ | vd, w'⟩
      · rw [hg] at hc
        dsimp only at hc ⊢
        rw [ih, List.filter_cons, hc]
        simp only [hold, Bool.not_false, if_true, List.map_append, List.map_cons, List.map_nil,
          List.append_assoc, List.singleton_append]
        rfl
      · rw [hg] at hc
        dsimp only at hc ⊢
        rw [ih, List.filter_cons, hc]
        simp only [hold, Bool.not_false, if_true, List.map_append, List.map_cons, List.map_nil,
          List.append_assoc, List.singleton_append]
        rfl

theorem filter_portCallsFile_nil (rows : List Row) :
    rows.filter (fun r => vesselFileOf r.event = some portCallsFile) = [] := by
  rw [List.filter_eq_nil_iff]
  intro r _
  simpa using vesselFileOf_ne_portCallsFile r.event

theorem afterLoad_eq (env : Env) (portCode : String) (pc : portCalls) (w : World) :
    ∃ evs r, portEvents pc portCode = some (evs, none) ∧
      afterLoad env portCode pc w = some (r, (eventLoop env evs w []).2) ∧
      (∀ out, r = .ok out → out = ⟨pc.PortCallsUpdated, (eventLoop env evs w []).1⟩) := by
  obtain ⟨evs, h, _⟩ := portEvents_spec pc portCode
  unfold afterLoad
  rw [h]
  dsimp only
  cases env.stdout ⟨pc.PortCallsUpdated, (eventLoop env evs w []).1⟩ with
  | none => exact ⟨evs, _, rfl, rfl, fun out ho => by cases ho; rfl⟩
  | some err => exact ⟨evs, _, rfl, rfl, fun out ho => by cases ho⟩

theorem afterLoad_downloads (env : Env) (portCode : String) (pc : portCalls) (w : World) :
    ∃ r w', afterLoad env portCode pc w = some (r, w') ∧
      (∀ f, downloadsOf f w.trace ≤ downloadsOf f w'.trace) ∧
      downloadsOf portCallsFile w'.trace = downloadsOf portCallsFile w.trace ∧
      (∀ out, r = .ok out → ∀ f, downloadsOf f w'.trace ≤ downloadsOf f w.trace +
        (out.rows.filter (fun r => vesselFileOf r.event = some f)).length) := by
  obtain ⟨evs, r, _, h, hout⟩ := afterLoad_eq env portCode pc w
  refine ⟨_, _, h, fun f => (eventLoop_downloads env f evs w []).1, ?_, ?_⟩
  · have := eventLoop_downloads env portCallsFile evs w []
    rw [filter_portCallsFile_nil, filter_portCallsFile_nil] at this
    simp only [List.length_nil] at this
    omega
  · intro out ho f
    rw [hout out ho]
    have := eventLoop_downloads env f evs w []
    simpa using this.2

end Counting

section Support

theorem getVesselDetails_trace_head (env : Env) (w : World) (mmsi imoLloyds : Int)
    (name key value : String) (hk : vesselKey mmsi imoLloyds name = some (key, value)) :
    ∃ tr, (getVesselDetails env w mmsi imoLloyds name).2.trace =
      w.trace ++ IOEvent.read (vesselDetailsFile key value)
        (w.files (vesselDetailsFile key value)) :: tr := by
  have h : (w.trace ++ [IOEvent.read (vesselDetailsFile key value)
      (w.files (vesselDetailsFile key value))]) <+:
      (getVesselDetails env w mmsi imoLloyds name).2.trace := by
    apply getVesselDetails_elim env w mmsi imoLloyds name key value hk
      (fun r => (w.trace ++ [IOEvent.read (vesselDetailsFile key value)
        (w.files (vesselDetailsFile key value))]) <+: r.2.trace)
    · intro e _ _
      exact List.prefix_refl _
    · intro vds _ _
      exact List.prefix_refl _
    · intro d hd _
      subst hd
      have p₁ : (w.trace ++ [IOEvent.read (vesselDetailsFile key value)
          (w.files (vesselDetailsFile key value))]) <+:
          (download env (afterRead w (vesselDetailsFile key value))
            (vesselDetailsFile key value) (vesselDetailsURL key value)).2.trace := by
        rw [download_trace, afterRead_trace]
        exact List.prefix_append _ _
      have p₂ : (w.trace ++ [IOEvent.read (vesselDetailsFile key value)
          (w.files (vesselDetailsFile key value))]) <+:
          (afterRead (download env (afterRead w (vesselDetailsFile key value))
            (vesselDetailsFile key value) (vesselDetailsURL key value)).2
            (vesselDetailsFile key value)).trace := by
        rw [afterRead_trace]
        exact p₁.trans (List.prefix_append _ _)
      exact ⟨fun e _ => p₁, fun _ => ⟨fun e _ => p₂, fun vds _ => p₂⟩⟩
  obtain ⟨tr, htr⟩ := h
  exact ⟨tr, by rw [← htr, List.append_assoc]; rfl⟩

theorem vesselKey_eq_none_iff (mmsi imoLloyds : Int) (name : String) :
    vesselKey mmsi imoLloyds name = none ↔ mmsi ≤ 0 ∧ imoLloyds ≤ 0 ∧ name = "" := by
  unfold vesselKey
  by_cases h₁ : mmsi > 0
  · simp [h₁]
  · by_cases h₂ : imoLloyds > 0
    · simp [h₁, h₂]
    · by_cases h₃ : name = ""
      · simp [h₁, h₂, h₃]
        omega
      · simp [h₁, h₂, h₃]

theorem addDateDays_fixed_offset (loc : Location) (c : Int)
    (hloc : ∀ s, (loc.lookup s).offset = c) (now : Time) :
    (now.AddDateDays loc (-1)).ns = now.ns - 24 * Time.Hour := by
  unfold Time.AddDateDays Time.Unix Time.Nanosecond
  simp only [hloc]
  have hoff : (if c ≠ 0 then
      if now.ns / Time.Second - Time.unixToInternal + c + -1 * Time.secondsPerDay - c <
            (loc.lookup (now.ns / Time.Second - Time.unixToInternal + c +
              -1 * Time.secondsPerDay)).start ∨
          now.ns / Time.Second - Time.unixToInternal + c + -1 * Time.secondsPerDay - c ≥
            (loc.lookup (now.ns / Time.Second - Time.unixToInternal + c +
              -1 * Time.secondsPerDay)).«end» then c
      else c
    else 0) = c := by
    split_ifs <;> first | rfl | omega
  rw [hoff]
  have := Int.ediv_add_emod now.ns Time.Second
  unfold Time.Hour Time.secondsPerDay
  unfold Time.Second at this ⊢
  omega

theorem tooOld_fixed_offset (loc : Location) (c : Int) (hloc : ∀ s, (loc.lookup s).offset = c)
    (now : Time) (e : portEvent) :
    tooOld loc now e = true ↔ e.timestamp.ns < now.ns - 24 * Time.Hour := by
  unfold tooOld Time.Before
  rw [addDateDays_fixed_offset loc c hloc, decide_eq_true_eq]

end Support

/-- C4, as the code has it: the lookup key of `getVesselDetails` is chosen by first match in
the order MMSI, IMO/Lloyds, name: `mmsi` with the decimal MMSI whenever `mmsi > 0`; otherwise
`imo` with the decimal IMO/Lloyds number whenever `imoLloyds > 0`; otherwise `vesselName` with
the escaped name whenever the name is not empty; the cache file of that key is the first
thing read; and the call fails with the identity-unresolved error before any file read or
download exactly when `mmsi ≤ 0`, `imoLloyds ≤ 0` and the name is empty. -/
theorem getVesselDetails_key_priority (env : Env) (w : World) (mmsi imoLloyds : Int)
    (name : String) :
    (0 < mmsi → vesselKey mmsi imoLloyds name = some ("mmsi", toString mmsi)) ∧
    (mmsi ≤ 0 → 0 < imoLloyds → vesselKey mmsi imoLloyds name = some ("imo", toString imoLloyds)) ∧
    (mmsi ≤ 0 → imoLloyds ≤ 0 → name ≠ "" →
      vesselKey mmsi imoLloyds name = some ("vesselName", QueryEscape name)) ∧
    (∀ key value, vesselKey mmsi imoLloyds name = some (key, value) →
      ∃ tr, (getVesselDetails env w mmsi imoLloyds name).2.trace =
        w.trace ++ IOEvent.read (vesselDetailsFile key value)
          (w.files (vesselDetailsFile key value)) :: tr) ∧
    ((getVesselDetails env w mmsi imoLloyds name).1 = .error identityUnresolved ∧
        (getVesselDetails env w mmsi imoLloyds name).2.trace = w.trace ↔
      mmsi ≤ 0 ∧ imoLloyds ≤ 0 ∧ name = "") := by
  refine ⟨fun h => ?_, fun h₁ h₂ => ?_, fun h₁ h₂ h₃ => ?_, fun key value hk => ?_, ?_⟩
  · unfold vesselKey
    simp [h]
  · unfold vesselKey
    simp [h₂, not_lt.mpr h₁]
  · unfold vesselKey
    simp [not_lt.mpr h₁, not_lt.mpr h₂, h₃]
  · exact getVesselDetails_trace_head env w mmsi imoLloyds name key value hk
  · constructor
    · intro ⟨_, htr⟩
      rw [← vesselKey_eq_none_iff]
      cases hk : vesselKey mmsi imoLloyds name with
      | none => rfl
      | some kv =>
        obtain ⟨tr, h⟩ := getVesselDetails_trace_head env w mmsi imoLloyds name kv.1 kv.2 hk
        rw [htr] at h
        have := congrArg List.length h
        simp at this
    · intro h
      have hk := (vesselKey_eq_none_iff mmsi imoLloyds name).mpr h
      unfold getVesselDetails
      rw [hk]
      exact ⟨rfl, rfl⟩

/-- C4 fails for a negative identifier: with `mmsi = -1`, no IMO/Lloyds number and no name,
`getVesselDetails` fails with the identity-unresolved error before any I/O, although the
MMSI is not 0. -/
theorem getVesselDetails_negative_mmsi :
    (getVesselDetails sampleEnv (sampleWorld .absent) (-1) 0 "").1 = .error identityUnresolved ∧
    (getVesselDetails sampleEnv (sampleWorld .absent) (-1) 0 "").2.trace = [] ∧
    ¬ ((-1 : Int) = 0 ∧ (0 : Int) = 0 ∧ "" = "") := by
  refine ⟨rfl, rfl, by decide⟩

/-- C5: when the first read of the port-calls file succeeds with last-updated time `u` and
the clock reads `now`, `run` downloads the port calls (once) if and only if `u` is strictly
before `now` minus one hour; so an entry 1 hour and 1 second old is refreshed, and one
59 minutes or exactly 1 hour old is not. -/
theorem run_refreshes_iff_older_than_hour (env : Env) (w : World) (portCode bytes : String)
    (pc : portCalls) (hfile : w.files portCallsFile = .content bytes)
    (hdec : env.decodePortCalls bytes portCalls.zero = .ok pc) :
    ∃ r w', run env w portCode = some (r, w') ∧
      (downloadsOf portCallsFile w'.trace = downloadsOf portCallsFile w.trace + 1 ↔
        pc.PortCallsUpdated.ns < (env.clock w.clockReads).ns - Time.Hour) ∧
      (downloadsOf portCallsFile w'.trace = downloadsOf portCallsFile w.trace ↔
        ¬ pc.PortCallsUpdated.ns < (env.clock w.clockReads).ns - Time.Hour) ∧
      (pc.PortCallsUpdated.ns = (env.clock w.clockReads).ns - (Time.Hour + Time.Second) →
        downloadsOf portCallsFile w'.trace = downloadsOf portCallsFile w.trace + 1) ∧
      (pc.PortCallsUpdated.ns = (env.clock w.clockReads).ns - 59 * 60 * Time.Second →
        downloadsOf portCallsFile w'.trace = downloadsOf portCallsFile w.trace) ∧
      (pc.PortCallsUpdated.ns = (env.clock w.clockReads).ns - Time.Hour →
        downloadsOf portCallsFile w'.trace = downloadsOf portCallsFile w.trace) := by
  have hfirst : (readfile env.decodePortCalls w portCallsFile portCalls.zero).1 = .ok pc := by
    rw [readfile_result, hfile]
    simp only [hdec]
  have hbefore : pc.PortCallsUpdated.Before ((env.clock w.clockReads).Add (-Time.Hour)) = true ↔
      pc.PortCallsUpdated.ns < (env.clock w.clockReads).ns - Time.Hour := by
    unfold Time.Before Time.Add
    rw [decide_eq_true_eq]
    constructor <;> intro h <;> simp only at h ⊢ <;> omega
  have main : ∃ r w', run env w portCode = some (r, w') ∧
      downloadsOf portCallsFile w'.trace = downloadsOf portCallsFile w.trace +
        (if pc.PortCallsUpdated.ns < (env.clock w.clockReads).ns - Time.Hour then 1 else 0) := by
    apply run_elim env w portCode (fun res => ∃ r w', res = some (r, w') ∧
      downloadsOf portCallsFile w'.trace = downloadsOf portCallsFile w.trace +
        (if pc.PortCallsUpdated.ns < (env.clock w.clockReads).ns - Time.Hour then 1 else 0))
    · intro e he _
      rw [hfirst] at he
      cases he
    · intro pc' hpc' hfresh
      rw [hfirst] at hpc'
      cases hpc'
      obtain ⟨out, w', h₁, _, this, _⟩ := afterLoad_downloads env portCode pc
        (tick (afterRead w portCallsFile))
      refine ⟨_, _, h₁, ?_⟩
      rw [tick_trace, afterRead_trace, downloadsOf_snoc_read] at this
      have hn : ¬ pc.PortCallsUpdated.ns < (env.clock w.clockReads).ns - Time.Hour := by
        rw [← hbefore, hfresh]
        simp
      rw [if_neg hn]
      omega
    · intro pc₀ w₁ d hcase hd
      have hw₁ : downloadsOf portCallsFile w₁.trace = downloadsOf portCallsFile w.trace ∧
          pc.PortCallsUpdated.ns < (env.clock w.clockReads).ns - Time.Hour := by
        rcases hcase with ⟨⟨e, he, _⟩, _, _⟩ | ⟨hpc, hstale, hw⟩
        · rw [hfirst] at he
          cases he
        · rw [hfirst] at hpc
          cases hpc
          rw [hw, tick_trace, afterRead_trace, downloadsOf_snoc_read]
          exact ⟨rfl, hbefore.mp hstale⟩
      obtain ⟨hcount, hstale⟩ := hw₁
      have hd₂ : downloadsOf portCallsFile d.2.trace =
          downloadsOf portCallsFile w.trace + 1 := by
        rw [hd, download_trace, downloadsOf_snoc_download, hcount]
        simp
      rw [if_pos hstale]
      refine ⟨fun e _ => ⟨_, _, rfl, hd₂⟩, fun _ => ⟨fun e _ => ⟨_, _, rfl, ?_⟩, fun pc' _ => ?_⟩⟩
      · rw [afterRead_trace, downloadsOf_snoc_read, hd₂]
      · obtain ⟨out, w', h₁, _, this, _⟩ := afterLoad_downloads env portCode pc'
          (afterRead d.2 portCallsFile)
        refine ⟨_, _, h₁, ?_⟩
        rw [afterRead_trace, downloadsOf_snoc_read, hd₂] at this
        omega
  obtain ⟨r, w', hrun, hcount⟩ := main
  refine ⟨r, w', hrun, ?_, ?_, ?_, ?_, ?_⟩
  · split_ifs at hcount with h <;> constructor <;> intro h' <;> omega
  · split_ifs at hcount with h <;> constructor <;> intro h' <;> omega
  · intro hu
    have : pc.PortCallsUpdated.ns < (env.clock w.clockReads).ns - Time.Hour := by
      rw [hu]
      unfold Time.Second
      omega
    rw [if_pos this] at hcount
    exact hcount
  · intro hu
    have : ¬ pc.PortCallsUpdated.ns < (env.clock w.clockReads).ns - Time.Hour := by
      rw [hu]
      unfold Time.Hour Time.Second
      omega
    rw [if_neg this] at hcount
    exact hcount
  · intro hu
    have : ¬ pc.PortCallsUpdated.ns < (env.clock w.clockReads).ns - Time.Hour := by
      rw [hu]
      omega
    rw [if_neg this] at hcount
    exact hcount

/-- C5, witness: a cache whose port-calls file decodes to the FIKOK feed of 09:30Z, read at
09:45Z. -/
theorem run_refreshes_iff_older_than_hour_witness :
    (sampleWorld (.content "feed")).files portCallsFile = .content "feed" ∧
    sampleEnv.decodePortCalls "feed" portCalls.zero = .ok fikokFeed ∧
    ∃ r w', run sampleEnv (sampleWorld (.content "feed")) "FIKOK" = some (r, w') ∧
      (downloadsOf portCallsFile w'.trace =
          downloadsOf portCallsFile (sampleWorld (.content "feed")).trace + 1 ↔
        fikokFeed.PortCallsUpdated.ns <
          (sampleEnv.clock (sampleWorld (.content "feed")).clockReads).ns - Time.Hour) ∧
      (downloadsOf portCallsFile w'.trace =
          downloadsOf portCallsFile (sampleWorld (.content "feed")).trace ↔
        ¬ fikokFeed.PortCallsUpdated.ns <
          (sampleEnv.clock (sampleWorld (.content "feed")).clockReads).ns - Time.Hour) ∧
      (fikokFeed.PortCallsUpdated.ns =
          (sampleEnv.clock (sampleWorld (.content "feed")).clockReads).ns -
            (Time.Hour + Time.Second) →
        downloadsOf portCallsFile w'.trace =
          downloadsOf portCallsFile (sampleWorld (.content "feed")).trace + 1) ∧
      (fikokFeed.PortCallsUpdated.ns =
          (sampleEnv.clock (sampleWorld (.content "feed")).clockReads).ns -
            59 * 60 * Time.Second →
        downloadsOf portCallsFile w'.trace =
          downloadsOf portCallsFile (sampleWorld (.content "feed")).trace) ∧
      (fikokFeed.PortCallsUpdated.ns =
          (sampleEnv.clock (sampleWorld (.content "feed")).clockReads).ns - Time.Hour →
        downloadsOf portCallsFile w'.trace =
          downloadsOf portCallsFile (sampleWorld (.content "feed")).trace) :=
  ⟨rfl, rfl, run_refreshes_iff_older_than_hour sampleEnv (sampleWorld (.content "feed"))
    "FIKOK" "feed" fikokFeed rfl rfl⟩

/-- C6: for the port-calls entry in `run` and for a vessel-details entry in
`getVesselDetails`, when the first read of the entry fails with an error other than
not-found (a decode error of a corrupted file, say), that same error is returned, nothing is
downloaded and the cache files are left as they were; and a download of the entry happens
only when the first read reports not-found or succeeds with a stale (port calls) or empty
(vessel details) entry. -/
theorem corrupt_entry_propagates (env : Env) (w : World) (portCode : String)
    (mmsi imoLloyds : Int) (name : String) :
    (∀ e, (readfile env.decodePortCalls w portCallsFile portCalls.zero).1 = .error e →
      e.isNotExist = false →
      ∃ w', run env w portCode = some (.error e, w') ∧ w'.files = w.files ∧
        w'.trace.countP isDownload = w.trace.countP isDownload) ∧
    (∀ bytes msg, w.files portCallsFile = .content bytes →
      env.decodePortCalls bytes portCalls.zero = .error msg →
      ∃ w', run env w portCode = some (.error (.other msg), w') ∧ w'.files = w.files ∧
        w'.trace.countP isDownload = w.trace.countP isDownload) ∧
    (∀ key value, vesselKey mmsi imoLloyds name = some (key, value) →
      ∀ e, (readfile env.decodeVesselDetails w (vesselDetailsFile key value) []).1 = .error e →
      e.isNotExist = false →
      ∃ w', getVesselDetails env w mmsi imoLloyds name = (.error e, w') ∧ w'.files = w.files ∧
        w'.trace.countP isDownload = w.trace.countP isDownload) ∧
    (∀ r w', run env w portCode = some (r, w') →
      downloadsOf portCallsFile w.trace < downloadsOf portCallsFile w'.trace →
      (∃ e, (readfile env.decodePortCalls w portCallsFile portCalls.zero).1 = .error e ∧
          e.isNotExist = true) ∨
        (∃ pc, (readfile env.decodePortCalls w portCallsFile portCalls.zero).1 = .ok pc ∧
          pc.PortCallsUpdated.Before ((env.clock w.clockReads).Add (-Time.Hour)) = true)) ∧
    (w.trace.countP isDownload <
        (getVesselDetails env w mmsi imoLloyds name).2.trace.countP isDownload →
      ∃ key value, vesselKey mmsi imoLloyds name = some (key, value) ∧
        ((∃ e, (readfile env.decodeVesselDetails w (vesselDetailsFile key value) []).1 =
            .error e ∧ e.isNotExist = true) ∨
          (readfile env.decodeVesselDetails w (vesselDetailsFile key value) []).1 = .ok [])) := by
  have part₁ : ∀ e, (readfile env.decodePortCalls w portCallsFile portCalls.zero).1 = .error e →
      e.isNotExist = false →
      ∃ w', run env w portCode = some (.error e, w') ∧ w'.files = w.files ∧
        w'.trace.countP isDownload = w.trace.countP isDownload := by
    intro e he hne
    apply run_elim env w portCode (fun res => ∃ w', res = some (.error e, w') ∧
      w'.files = w.files ∧ w'.trace.countP isDownload = w.trace.countP isDownload)
    · intro e' he' _
      rw [he] at he'
      cases he'
      exact ⟨_, rfl, rfl, by simp [afterRead_trace, List.countP_append, isDownload]⟩
    · intro pc hpc _
      rw [he] at hpc
      cases hpc
    · intro pc₀ w₁ d hcase _
      rcases hcase with ⟨⟨e', he', hn'⟩, _, _⟩ | ⟨hpc, _, _⟩
      · rw [he] at he'
        cases he'
        rw [hne] at hn'
        cases hn'
      · rw [he] at hpc
        cases hpc
  refine ⟨part₁, ?_, ?_, ?_, ?_⟩
  · intro bytes msg hfile hdec
    apply part₁
    · rw [readfile_result, hfile]
      simp only [hdec]
    · rfl
  · intro key value hk e he hne
    apply getVesselDetails_elim env w mmsi imoLloyds name key value hk
      (fun r => ∃ w', r = (.error e, w') ∧ w'.files = w.files ∧
        w'.trace.countP isDownload = w.trace.countP isDownload)
    · intro e' he' _
      rw [he] at he'
      cases he'
      exact ⟨_, rfl, rfl, by simp [afterRead_trace, List.countP_append, isDownload]⟩
    · intro vds hv _
      rw [he] at hv
      cases hv
    · intro d _ hcase
      rcases hcase with ⟨e', he', hn'⟩ | hv
      · rw [he] at he'
        cases he'
        rw [hne] at hn'
        cases hn'
      · rw [he] at hv
        cases hv
  · intro r w' hrun hlt
    refine run_elim env w portCode (fun res => res = some (r, w') →
      ((∃ e, (readfile env.decodePortCalls w portCallsFile portCalls.zero).1 = .error e ∧
          e.isNotExist = true) ∨
        (∃ pc, (readfile env.decodePortCalls w portCallsFile portCalls.zero).1 = .ok pc ∧
          pc.PortCallsUpdated.Before ((env.clock w.clockReads).Add (-Time.Hour)) = true)))
      ?_ ?_ ?_ hrun
    · intro e _ _ hres
      cases hres
      rw [afterRead_trace, downloadsOf_snoc_read] at hlt
      omega
    · intro pc _ _ hres
      obtain ⟨out, w'', h₁, _, this, _⟩ := afterLoad_downloads env portCode pc
        (tick (afterRead w portCallsFile))
      rw [h₁] at hres
      cases hres
      rw [tick_trace, afterRead_trace, downloadsOf_snoc_read] at this
      omega
    · intro pc₀ w₁ d hcase _
      have : (∃ e, (readfile env.decodePortCalls w portCallsFile portCalls.zero).1 = .error e ∧
            e.isNotExist = true) ∨
          (∃ pc, (readfile env.decodePortCalls w portCallsFile portCalls.zero).1 = .ok pc ∧
            pc.PortCallsUpdated.Before ((env.clock w.clockReads).Add (-Time.Hour)) = true) := by
        rcases hcase with ⟨h, _, _⟩ | ⟨h₁, h₂, _⟩
        · exact Or.inl h
        · exact Or.inr ⟨pc₀, h₁, h₂⟩
      exact ⟨fun _ _ _ => this, fun _ => ⟨fun _ _ _ => this, fun _ _ _ => this⟩⟩
  · intro hlt
    cases hk : vesselKey mmsi imoLloyds name with
    | none =>
      unfold getVesselDetails at hlt
      rw [hk] at hlt
      simp at hlt
    | some kv =>
      obtain ⟨key, value⟩ := kv
      refine ⟨key, value, rfl, ?_⟩
      refine getVesselDetails_elim env w mmsi imoLloyds name key value hk
        (fun r => w.trace.countP isDownload < r.2.trace.countP isDownload →
          ((∃ e, (readfile env.decodeVesselDetails w (vesselDetailsFile key value) []).1 =
              .error e ∧ e.isNotExist = true) ∨
            (readfile env.decodeVesselDetails w (vesselDetailsFile key value) []).1 = .ok []))
        ?_ ?_ ?_ hlt
      · intro e _ _ hlt
        simp [afterRead_trace, List.countP_append, isDownload] at hlt
      · intro vds _ _ hlt
        simp [afterRead_trace, List.countP_append, isDownload] at hlt
      · intro d _ hcase
        exact ⟨fun _ _ _ => hcase, fun _ => ⟨fun _ _ _ => hcase, fun _ _ _ => hcase⟩⟩

/-- C7, as the code has it: the loop of `run` reads the clock once for every event and
keeps, in input order, exactly the events whose effective timestamp is not strictly before
`now.AddDate(0, 0, -1)` for their reading `now`, the same wall-clock reading one calendar
day earlier in the local time zone; where the local offset from UTC is the same everywhere
(a fixed-offset zone), that instant is exactly `now` minus 24 hours. -/
theorem stale_filter_cutoff (env : Env) (events : List portEvent) (w : World) :
    (eventLoop env events w []).1.map Row.event =
        ((events.enumFrom w.clockReads).filter
          (fun p => !p.2.timestamp.Before ((env.clock p.1).AddDateDays env.«Local» (-1)))).map
          Prod.snd ∧
      (∀ c : Int, (∀ s, (env.«Local».lookup s).offset = c) →
        (∀ now : Time, (now.AddDateDays env.«Local» (-1)).ns = now.ns - 24 * Time.Hour) ∧
        (eventLoop env events w []).1.map Row.event =
          ((events.enumFrom w.clockReads).filter
            (fun p => decide (¬ p.2.timestamp.ns < (env.clock p.1).ns - 24 * Time.Hour))).map
            Prod.snd) := by
  have h := eventLoop_events env events w []
  simp only [List.map_nil, List.nil_append] at h
  refine ⟨h, fun c hloc => ⟨fun now => addDateDays_fixed_offset _ c hloc now, ?_⟩⟩
  rw [h]
  congr 2
  funext p
  have := tooOld_fixed_offset env.«Local» c hloc (env.clock p.1) p.2
  by_cases ht : tooOld env.«Local» (env.clock p.1) p.2 = true
  · simp [ht, this.mp ht]
  · have hn : ¬ p.2.timestamp.ns < (env.clock p.1).ns - 24 * Time.Hour :=
      fun h' => ht (this.mpr h')
    simp [ht, hn]

/-- C7 fails across a change of the local offset: in Helsinki at 2024-03-31T09:00Z (12:00
local, the day summer time began) an event of 2024-03-30T09:30Z is dropped, although it is
not before `now` minus 24 hours (09:00Z the day before); the cutoff is 10:00Z, 23 hours
before `now`. -/
theorem stale_filter_not_24h_across_dst :
    tooOld helsinki (unixTime 1711875600) (estimatedDeparture (unixTime 1711791000)) = true ∧
    (eventLoop helsinkiEnv [estimatedDeparture (unixTime 1711791000)] (sampleWorld .absent)
      []).1 = [] ∧
    (estimatedDeparture (unixTime 1711791000)).timestamp.Before
      ((unixTime 1711875600).Add (-(24 * Time.Hour))) = false ∧
    (unixTime 1711875600).AddDateDays helsinki (-1) = unixTime 1711792800 := by
  refine ⟨by decide, by decide, by decide, by decide⟩

/-- C8, as the code has it: when the loop of `run` reaches an event with the clock reading
`now`, it retains the event (prints a line for it) if its effective timestamp is not before
`now.AddDate(0, 0, -1)`, and skips it if its effective timestamp is the zero time and that
instant is after the zero time; so in a zone of fixed offset from UTC it retains every event
in the future or within the last 24 hours, and skips the events of the zero time as soon as
`now` is more than 24 hours after the zero time. -/
theorem stale_filter_retains_recent (env : Env) (w : World) (rows : List Row) (e : portEvent)
    (rest : List portEvent) :
    (e.timestamp.Before ((env.clock w.clockReads).AddDateDays env.«Local» (-1)) = false →
      (∃ vd w', eventLoop env (e :: rest) w rows = eventLoop env rest w' (rows ++ [⟨e, vd⟩])) ∧
        e ∈ (eventLoop env (e :: rest) w rows).1.map Row.event) ∧
    (e.actual = Time.zero → e.estimate = Time.zero →
      0 < ((env.clock w.clockReads).AddDateDays env.«Local» (-1)).ns →
      eventLoop env (e :: rest) w rows = eventLoop env rest (tick w) rows) ∧
    (∀ c : Int, (∀ s, (env.«Local».lookup s).offset = c) →
      ((env.clock w.clockReads).ns - 24 * Time.Hour ≤ e.timestamp.ns →
        e ∈ (eventLoop env (e :: rest) w rows).1.map Row.event) ∧
      ((env.clock w.clockReads).ns ≤ e.timestamp.ns →
        e ∈ (eventLoop env (e :: rest) w rows).1.map Row.event) ∧
      (e.actual = Time.zero → e.estimate = Time.zero →
        24 * Time.Hour < (env.clock w.clockReads).ns →
        eventLoop env (e :: rest) w rows = eventLoop env rest (tick w) rows)) := by
  have hnow : Now env w = (env.clock w.clockReads, tick w) := rfl
  have hpos : (0 : Int) < 24 * Time.Hour := by decide
  have hzero : e.actual = Time.zero → e.estimate = Time.zero → e.timestamp.ns = 0 := by
    intro ha hest
    unfold portEvent.timestamp
    rw [ha, hest]
    rfl
  have keep : tooOld env.«Local» (env.clock w.clockReads) e = false →
      (∃ vd w', eventLoop env (e :: rest) w rows = eventLoop env rest w' (rows ++ [⟨e, vd⟩])) ∧
        e ∈ (eventLoop env (e :: rest) w rows).1.map Row.event := by
    intro hk
    have hstep : ∃ vd w',
        eventLoop env (e :: rest) w rows = eventLoop env rest w' (rows ++ [⟨e, vd⟩]) := by
      simp only [eventLoop, hnow, hk, Bool.false_eq_true, if_false]
      rcases getVesselDetails env (tick w) e.mmsi e.imoLloyds e.vessel with ⟨_ | vd, w'⟩
      · exact ⟨_, _, rfl⟩
      · exact ⟨_, _, rfl⟩
    refine ⟨hstep, ?_⟩
    obtain ⟨vd, w', h⟩ := hstep
    rw [h, eventLoop_events]
    simp
  have drop : tooOld env.«Local» (env.clock w.clockReads) e = true →
      eventLoop env (e :: rest) w rows = eventLoop env rest (tick w) rows := by
    intro hk
    simp only [eventLoop, hnow, hk, if_true]
  refine ⟨fun hk => keep hk, fun ha hest hcut => drop ?_, fun c hloc => ?_⟩
  · unfold tooOld Time.Before
    rw [decide_eq_true_eq, hzero ha hest]
    exact hcut
  · have hk := tooOld_fixed_offset env.«Local» c hloc (env.clock w.clockReads) e
    refine ⟨fun hr => (keep ?_).2, fun hf => (keep ?_).2, fun ha hest hnow' => drop ?_⟩
    · cases ht : tooOld env.«Local» (env.clock w.clockReads) e with
      | false => rfl
      | true => have := hk.mp ht; omega
    · cases ht : tooOld env.«Local» (env.clock w.clockReads) e with
      | false => rfl
      | true => have := hk.mp ht; omega
    · have hts := hzero ha hest
      exact hk.mpr (by omega)

/-- C8 fails for the zero time: at 2024-01-01T09:45Z in UTC an event whose actual and
estimated times are both zero has the zero time as effective timestamp and is dropped. -/
theorem stale_filter_drops_zero_time :
    (estimatedDeparture Time.zero).timestamp = Time.zero ∧
    tooOld utcLocation (unixTime 1704102300) (estimatedDeparture Time.zero) = true ∧
    (eventLoop sampleEnv [estimatedDeparture Time.zero] (sampleWorld .absent) []).1 = [] := by
  refine ⟨by decide, by decide, by decide⟩

section Entries

theorem download_files_other (env : Env) (w : World) (filename url f : String)
    (h : f ≠ filename) : (download env w filename url).2.files f = w.files f := by
  unfold download
  dsimp only
  split <;> simp [h]

theorem download_files_self (env : Env) (w : World) (filename url : String) :
    (download env w filename url).2.files filename =
      match env.fetch w.downloads filename url with
      | .getFailed _ => w.files filename
      | .createFailed _ => w.files filename
      | .copyFailed _ written => .content written
      | .saved body => .content body := by
  unfold download
  dsimp only
  cases env.fetch w.downloads filename url <;> simp

theorem download_result_some (env : Env) (w : World) (filename url : String) (e : GoError)
    (h : (download env w filename url).1 = some e) :
    ∀ body, env.fetch w.downloads filename url ≠ .saved body := by
  intro body hb
  rw [(download_files_of_saved env w filename url body hb).1] at h
  cases h

theorem readfile_ok_iff (env : Env) (w : World) (f : String) (vds : List vesselDetails) :
    (readfile env.decodeVesselDetails w f []).1 = .ok vds ↔
      ∃ bytes, w.files f = .content bytes ∧ env.decodeVesselDetails bytes [] = .ok vds := by
  rw [readfile_result]
  cases hf : w.files f with
  | absent => simp
  | unreadable msg => simp
  | content bytes =>
    cases hd : env.decodeVesselDetails bytes [] with
    | error m => simp [hd]
    | ok v => simp [hd]

theorem readfile_notExist_iff (env : Env) (w : World) (f : String) :
    (∃ e, (readfile env.decodeVesselDetails w f []).1 = .error e ∧ e.isNotExist = true) ↔
      w.files f = .absent := by
  rw [readfile_result]
  cases hf : w.files f with
  | absent => simp [GoError.isNotExist]
  | unreadable msg => simp [GoError.isNotExist]
  | content bytes =>
    cases hd : env.decodeVesselDetails bytes [] with
    | error m => simp [hd, GoError.isNotExist]
    | ok v => simp [hd]

theorem finishOf_ok_iff (vds : List vesselDetails) (vd : vesselDetails) :
    finishOf vds = .ok vd ↔ vds = [vd] := by
  unfold finishOf
  split
  · simp
  · rename_i hne
    constructor
    · intro h; cases h
    · intro h; exact absurd h (hne vd)

theorem finishOf_error (vds : List vesselDetails) (hlen : vds.length ≠ 1) :
    finishOf vds = .error (.other ("getVesselDetails: expected 1 item, got " ++
      toString vds.length)) := by
  unfold finishOf
  split
  · simp at hlen
  · rfl

end Entries

/-- C9: for a vessel identity that resolves to a key, with cache entry `f`. When `f` holds
at least one record, `getVesselDetails` reads it once, downloads nothing, and succeeds if and
only if the decoded array has exactly one record, which it returns; any other number `n` of
records gives the error `expected 1 item, got n`. When `f` is missing or decodes to zero
records (a cache miss), it issues exactly one download, into `f`, and then succeeds if and
only if the download was saved and the new content of `f` decodes to exactly one record,
which it returns; a saved array of zero or of more than one record gives the same error. In
every case a success leaves `f` holding exactly the record returned. -/
theorem getVesselDetails_needs_one_record (env : Env) (w : World) (mmsi imoLloyds : Int)
    (name key value : String) (hk : vesselKey mmsi imoLloyds name = some (key, value)) :
    (∀ bytes vds, w.files (vesselDetailsFile key value) = .content bytes →
      env.decodeVesselDetails bytes [] = .ok vds → vds ≠ [] →
      (getVesselDetails env w mmsi imoLloyds name).2.trace =
          w.trace ++ [IOEvent.read (vesselDetailsFile key value) (.content bytes)] ∧
        (getVesselDetails env w mmsi imoLloyds name).2.files = w.files ∧
        (∀ vd, (getVesselDetails env w mmsi imoLloyds name).1 = .ok vd ↔ vds = [vd]) ∧
        (vds.length ≠ 1 → (getVesselDetails env w mmsi imoLloyds name).1 =
          .error (.other ("getVesselDetails: expected 1 item, got " ++
            toString vds.length)))) ∧
    ((w.files (vesselDetailsFile key value) = .absent ∨
        ∃ bytes, w.files (vesselDetailsFile key value) = .content bytes ∧
          env.decodeVesselDetails bytes [] = .ok []) →
      (∃ tr, (getVesselDetails env w mmsi imoLloyds name).2.trace =
          w.trace ++ IOEvent.read (vesselDetailsFile key value)
              (w.files (vesselDetailsFile key value)) ::
            IOEvent.download (vesselDetailsFile key value) (vesselDetailsURL key value)
              (env.fetch w.downloads (vesselDetailsFile key value)
                (vesselDetailsURL key value)) :: tr ∧
          tr.countP isDownload = 0) ∧
        (∀ vd, (getVesselDetails env w mmsi imoLloyds name).1 = .ok vd ↔
          ∃ body, env.fetch w.downloads (vesselDetailsFile key value)
              (vesselDetailsURL key value) = .saved body ∧
            env.decodeVesselDetails body [] = .ok [vd]) ∧
        (∀ body vds, env.fetch w.downloads (vesselDetailsFile key value)
            (vesselDetailsURL key value) = .saved body →
          env.decodeVesselDetails body [] = .ok vds →
          (getVesselDetails env w mmsi imoLloyds name).2.trace =
              w.trace ++ [IOEvent.read (vesselDetailsFile key value)
                  (w.files (vesselDetailsFile key value)),
                IOEvent.download (vesselDetailsFile key value) (vesselDetailsURL key value)
                  (.saved body),
                IOEvent.read (vesselDetailsFile key value) (.content body)] ∧
            (getVesselDetails env w mmsi imoLloyds name).2.files (vesselDetailsFile key value) =
              .content body ∧
            (vds.length ≠ 1 → (getVesselDetails env w mmsi imoLloyds name).1 =
              .error (.other ("getVesselDetails: expected 1 item, got " ++
                toString vds.length))))) ∧
    (∀ vd, (getVesselDetails env w mmsi imoLloyds name).1 = .ok vd →
      ∃ bytes, (getVesselDetails env w mmsi imoLloyds name).2.files
          (vesselDetailsFile key value) = .content bytes ∧
        env.decodeVesselDetails bytes [] = .ok [vd]) := by
  have key₀ := getVesselDetails_elim env w mmsi imoLloyds name key value hk
  generalize vesselDetailsFile key value = f at key₀ ⊢
  generalize vesselDetailsURL key value = u at key₀ ⊢
  have hmiss : (w.files f = .absent ∨
      ∃ bytes, w.files f = .content bytes ∧ env.decodeVesselDetails bytes [] = .ok []) ↔
      ((∃ e, (readfile env.decodeVesselDetails w f []).1 = .error e ∧ e.isNotExist = true) ∨
        (readfile env.decodeVesselDetails w f []).1 = .ok []) := by
    rw [readfile_notExist_iff, readfile_ok_iff]
  -- the world after the download of the refresh branch
  have hdtrace : (download env (afterRead w f) f u).2.trace =
      w.trace ++ [IOEvent.read f (w.files f),
        IOEvent.download f u (env.fetch w.downloads f u)] := by
    rw [download_trace, afterRead_trace, List.append_assoc]
    rfl
  have hsaved : ∀ body, env.fetch w.downloads f u = .saved body →
      (download env (afterRead w f) f u).1 = none ∧
        (download env (afterRead w f) f u).2.files f = .content body :=
    fun body hb => download_files_of_saved env (afterRead w f) f u body hb
  refine ⟨fun bytes vds hfile hdec hne => ?_, fun hm => ?_, fun vd => ?_⟩
  · -- at least one record in the entry
    have hv : (readfile env.decodeVesselDetails w f []).1 = .ok vds :=
      (readfile_ok_iff env w f vds).mpr ⟨bytes, hfile, hdec⟩
    refine key₀ (fun r => r.2.trace = w.trace ++ [IOEvent.read f (.content bytes)] ∧
      r.2.files = w.files ∧ (∀ vd, r.1 = .ok vd ↔ vds = [vd]) ∧
      (vds.length ≠ 1 → r.1 = .error (.other ("getVesselDetails: expected 1 item, got " ++
        toString vds.length)))) ?_ ?_ ?_
    · intro e he _
      rw [hv] at he
      cases he
    · intro vds' hv' _
      rw [hv] at hv'
      cases hv'
      refine ⟨by rw [afterRead_trace, hfile], rfl, fun vd => finishOf_ok_iff vds vd,
        fun hlen => finishOf_error vds hlen⟩
    · intro d _ hcase
      rcases hcase with ⟨e, he, _⟩ | hv'
      · rw [hv] at he
        cases he
      · rw [hv] at hv'
        cases hv'
        exact absurd rfl hne
  · -- a cache miss
    have hm' := hmiss.mp hm
    have hnot_err : ∀ e, (readfile env.decodeVesselDetails w f []).1 = .error e →
        e.isNotExist = false → False := by
      intro e he hne
      rcases hm' with ⟨e', he', hn'⟩ | hv
      · rw [he] at he'
        cases he'
        rw [hne] at hn'
        cases hn'
      · rw [he] at hv
        cases hv
    have hnot_hit : ∀ vds, (readfile env.decodeVesselDetails w f []).1 = .ok vds →
        vds ≠ [] → False := by
      intro vds hv hne
      rcases hm' with ⟨e', he', _⟩ | hv'
      · rw [hv] at he'
        cases he'
      · rw [hv] at hv'
        cases hv'
        exact hne rfl
    refine key₀ (fun r =>
      (∃ tr, r.2.trace = w.trace ++ IOEvent.read f (w.files f) ::
          IOEvent.download f u (env.fetch w.downloads f u) :: tr ∧
        tr.countP isDownload = 0) ∧
      (∀ vd, r.1 = .ok vd ↔
        ∃ body, env.fetch w.downloads f u = .saved body ∧
          env.decodeVesselDetails body [] = .ok [vd]) ∧
      (∀ body vds, env.fetch w.downloads f u = .saved body →
        env.decodeVesselDetails body [] = .ok vds →
        r.2.trace = w.trace ++ [IOEvent.read f (w.files f),
            IOEvent.download f u (.saved body), IOEvent.read f (.content body)] ∧
          r.2.files f = .content body ∧
          (vds.length ≠ 1 → r.1 = .error (.other ("getVesselDetails: expected 1 item, got " ++
            toString vds.length))))) ?_ ?_ ?_
    · intro e he hne
      exact (hnot_err e he hne).elim
    · intro vds hv hne
      exact (hnot_hit vds hv hne).elim
    · intro d hd _
      subst hd
      refine ⟨fun e he => ⟨⟨[], hdtrace, rfl⟩, fun vd => ?_, fun body vds hb _ => ?_⟩,
        fun hnone => ?_⟩
      · constructor
        · intro h; cases h
        · intro ⟨body, hb, _⟩
          exact absurd hb (download_result_some env (afterRead w f) f u e he body)
      · exact absurd hb (download_result_some env (afterRead w f) f u e he body)
      · obtain ⟨body, hb⟩ := download_result_none env (afterRead w f) f u hnone
        have hb' : env.fetch w.downloads f u = .saved body := hb
        have hfile := (hsaved body hb').2
        have htr₂ : (afterRead (download env (afterRead w f) f u).2 f).trace =
            w.trace ++ [IOEvent.read f (w.files f), IOEvent.download f u (.saved body),
              IOEvent.read f (.content body)] := by
          rw [afterRead_trace, hdtrace, hfile, hb', List.append_assoc]
          rfl
        have htr₃ : ∃ tr, (afterRead (download env (afterRead w f) f u).2 f).trace =
            w.trace ++ IOEvent.read f (w.files f) ::
              IOEvent.download f u (env.fetch w.downloads f u) :: tr ∧
            tr.countP isDownload = 0 :=
          ⟨[IOEvent.read f (.content body)], by rw [htr₂, hb'], rfl⟩
        refine ⟨fun e he => ⟨htr₃, fun vd => ?_, fun body' vds hb₂ hd₂ => ?_⟩,
          fun vds hv => ⟨htr₃, fun vd => ?_, fun body' vds' hb₂ hd₂ => ?_⟩⟩
        · constructor
          · intro h; cases h
          · intro ⟨body', hb₂, hd₂⟩
            rw [hb'] at hb₂
            cases hb₂
            have := (readfile_ok_iff env _ f [vd]).mpr ⟨body, hfile, hd₂⟩
            rw [he] at this
            cases this
        · rw [hb'] at hb₂
          cases hb₂
          have := (readfile_ok_iff env _ f vds).mpr ⟨body, hfile, hd₂⟩
          rw [he] at this
          cases this
        · dsimp only
          rw [finishOf_ok_iff]
          obtain ⟨bytes, hfile', hdec⟩ := (readfile_ok_iff env _ f vds).mp hv
          rw [hfile] at hfile'
          cases hfile'
          constructor
          · intro h
            subst h
            exact ⟨body, hb', hdec⟩
          · intro ⟨body', hb₂, hd₂⟩
            rw [hb'] at hb₂
            cases hb₂
            rw [hdec] at hd₂
            cases hd₂
            rfl
        · rw [hb'] at hb₂
          cases hb₂
          obtain ⟨bytes, hfile', hdec⟩ := (readfile_ok_iff env _ f vds).mp hv
          rw [hfile] at hfile'
          cases hfile'
          rw [hdec] at hd₂
          cases hd₂
          exact ⟨htr₂, hfile, fun hlen => finishOf_error vds hlen⟩
  · -- a success leaves the record in the entry
    refine key₀ (fun r => r.1 = .ok vd →
      ∃ bytes, r.2.files f = .content bytes ∧ env.decodeVesselDetails bytes [] = .ok [vd])
      ?_ ?_ ?_
    · intro e _ _ h
      cases h
    · intro vds hv _ h
      have := (finishOf_ok_iff vds vd).mp h
      subst this
      exact (readfile_ok_iff env w f [vd]).mp hv
    · intro d hd _
      subst hd
      refine ⟨fun e _ h => (by cases h), fun _ => ⟨fun e _ h => (by cases h), fun vds hv h => ?_⟩⟩
      have := (finishOf_ok_iff vds vd).mp h
      subst this
      exact (readfile_ok_iff env (download env (afterRead w f) f u).2 f [vd]).mp hv

/-- C9, witness: the vessel of the FIKOK feed resolves to its MMSI; a cache entry holding its
one record gives that record without a download, a missing entry gives it after one download
of the record, and an entry of zero records refreshed with zero records gives the error for
0 items. -/
theorem getVesselDetails_needs_one_record_witness :
    vesselKey 230123000 9000000 "AURORA" = some ("mmsi", "230123000") ∧
    (getVesselDetails sampleEnv (cachedWorld (.content "[aurora]")) 230123000 9000000
      "AURORA").1 = .ok auroraDetails ∧
    (getVesselDetails sampleEnv (cachedWorld (.content "[aurora]")) 230123000 9000000
      "AURORA").2.trace =
        [IOEvent.read "vessel-details-mmsi-230123000.json" (.content "[aurora]")] ∧
    (getVesselDetails recordEnv (cachedWorld .absent) 230123000 9000000 "AURORA").1 =
      .ok auroraDetails ∧
    (getVesselDetails sampleEnv (cachedWorld (.content "[]")) 230123000 9000000 "AURORA").1 =
      .error (.other "getVesselDetails: expected 1 item, got 0") :=
  ⟨by decide,
    (((getVesselDetails_needs_one_record sampleEnv (cachedWorld (.content "[aurora]"))
      230123000 9000000 "AURORA" "mmsi" "230123000" (by decide)).1 "[aurora]" [auroraDetails]
      (by decide) rfl (by simp)).2.2.1 auroraDetails).mpr rfl,
    ((getVesselDetails_needs_one_record sampleEnv (cachedWorld (.content "[aurora]"))
      230123000 9000000 "AURORA" "mmsi" "230123000" (by decide)).1 "[aurora]" [auroraDetails]
      (by decide) rfl (by simp)).1,
    (((getVesselDetails_needs_one_record recordEnv (cachedWorld .absent)
      230123000 9000000 "AURORA" "mmsi" "230123000" (by decide)).2.1
      (Or.inl (by decide))).2.1 auroraDetails).mpr ⟨"[aurora]", by decide, rfl⟩,
    (((getVesselDetails_needs_one_record sampleEnv (cachedWorld (.content "[]"))
      230123000 9000000 "AURORA" "mmsi" "230123000" (by decide)).2.1
      (Or.inr ⟨"[]", by decide, rfl⟩)).2.2 "[]" [] (by decide) rfl).2.2 (by decide)⟩

section Refresh

theorem missDownloadsOf_append (env : Env) (f : String) (t₁ t₂ : List IOEvent) :
    missDownloadsOf env f (t₁ ++ t₂) = missDownloadsOf env f t₁ + missDownloadsOf env f t₂ := by
  unfold missDownloadsOf
  exact List.countP_append _ _ _

theorem missDownloadsOf_le (env : Env) (f : String) (tr : List IOEvent) :
    missDownloadsOf env f tr ≤ downloadsOf f tr := by
  unfold missDownloadsOf downloadsOf
  apply List.countP_mono_left
  intro ev _ h
  cases ev with
  | read g s => simp at h
  | download g u o =>
    simp only [Bool.and_eq_true, decide_eq_true_eq] at h
    simp [isDownloadOf, h.1]

theorem cacheMiss_iff (env : Env) (s : FileState) :
    cacheMiss env s = true ↔
      (s = .absent ∨ ∃ bytes, s = .content bytes ∧ env.decodeVesselDetails bytes [] = .ok []) := by
  cases s with
  | absent => simp [cacheMiss]
  | unreadable msg => simp [cacheMiss]
  | content bytes =>
    dsimp only [cacheMiss]
    have e : (FileState.content bytes = FileState.absent ∨
        ∃ b, FileState.content bytes = .content b ∧ env.decodeVesselDetails b [] = .ok []) ↔
        env.decodeVesselDetails bytes [] = .ok [] := by
      constructor
      · rintro (h | ⟨b, h₁, h₂⟩)
        · cases h
        · cases h₁
          exact h₂
      · intro h
        exact Or.inr ⟨bytes, rfl, h⟩
    rw [e]
    generalize env.decodeVesselDetails bytes [] = r
    rcases r with m | (_ | ⟨x, xs⟩) <;> simp

/-- What one call of `getVesselDetails` does to the entry `f`: it leaves it alone, or it
downloads it once on a miss, and then the entry either is still a miss or is no miss. -/
theorem getVesselDetails_step (env : Env) (w : World) (mmsi imoLloyds : Int) (name f : String) :
    ∃ tr, (getVesselDetails env w mmsi imoLloyds name).2.trace = w.trace ++ tr ∧
      ((downloadsOf f tr = 0 ∧ missDownloadsOf env f tr = 0 ∧
          (getVesselDetails env w mmsi imoLloyds name).2.files f = w.files f) ∨
        (cacheMiss env (w.files f) = true ∧ downloadsOf f tr = 1 ∧
          missDownloadsOf env f tr = 1) ∨
        (cacheMiss env (w.files f) = true ∧ downloadsOf f tr = 1 ∧
          missDownloadsOf env f tr = 0 ∧
          cacheMiss env ((getVesselDetails env w mmsi imoLloyds name).2.files f) = false)) := by
  cases hk : vesselKey mmsi imoLloyds name with
  | none =>
    unfold getVesselDetails
    rw [hk]
    exact ⟨[], by simp, Or.inl ⟨rfl, rfl, rfl⟩⟩
  | some kv =>
    obtain ⟨key, value⟩ := kv
    have key₀ := getVesselDetails_elim env w mmsi imoLloyds name key value hk
    generalize vesselDetailsFile key value = g at key₀
    generalize vesselDetailsURL key value = u at key₀
    -- one more read changes nothing
    have stepRead : ∀ w₂ : World,
        (∃ tr, w₂.trace = w.trace ++ tr ∧
          ((downloadsOf f tr = 0 ∧ missDownloadsOf env f tr = 0 ∧ w₂.files f = w.files f) ∨
            (cacheMiss env (w.files f) = true ∧ downloadsOf f tr = 1 ∧
              missDownloadsOf env f tr = 1) ∨
            (cacheMiss env (w.files f) = true ∧ downloadsOf f tr = 1 ∧
              missDownloadsOf env f tr = 0 ∧ cacheMiss env (w₂.files f) = false))) →
        ∃ tr, (afterRead w₂ g).trace = w.trace ++ tr ∧
          ((downloadsOf f tr = 0 ∧ missDownloadsOf env f tr = 0 ∧
              (afterRead w₂ g).files f = w.files f) ∨
            (cacheMiss env (w.files f) = true ∧ downloadsOf f tr = 1 ∧
              missDownloadsOf env f tr = 1) ∨
            (cacheMiss env (w.files f) = true ∧ downloadsOf f tr = 1 ∧
              missDownloadsOf env f tr = 0 ∧
              cacheMiss env ((afterRead w₂ g).files f) = false)) := by
      intro w₂ ⟨tr, htr, h⟩
      refine ⟨tr ++ [IOEvent.read g (w₂.files g)], ?_, ?_⟩
      · rw [afterRead_trace, htr, List.append_assoc]
      · have e₁ : downloadsOf f (tr ++ [IOEvent.read g (w₂.files g)]) = downloadsOf f tr :=
          downloadsOf_snoc_read _ _ _ _
        have e₂ : missDownloadsOf env f (tr ++ [IOEvent.read g (w₂.files g)]) =
            missDownloadsOf env f tr := by
          rw [missDownloadsOf_append]
          simp [missDownloadsOf]
        rw [e₁, e₂, afterRead_files]
        exact h
    have start : ∃ tr, w.trace = w.trace ++ tr ∧
        ((downloadsOf f tr = 0 ∧ missDownloadsOf env f tr = 0 ∧ w.files f = w.files f) ∨
          (cacheMiss env (w.files f) = true ∧ downloadsOf f tr = 1 ∧
            missDownloadsOf env f tr = 1) ∨
          (cacheMiss env (w.files f) = true ∧ downloadsOf f tr = 1 ∧
            missDownloadsOf env f tr = 0 ∧ cacheMiss env (w.files f) = false)) :=
      ⟨[], by simp, Or.inl ⟨rfl, rfl, rfl⟩⟩
    refine key₀ (fun r => ∃ tr, r.2.trace = w.trace ++ tr ∧
      ((downloadsOf f tr = 0 ∧ missDownloadsOf env f tr = 0 ∧ r.2.files f = w.files f) ∨
        (cacheMiss env (w.files f) = true ∧ downloadsOf f tr = 1 ∧
          missDownloadsOf env f tr = 1) ∨
        (cacheMiss env (w.files f) = true ∧ downloadsOf f tr = 1 ∧
          missDownloadsOf env f tr = 0 ∧ cacheMiss env (r.2.files f) = false))) ?_ ?_ ?_
    · intro e _ _
      exact stepRead w start
    · intro vds _ _
      exact stepRead w start
    · intro d hd hcase
      subst hd
      have hmiss : cacheMiss env (w.files g) = true := by
        rw [cacheMiss_iff]
        rw [readfile_notExist_iff, readfile_ok_iff] at hcase
        exact hcase
      have hd₂ : ∃ tr, (download env (afterRead w g) g u).2.trace = w.trace ++ tr ∧
          ((downloadsOf f tr = 0 ∧ missDownloadsOf env f tr = 0 ∧
              (download env (afterRead w g) g u).2.files f = w.files f) ∨
            (cacheMiss env (w.files f) = true ∧ downloadsOf f tr = 1 ∧
              missDownloadsOf env f tr = 1) ∨
            (cacheMiss env (w.files f) = true ∧ downloadsOf f tr = 1 ∧
              missDownloadsOf env f tr = 0 ∧
              cacheMiss env ((download env (afterRead w g) g u).2.files f) = false)) := by
        refine ⟨[IOEvent.read g (w.files g),
          IOEvent.download g u (env.fetch w.downloads g u)], ?_, ?_⟩
        · rw [download_trace, afterRead_trace, List.append_assoc]
          rfl
        · by_cases hgf : g = f
          · subst hgf
            have hdl : downloadsOf g [IOEvent.read g (w.files g),
                IOEvent.download g u (env.fetch w.downloads g u)] = 1 := by
              simp [downloadsOf, isDownloadOf]
            have hfile := download_files_self env (afterRead w g) g u
            rw [afterRead_downloads, afterRead_files] at hfile
            cases ho : env.fetch w.downloads g u with
            | getFailed err =>
              refine Or.inr (Or.inl ⟨hmiss, ?_, ?_⟩)
              · rw [← ho]; exact hdl
              · simp [missDownloadsOf, missAfter]
            | createFailed err =>
              refine Or.inr (Or.inl ⟨hmiss, ?_, ?_⟩)
              · rw [← ho]; exact hdl
              · simp [missDownloadsOf, missAfter]
            | copyFailed err written =>
              rw [ho] at hfile hdl
              dsimp only at hfile
              by_cases hm : cacheMiss env (.content written) = true
              · refine Or.inr (Or.inl ⟨hmiss, hdl, ?_⟩)
                simp [missDownloadsOf, missAfter, hm]
              · refine Or.inr (Or.inr ⟨hmiss, hdl, ?_, ?_⟩)
                · simp [missDownloadsOf, missAfter, hm]
                · rw [hfile]
                  simpa using hm
            | saved body =>
              rw [ho] at hfile hdl
              dsimp only at hfile
              by_cases hm : cacheMiss env (.content body) = true
              · refine Or.inr (Or.inl ⟨hmiss, hdl, ?_⟩)
                simp [missDownloadsOf, missAfter, hm]
              · refine Or.inr (Or.inr ⟨hmiss, hdl, ?_, ?_⟩)
                · simp [missDownloadsOf, missAfter, hm]
                · rw [hfile]
                  simpa using hm
          · refine Or.inl ⟨?_, ?_, ?_⟩
            · simp [downloadsOf, isDownloadOf, hgf]
            · simp [missDownloadsOf, hgf]
            · rw [download_files_other env (afterRead w g) g u f (Ne.symm hgf), afterRead_files]
      exact ⟨fun e _ => hd₂, fun _ => ⟨fun e _ => stepRead _ hd₂, fun vds _ => stepRead _ hd₂⟩⟩

/-- The loop of `run` and one entry `f`: no download while the entry is no miss, and at most
one download beyond those that left the entry a miss. -/
theorem eventLoop_refresh (env : Env) (f : String) :
    ∀ (events : List portEvent) (w : World) (rows : List Row),
      ∃ tr, (eventLoop env events w rows).2.trace = w.trace ++ tr ∧
        (cacheMiss env (w.files f) = false → downloadsOf f tr = 0) ∧
        downloadsOf f tr ≤ missDownloadsOf env f tr + 1 := by
  intro events
  induction events with
  | nil =>
    intro w rows
    exact ⟨[], by simp [eventLoop], fun _ => rfl, by simp [downloadsOf]⟩
  | cons e rest ih =>
    intro w rows
    have hnow : Now env w = (env.clock w.clockReads, tick w) := rfl
    simp only [eventLoop, hnow]
    split_ifs with hold
    · exact ih (tick w) rows
    · obtain ⟨tr₁, h₁, hstep⟩ := getVesselDetails_step env (tick w) e.mmsi e.imoLloyds e.vessel f
      rw [tick_trace] at h₁
      rw [tick_files] at hstep
      have combine : ∀ (w₁ : World) (rows₁ : List Row), w₁.trace = w.trace ++ tr₁ →
          ((downloadsOf f tr₁ = 0 ∧ missDownloadsOf env f tr₁ = 0 ∧ w₁.files f = w.files f) ∨
            (cacheMiss env (w.files f) = true ∧ downloadsOf f tr₁ = 1 ∧
              missDownloadsOf env f tr₁ = 1) ∨
            (cacheMiss env (w.files f) = true ∧ downloadsOf f tr₁ = 1 ∧
              missDownloadsOf env f tr₁ = 0 ∧ cacheMiss env (w₁.files f) = false)) →
          ∃ tr, (eventLoop env rest w₁ rows₁).2.trace = w.trace ++ tr ∧
            (cacheMiss env (w.files f) = false → downloadsOf f tr = 0) ∧
            downloadsOf f tr ≤ missDownloadsOf env f tr + 1 := by
        intro w₁ rows₁ hw₁ hs
        obtain ⟨tr₂, h₂, hhit, hbound⟩ := ih w₁ rows₁
        refine ⟨tr₁ ++ tr₂, by rw [h₂, hw₁, List.append_assoc], ?_, ?_⟩
        · intro hno
          rw [downloadsOf_append]
          rcases hs with ⟨a, _, c⟩ | ⟨a, _, _⟩ | ⟨a, _, _, _⟩
          · rw [c] at hhit
            rw [a, hhit hno]
          · rw [hno] at a
            cases a
          · rw [hno] at a
            cases a
        · rw [downloadsOf_append, missDownloadsOf_append]
          rcases hs with ⟨a, b, _⟩ | ⟨_, a, b⟩ | ⟨_, a, b, c⟩
          · omega
          · omega
          · have := hhit c
            omega
      rcases hg : getVesselDetails env (tick w) e.mmsi e.imoLloyds e.vessel with ⟨_ | vd, w₁⟩
      · rw [hg] at h₁ hstep
        exact combine w₁ _ h₁ hstep
      · rw [hg] at h₁ hstep
        exact combine w₁ _ h₁ hstep

/-- The part of `run` after the port calls are loaded, and its downloads. -/
theorem afterLoad_refresh (env : Env) (portCode : String) (pc : portCalls) (w : World) :
    ∃ r w' tr, afterLoad env portCode pc w = some (r, w') ∧ w'.trace = w.trace ++ tr ∧
      downloadsOf portCallsFile tr = 0 ∧
      ∀ f, (cacheMiss env (w.files f) = false → downloadsOf f tr = 0) ∧
        downloadsOf f tr ≤ missDownloadsOf env f tr + 1 ∧
        (∀ out, r = .ok out → downloadsOf f tr ≤
          (out.rows.filter (fun row => vesselFileOf row.event = some f)).length) := by
  obtain ⟨evs, r, _, h, hout⟩ := afterLoad_eq env portCode pc w
  obtain ⟨tr, htr, _, _⟩ := eventLoop_refresh env portCallsFile evs w []
  have hrows : ∀ f, downloadsOf f tr ≤
      ((eventLoop env evs w []).1.filter (fun row => vesselFileOf row.event = some f)).length := by
    intro f
    have := (eventLoop_downloads env f evs w []).2
    rw [htr, downloadsOf_append] at this
    simpa using this
  refine ⟨r, _, tr, h, htr, ?_, fun f => ⟨?_, ?_, fun out ho => ?_⟩⟩
  · have := hrows portCallsFile
    rw [filter_portCallsFile_nil] at this
    simpa using this
  · obtain ⟨tr', htr', hhit, _⟩ := eventLoop_refresh env f evs w []
    rw [htr] at htr'
    have := List.append_cancel_left htr'
    subst this
    exact hhit
  · obtain ⟨tr', htr', _, hb⟩ := eventLoop_refresh env f evs w []
    rw [htr] at htr'
    have := List.append_cancel_left htr'
    subst this
    exact hb
  · rw [hout out ho]
    exact hrows f

end Refresh

/-- C10, as the code has it: in one run the port-calls file is downloaded at most once. A
vessel-details file whose entry is no cache miss (it is there and does not decode to zero
records) is not downloaded. Otherwise the file is downloaded at most once beyond the
downloads that left its entry a miss (they failed before writing the file, or wrote content
that decodes to zero records), and, in a run that ends without error, at most once for every
printed event whose vessel resolves to it; one call of `getVesselDetails` downloads at most
once. With an upstream that serves one record, the arrival and the departure of the FIKOK
scenario are both printed and cost one download of `vessel-details-mmsi-230123000.json`. -/
theorem downloads_per_run (env : Env) (w : World) (portCode : String) :
    (∃ r w' tr, run env w portCode = some (r, w') ∧ w'.trace = w.trace ++ tr ∧
      downloadsOf portCallsFile tr ≤ 1 ∧
      ∀ f, f ≠ portCallsFile →
        (cacheMiss env (w.files f) = false → downloadsOf f tr = 0) ∧
        downloadsOf f tr ≤ missDownloadsOf env f tr + 1 ∧
        (∀ out, r = .ok out → downloadsOf f tr ≤
          (out.rows.filter (fun row => vesselFileOf row.event = some f)).length)) ∧
    (∀ (w₀ : World) (mmsi imoLloyds : Int) (name : String),
      (getVesselDetails env w₀ mmsi imoLloyds name).2.trace.countP isDownload ≤
        w₀.trace.countP isDownload + 1) ∧
    (run recordEnv (sampleWorld (.content "feed")) "FIKOK").map
      (fun r => (r.1.toOption.map (fun out => out.rows.length),
        downloadsOf "vessel-details-mmsi-230123000.json" r.2.trace)) = some (some 2, 1) := by
  refine ⟨?_, fun w₀ mmsi imoLloyds name =>
    getVesselDetails_single_download env w₀ mmsi imoLloyds name, by decide⟩
  -- from a world reached with the I/O `pre`, which touched no vessel-details file
  have hstop : ∀ (e : GoError) (w₂ : World) (pre : List IOEvent), w₂.trace = w.trace ++ pre →
      downloadsOf portCallsFile pre ≤ 1 →
      (∀ f, f ≠ portCallsFile → downloadsOf f pre = 0) →
      ∃ r w' tr, some ((Except.error e : Except GoError Output), w₂) = some (r, w') ∧
        w'.trace = w.trace ++ tr ∧ downloadsOf portCallsFile tr ≤ 1 ∧
        ∀ f, f ≠ portCallsFile →
          (cacheMiss env (w.files f) = false → downloadsOf f tr = 0) ∧
          downloadsOf f tr ≤ missDownloadsOf env f tr + 1 ∧
          (∀ out, r = .ok out → downloadsOf f tr ≤
            (out.rows.filter (fun row => vesselFileOf row.event = some f)).length) := by
    intro e w₂ pre hpre hpc hvessel
    refine ⟨_, _, pre, rfl, hpre, hpc, fun f hf => ⟨fun _ => hvessel f hf, ?_, fun out ho => ?_⟩⟩
    · rw [hvessel f hf]
      omega
    · cases ho
  have hload : ∀ (pc : portCalls) (w₂ : World) (pre : List IOEvent),
      w₂.trace = w.trace ++ pre → downloadsOf portCallsFile pre ≤ 1 →
      (∀ f, f ≠ portCallsFile → downloadsOf f pre = 0 ∧ w₂.files f = w.files f) →
      ∃ r w' tr, afterLoad env portCode pc w₂ = some (r, w') ∧
        w'.trace = w.trace ++ tr ∧ downloadsOf portCallsFile tr ≤ 1 ∧
        ∀ f, f ≠ portCallsFile →
          (cacheMiss env (w.files f) = false → downloadsOf f tr = 0) ∧
          downloadsOf f tr ≤ missDownloadsOf env f tr + 1 ∧
          (∀ out, r = .ok out → downloadsOf f tr ≤
            (out.rows.filter (fun row => vesselFileOf row.event = some f)).length) := by
    intro pc w₂ pre hpre hpc hvessel
    obtain ⟨r, w', tr₂, h, htr, hpc₂, hf₂⟩ := afterLoad_refresh env portCode pc w₂
    refine ⟨r, w', pre ++ tr₂, h, by rw [htr, hpre, List.append_assoc], ?_, fun f hf => ?_⟩
    · rw [downloadsOf_append]
      omega
    · obtain ⟨hzero, hsame⟩ := hvessel f hf
      obtain ⟨a, b, c⟩ := hf₂ f
      rw [hsame] at a
      have hm := missDownloadsOf_le env f pre
      rw [downloadsOf_append, missDownloadsOf_append, hzero]
      refine ⟨fun hno => by rw [a hno], by omega, fun out ho => ?_⟩
      have := c out ho
      omega
  have hread : ∀ (g : String) (s : FileState) (f : String),
      downloadsOf f [IOEvent.read g s] = 0 := by
    intro g s f
    simp [downloadsOf, isDownloadOf]
  apply run_elim env w portCode (fun res => ∃ r w' tr, res = some (r, w') ∧
    w'.trace = w.trace ++ tr ∧ downloadsOf portCallsFile tr ≤ 1 ∧
    ∀ f, f ≠ portCallsFile →
      (cacheMiss env (w.files f) = false → downloadsOf f tr = 0) ∧
      downloadsOf f tr ≤ missDownloadsOf env f tr + 1 ∧
      (∀ out, r = .ok out → downloadsOf f tr ≤
        (out.rows.filter (fun row => vesselFileOf row.event = some f)).length))
  · intro e _ _
    refine hstop e _ [IOEvent.read portCallsFile (w.files portCallsFile)] rfl ?_ ?_
    · rw [hread]
      omega
    · intro f _
      exact hread _ _ f
  · intro pc _ _
    refine hload pc _ [IOEvent.read portCallsFile (w.files portCallsFile)] rfl ?_ ?_
    · rw [hread]
      omega
    · intro f _
      exact ⟨hread _ _ f, rfl⟩
  · intro pc₀ w₁ d hcase hd
    have hw₁ : w₁.trace = w.trace ++ [IOEvent.read portCallsFile (w.files portCallsFile)] ∧
        w₁.files = w.files := by
      rcases hcase with ⟨_, _, hw⟩ | ⟨_, _, hw⟩
      · rw [hw]
        exact ⟨rfl, rfl⟩
      · rw [hw]
        exact ⟨rfl, rfl⟩
    obtain ⟨hw₁t, hw₁f⟩ := hw₁
    have hdt : d.2.trace = w.trace ++ [IOEvent.read portCallsFile (w.files portCallsFile),
        IOEvent.download portCallsFile portCallsURL
          (env.fetch w₁.downloads portCallsFile portCallsURL)] := by
      rw [hd, download_trace, hw₁t, List.append_assoc]
      rfl
    have hdf : ∀ f, f ≠ portCallsFile → d.2.files f = w.files f := by
      intro f hf
      rw [hd, download_files_other env w₁ portCallsFile portCallsURL f hf, hw₁f]
    have hdt₂ : (afterRead d.2 portCallsFile).trace =
        w.trace ++ [IOEvent.read portCallsFile (w.files portCallsFile),
          IOEvent.download portCallsFile portCallsURL
            (env.fetch w₁.downloads portCallsFile portCallsURL),
          IOEvent.read portCallsFile (d.2.files portCallsFile)] := by
      rw [afterRead_trace, hdt, List.append_assoc]
      rfl
    have c₁ : ∀ (o : DownloadOutcome) (s : FileState),
        downloadsOf portCallsFile [IOEvent.read portCallsFile (w.files portCallsFile),
          IOEvent.download portCallsFile portCallsURL o] ≤ 1 ∧
        downloadsOf portCallsFile [IOEvent.read portCallsFile (w.files portCallsFile),
          IOEvent.download portCallsFile portCallsURL o, IOEvent.read portCallsFile s] ≤ 1 := by
      intro o s
      simp [downloadsOf, isDownloadOf]
    have c₂ : ∀ (o : DownloadOutcome) (s : FileState) (f : String), f ≠ portCallsFile →
        downloadsOf f [IOEvent.read portCallsFile (w.files portCallsFile),
          IOEvent.download portCallsFile portCallsURL o] = 0 ∧
        downloadsOf f [IOEvent.read portCallsFile (w.files portCallsFile),
          IOEvent.download portCallsFile portCallsURL o, IOEvent.read portCallsFile s] = 0 := by
      intro o s f hf
      simp [downloadsOf, isDownloadOf, Ne.symm hf]
    refine ⟨fun e _ => hstop e _ _ hdt (c₁ _ .absent).1 (fun f hf => (c₂ _ .absent f hf).1),
      fun _ => ⟨fun e _ => hstop e _ _ hdt₂ (c₁ _ _).2 (fun f hf => (c₂ _ _ f hf).2),
        fun pc _ => hload pc _ _ hdt₂ (c₁ _ _).2
          (fun f hf => ⟨(c₂ _ _ f hf).2, by rw [afterRead_files]; exact hdf f hf⟩)⟩⟩

/-- C10 fails when upstream answers with an empty array: with a fresh port-calls file and no
vessel-details file, the run for FIKOK prints the arrival and the departure of one visit, and
looks the same vessel up twice, downloading `vessel-details-mmsi-230123000.json` both
times. -/
theorem vessel_details_downloaded_twice :
    (run sampleEnv (sampleWorld (.content "feed")) "FIKOK").map
        (fun r => downloadsOf "vessel-details-mmsi-230123000.json" r.2.trace) = some 2 ∧
    (run sampleEnv (sampleWorld (.content "feed")) "FIKOK").map (fun r => r.2.trace) = some
      [IOEvent.read "portcalls.json" (.content "feed"),
        IOEvent.read "vessel-details-mmsi-230123000.json" .absent,
        IOEvent.download "vessel-details-mmsi-230123000.json"
          "https://meri.digitraffic.fi/api/v1/metadata/vessel-details?mmsi=230123000"
          (.saved "[]"),
        IOEvent.read "vessel-details-mmsi-230123000.json" (.content "[]"),
        IOEvent.read "vessel-details-mmsi-230123000.json" (.content "[]"),
        IOEvent.download "vessel-details-mmsi-230123000.json"
          "https://meri.digitraffic.fi/api/v1/metadata/vessel-details?mmsi=230123000"
          (.saved "[]"),
        IOEvent.read "vessel-details-mmsi-230123000.json" (.content "[]")] := by
  refine ⟨by decide, by decide⟩
